import Mathlib

/-!
# A shallow embedding of the smmap sliding-window memory-map manager

This file embeds `src/smmap/mman.py` (the `WindowCursor`,
`StaticWindowMapManager` and `SlidingWindowMapManager` classes) into Lean 4
and proves the testable properties of the specification against it.

`mman.py` imports `MapWindow`, `MapRegion`, `MapRegionList` and
`align_to_mmap` from a `util` module that is not part of the sources at
hand; those collaborators are modelled from the specification (spec.md
sections 3, 4.1-4.3 and 6) and carry a `Modelled from the spec:` note.
Everything else is translated from `mman.py` directly, with line numbers
cited in the comments.

Modelling conventions:
* machine integers are `Nat`; Python's `x or y` on integers is
  `if x = 0 then y else x`.
* CPython reference counts, which `mman.py` reads through `client_count()`,
  are made explicit: `MState.pins rid` is the number of live cursor
  references to the region with ghost identity `rid`, and
  `MState.lrefs fid` is the number of live cursors referencing the region
  list of file `fid`.  A region's `client_count()` is `pins + 2` at the
  LRU-scan site (owning list + scan variable), a list's `client_count()`
  is `lrefs + 1` (manager + cursors), following spec sections 4.2-4.3.
* Python object identity of regions is modelled by a ghost id `rid`,
  drawn from the monotone counter `MState.next_rid`.
* the fallible `mmap` platform primitive is an oracle `env : Nat → Bool`
  consulted at the `MState.mapCalls`-th construction attempt.
* eviction attempts are recorded in the ghost field `MState.trace`
  (the `size` argument of each `_collect_lru_region` call), so that
  "the manager attempts eviction" is a statement about the state.
-/

namespace Smmap

/-- Modelled from the spec: the platform `page_size()` primitive is out of
scope (spec section 6); window alignment is parameterised by `page`.
`alignDown n page` rounds `n` down to a multiple of `page`. -/
def alignDown (n page : Nat) : Nat := page * (n / page)

/-- Modelled from the spec: rounding up to a page multiple, the second half
of `align_to_mmap` (spec section 4.1). -/
def alignUp (n page : Nat) : Nat := page * ((n + page - 1) / page)

/-- Modelled from the spec: `MapRegion` (util module, spec section 3 and 4.2).
Attributes `begin` (`_b` in `mman.py`), `size` (actual mapped length) and
`last_used` (`_uc` in `mman.py`, stamped from the manager's monotonic clock
on each pin).  `rid` is the ghost object identity. -/
structure MapRegion where
  _b : Nat
  size : Nat
  _uc : Nat
  rid : Nat
deriving DecidableEq, Repr

instance : Inhabited MapRegion := ⟨⟨0, 0, 0, 0⟩⟩

/-- Modelled from the spec: `MapRegion.includes_ofs(o) = begin ≤ o < begin+size`
(spec section 3). -/
def MapRegion.includes_ofs (r : MapRegion) (o : Nat) : Bool :=
  decide (r._b ≤ o) && decide (o < r._b + r.size)

/-- Modelled from the spec: constructing a region maps
`[begin, min(begin+requested, file_size))` (spec section 4.2), so the actual
size is `min requested (fsize - b)`.  `last_used` starts at 0; the ghost id
is supplied by the manager. -/
def mkMapRegion (rid b requested fsize : Nat) : MapRegion :=
  ⟨b, min requested (fsize - b), 0, rid⟩

/-- Modelled from the spec: `MapWindow`, the pure `(ofs, size)` value object
used to plan placements (spec sections 3 and 4.1). -/
structure MapWindow where
  ofs : Nat
  size : Nat
deriving DecidableEq, Repr

/-- Modelled from the spec: `ofs_end = ofs + size`. -/
def MapWindow.ofsEnd (w : MapWindow) : Nat := w.ofs + w.size

/-- Modelled from the spec: construct a window from a region (copies
`begin`, `size`). -/
def MapWindow.from_region (r : MapRegion) : MapWindow := ⟨r._b, r.size⟩

/-- Modelled from the spec (section 4.1): `extend_left_to(left, max_size)`:
`nleft = ofs - left.ofs_end`, `grow = min(nleft, max_size - size)` when
`max_size > size` else 0 (truncated `Nat` subtraction makes the two cases
coincide); `ofs -= grow`, `size += grow`. -/
def MapWindow.extend_left_to (w left : MapWindow) (maxSize : Nat) : MapWindow :=
  let grow := min (w.ofs - left.ofsEnd) (maxSize - w.size)
  ⟨w.ofs - grow, w.size + grow⟩

/-- Modelled from the spec (section 4.1): the symmetric right extension,
bounded by `right.ofs`. -/
def MapWindow.extend_right_to (w right : MapWindow) (maxSize : Nat) : MapWindow :=
  let grow := min (right.ofs - w.ofsEnd) (maxSize - w.size)
  ⟨w.ofs, w.size + grow⟩

/-- Modelled from the spec (section 4.1): `align()` rounds `ofs` down and
`ofs_end` up to page multiples. -/
def MapWindow.align (w : MapWindow) (page : Nat) : MapWindow :=
  let nofs := alignDown w.ofs page
  let nend := alignUp (w.ofs + w.size) page
  ⟨nofs, nend - nofs⟩

/-- Modelled from the spec: `MapRegionList` (spec sections 3 and 4.3): file
identity (a `Nat` stands for the path-or-descriptor), the file size cached
at creation, and the ordered sequence of regions. -/
structure MapRegionList where
  path_or_fd : Nat
  file_size : Nat
  regions : List MapRegion
deriving DecidableEq, Repr

/-- The manager state: `StaticWindowMapManager.__slots__` (mman.py 224-231)
plus the ghost fields described in the module docstring.  `sliding`
selects the `_obtain_region` override of `SlidingWindowMapManager`. -/
structure MState where
  fdict : List (Nat × MapRegionList)
  window_size : Nat
  max_memory_size : Nat
  max_handle_count : Nat
  memory_size : Nat
  handle_count : Nat
  page : Nat
  clock : Nat
  next_rid : Nat
  mapCalls : Nat
  pins : Nat → Nat
  lrefs : Nat → Nat
  trace : List Nat
  sliding : Bool

/-- `WindowCursor.__slots__` (mman.py 29-35): the region list reference is
the file id `fid`; the pinned region is its ghost id.  Default-constructed
cursors (no region list) are outside the modelled scope; every cursor here
comes from `make_cursor`. -/
structure WindowCursor where
  fid : Nat
  _region : Option Nat
  _ofs : Nat
  _size : Nat
deriving DecidableEq, Repr

/-- `sys.maxint`, the whole-file mapping request of the static manager
(mman.py 327). -/
def sysMaxint : Nat := 2 ^ 63 - 1

/-- `_MB_in_bytes` (mman.py 240). -/
def MB : Nat := 1024 * 1024

/-- `StaticWindowMapManager.__init__` (mman.py 242-274): negative
`window_size` selects an architecture-dependent default, `max_memory_size = 0`
likewise; `is64` stands for the `is_64_bit()` platform primitive. -/
def mkManager (windowSize : Int) (maxMemorySize maxOpenHandles : Nat)
    (is64 sliding : Bool) (page : Nat) : MState :=
  let ws : Nat := if windowSize < 0 then (if is64 then 1024 else 32) * MB else windowSize.toNat
  let mm : Nat := if maxMemorySize = 0 then (if is64 then 8192 else 512) * MB else maxMemorySize
  { fdict := [], window_size := ws, max_memory_size := mm,
    max_handle_count := maxOpenHandles, memory_size := 0, handle_count := 0,
    page := page, clock := 0, next_rid := 0, mapCalls := 0,
    pins := fun _ => 0, lrefs := fun _ => 0, trace := [], sliding := sliding }

/-- The region list of file `fid` (the cursor's `_rlist`, reached through
the manager's `_fdict`).  An absent file yields an inert empty list of file
size 0, on which every modelled operation is a no-op. -/
def getRList (s : MState) (fid : Nat) : MapRegionList :=
  match s.fdict.find? (fun p => p.1 == fid) with
  | some p => p.2
  | none => ⟨fid, 0, []⟩

/-- Write back a mutation of the region list object of `fid` (Python
mutates the object aliased by `_fdict` and the cursors). -/
def setRList (fd : List (Nat × MapRegionList)) (fid : Nat) (rl : MapRegionList) :
    List (Nat × MapRegionList) :=
  match fd with
  | [] => []
  | p :: rest => if p.1 == fid then (p.1, rl) :: rest else p :: setRList rest fid rl

/-- Look up a region object by ghost id inside the list of file `fid`. -/
def getRegion (s : MState) (fid rid : Nat) : Option MapRegion :=
  (getRList s fid).regions.find? (fun r => r.rid == rid)

/-- The region object pinned by a cursor, if any. -/
def cursorRegion (s : MState) (c : WindowCursor) : Option MapRegion :=
  match c._region with
  | some rid => getRegion s c.fid rid
  | none => none

/-- `python list.insert(n, x)`: insertion before position `n`, clamped to
the length (mman.py 553). -/
def insertAt (l : List MapRegion) (n : Nat) (x : MapRegion) : List MapRegion :=
  l.take n ++ x :: l.drop n

/-- Total number of regions over all region lists
(`handles_in_use = count(regions)` in spec section 3). -/
def totalRegions (fd : List (Nat × MapRegionList)) : Nat :=
  (fd.map (fun p => p.2.regions.length)).sum

/-- Total mapped bytes over all region lists
(`memory_in_use = Σ region.size` in spec section 3). -/
def totalMemory (fd : List (Nat × MapRegionList)) : Nat :=
  (fd.map (fun p => (p.2.regions.map MapRegion.size).sum)).sum

/-! ## Eviction: `StaticWindowMapManager._collect_lru_region` (mman.py 278-310) -/

/-- A region's `client_count()` at the LRU-scan site: the `pins` cursor
references plus the owning list's reference and the scan variable's
reference (mman.py 292-293 subtracts these two). -/
def regionClientCount (s : MState) (rid : Nat) : Nat := s.pins rid + 2

/-- The update rule of the LRU scan (mman.py 293-297):
`lru_region is None or region._uc < lru_region._uc`. -/
def betterLRU (r : MapRegion) (acc : Option MapRegion) : Bool :=
  match acc with
  | none => true
  | some lr => decide (r._uc < lr._uc)

/-- The LRU scan (mman.py 288-299): iterate all region lists and all
regions, keeping the evictable region (`client_count() - 2 == 0`) with the
smallest `_uc`. -/
def findLRU (s : MState) : Option MapRegion :=
  s.fdict.foldl
    (fun acc p => p.2.regions.foldl
      (fun acc r =>
        if regionClientCount s r.rid - 2 == 0 && betterLRU r acc then some r else acc)
      acc)
    none

/-- One step of the LRU scan (the loop body of mman.py 292-297), as a
named function of the accumulator, for reasoning about `findLRU`. -/
def lruStep (s : MState) (acc : Option MapRegion) (r : MapRegion) : Option MapRegion :=
  if regionClientCount s r.rid - 2 == 0 && betterLRU r acc then some r else acc

/-- Remove the first region with ghost id `rid` from a region sequence
(`del(lru_list[lru_list.index(lru_region)])`, mman.py 306). -/
def removeRegion (regs : List MapRegion) (rid : Nat) : Option (MapRegion × List MapRegion) :=
  match regs with
  | [] => none
  | r :: rest =>
    if r.rid == rid then some (r, rest)
    else match removeRegion rest rid with
         | none => none
         | some (rr, rest') => some (rr, r :: rest')

/-- Remove the first region with ghost id `rid` from the first region list
that holds one. -/
def removeRid (fd : List (Nat × MapRegionList)) (rid : Nat) :
    Option (MapRegion × List (Nat × MapRegionList)) :=
  match fd with
  | [] => none
  | (f, rl) :: rest =>
    match removeRegion rl.regions rid with
    | some (rr, regs') => some (rr, (f, { rl with regions := regs' }) :: rest)
    | none =>
      match removeRid rest rid with
      | none => none
      | some (rr, rest') => some (rr, (f, rl) :: rest')

/-- The bookkeeping of one eviction (mman.py 306-308): the region leaves
its list, `_memory_size` drops by its size, `_handle_count` by one. -/
def evictUpd (s : MState) (rr : MapRegion) (fd' : List (Nat × MapRegionList)) : MState :=
  { s with fdict := fd',
           memory_size := s.memory_size - rr.size,
           handle_count := s.handle_count - 1 }

/-- The `while` loop of `_collect_lru_region` (mman.py 287-309), with fuel:
each iteration either stops or removes one region, so any fuel above
`totalRegions` reproduces the loop exactly.  On each round: check the
budget condition, scan for the LRU idle region, remove it and decrement
the counters. -/
def collectLruAux : Nat → MState → Nat → Nat → MState × Nat
  | 0, s, _, found => (s, found)
  | fuel + 1, s, size, found =>
    if size == 0 || decide (s.max_memory_size < s.memory_size + size) then
      match findLRU s with
      | none => (s, found)
      | some r =>
        match removeRid s.fdict r.rid with
        | none => (s, found)
        | some (rr, fd') => collectLruAux fuel (evictUpd s rr fd') size (found + 1)
    else (s, found)

/-- `_collect_lru_region(size)` (mman.py 278-310).  The ghost `trace`
records the `size` argument of the attempt. -/
def collectLru (s : MState) (size : Nat) : MState × Nat :=
  collectLruAux (totalRegions s.fdict + 1) { s with trace := s.trace ++ [size] } size 0

/-- `collect()` (mman.py 375-378). -/
def collect (s : MState) : MState × Nat := collectLru s 0

/-! ## Placement -/

/-- Outcome of one `_obtain_region` attempt: a region, a failed map
construction (`except Exception`, recoverable once), or a failed `assert`
(propagates immediately). -/
inductive ObtainRes where
  | ok (r : MapRegion)
  | mapFail
  | assertFail
deriving DecidableEq, Repr

/-- Counter and list updates when a freshly mapped region is appended to
the region list (mman.py 344-346); the `mapCalls` and `next_rid` ghosts
advance with the successful map construction. -/
def regionAppend (s : MState) (fid : Nat) (a : MapRegionList) (r : MapRegion) : MState :=
  { s with mapCalls := s.mapCalls + 1,
           next_rid := s.next_rid + 1,
           handle_count := s.handle_count + 1,
           memory_size := s.memory_size + r.size,
           fdict := setRList s.fdict fid { a with regions := a.regions ++ [r] } }

/-- A failed map construction consumes one oracle call and changes nothing
else. -/
def mapFailUpd (s : MState) : MState := { s with mapCalls := s.mapCalls + 1 }

/-- `StaticWindowMapManager._obtain_region` without the recursive retry
(mman.py 312-351): optional eviction, then reuse the single region or map
the whole file (`MapRegionCls(a.path_or_fd(), 0, sys.maxint, flags)`).
The two `assert` statements (mman.py 323 and 349) are modelled as
`assertFail` outcomes. -/
def staticObtainOnce (env : Nat → Bool) (s : MState) (fid offset size _flags : Nat) :
    MState × ObtainRes :=
  -- mman.py 317-319
  let s := if decide (s.max_memory_size < s.memory_size + size) then (collectLru s size).1 else s
  let a := getRList s fid
  match a.regions with
  | r :: rest =>
    if rest.isEmpty then
      -- mman.py 349: assert r.includes_ofs(offset)
      if r.includes_ofs offset then (s, .ok r) else (s, .assertFail)
    else (s, .assertFail)  -- mman.py 323: assert len(a) == 1
  | [] =>
    if env s.mapCalls then
      let r := mkMapRegion s.next_rid 0 sysMaxint a.file_size
      if r.includes_ofs offset then (regionAppend s fid a r, .ok r)
      else (regionAppend s fid a r, .assertFail)
    else (mapFailUpd s, .mapFail)

/-- `StaticWindowMapManager._obtain_region` with the eviction-and-retry
pass of the `except` handler (mman.py 326-341): a failed map triggers
`_collect_lru_region(0)` and one retry with `is_recursive = True`; a
second failure propagates (`none`). -/
def staticObtain (env : Nat → Bool) (s : MState) (fid offset size flags : Nat) :
    MState × Option MapRegion :=
  match staticObtainOnce env s fid offset size flags with
  | (s1, .ok r) => (s1, some r)
  | (s1, .assertFail) => (s1, none)
  | (s1, .mapFail) =>
    let s2 := (collectLru s1 0).1
    match staticObtainOnce env s2 fid offset size flags with
    | (s3, .ok r) => (s3, some r)
    | (s3, _) => (s3, none)

/-- The bisection lookup of `SlidingWindowMapManager._obtain_region`
(mman.py 459-474), with fuel (the interval shrinks every round, so any
fuel above `hi - lo` reproduces the loop). -/
def bisectFind (regs : List MapRegion) (offset : Nat) : Nat → Nat → Nat → Option MapRegion
  | _, _, 0 => none
  | lo, hi, fuel + 1 =>
    if lo < hi then
      let mid := (lo + hi) / 2
      let r := regs.getD mid default
      if r._b ≤ offset then
        if offset < r._b + r.size then some r
        else bisectFind regs offset (mid + 1) hi fuel
      else bisectFind regs offset lo mid fuel
    else none

/-- The insertion-position loop (mman.py 497-504): the least index whose
region begins past `offset`, or the length. -/
def insertPosLoop (offset : Nat) : List MapRegion → Nat
  | [] => 0
  | r :: rest => if offset < r._b then 0 else insertPosLoop offset rest + 1

/-- `insert_pos` (mman.py 489-505), with the single-region special case
(mman.py 492-495). -/
def findInsertPos (regs : List MapRegion) (offset : Nat) : Nat :=
  match regs with
  | [r] => if r._b ≤ offset then 1 else 0
  | _ => insertPosLoop offset regs

/-- The planning phase of the sliding placement (mman.py 477-527): choose
the insertion position, take the neighbouring regions (or the sentinels
`(0,0)` and `(file_size, 0)`) as bounds, grow the requested window to the
left and right, page-align it, and clamp the size to `right.ofs - mid.ofs`
when alignment overshot the right neighbour. -/
structure PlanResult where
  ins : Nat
  left : MapWindow
  right : MapWindow
  mid : MapWindow
deriving DecidableEq, Repr

/-- The left bound of the planned window (mman.py 478 and 509-517): the
`(0, 0)` sentinel, or the region preceding the insertion position. -/
def planLeft (regs : List MapRegion) (offset : Nat) : MapWindow :=
  if findInsertPos regs offset = 0 then ⟨0, 0⟩
  else MapWindow.from_region (regs.getD (findInsertPos regs offset - 1) default)

/-- The right bound of the planned window (mman.py 480 and 509-516): the
`(file_size, 0)` sentinel, or the region at the insertion position. -/
def planRight (regs : List MapRegion) (fsize offset : Nat) : MapWindow :=
  let ins := findInsertPos regs offset
  let len := regs.length
  if ins = 0 then (if 0 < len then MapWindow.from_region (regs.getD 0 default)
                   else (⟨fsize, 0⟩ : MapWindow))
  else (if ins ≠ len then MapWindow.from_region (regs.getD ins default)
        else (⟨fsize, 0⟩ : MapWindow))

/-- The grown, aligned window before the right-overshoot clamp
(mman.py 520-522). -/
def planMid1 (regs : List MapRegion) (fsize offset size W page : Nat) : MapWindow :=
  (((⟨offset, size⟩ : MapWindow).extend_left_to (planLeft regs offset) W).extend_right_to
    (planRight regs fsize offset) W).align page

def slidingPlan (regs : List MapRegion) (fsize offset size W page : Nat) : PlanResult :=
  let right := planRight regs fsize offset
  let mid1 := planMid1 regs fsize offset size W page
  -- mman.py 525-527: clamp when alignment overshot the right neighbour
  let mid := if right.ofs < mid1.ofsEnd then { mid1 with size := right.ofs - mid1.ofs } else mid1
  ⟨findInsertPos regs offset, planLeft regs offset, right, mid⟩

/-- Counter and list updates when a freshly mapped region is inserted into
the region list at the chosen position (mman.py 551-553). -/
def regionInsert (s : MState) (fid : Nat) (a : MapRegionList) (ins : Nat) (r : MapRegion) :
    MState :=
  { s with mapCalls := s.mapCalls + 1,
           next_rid := s.next_rid + 1,
           handle_count := s.handle_count + 1,
           memory_size := s.memory_size + r.size,
           fdict := setRList s.fdict fid { a with regions := insertAt a.regions ins r } }

/-- The eviction check before planning (mman.py 485-487): it compares the
budget against `window_size`, not against the planned window. -/
def slidingPre (s : MState) : MState :=
  if decide (s.max_memory_size < s.memory_size + s.window_size) then
    (collectLru s s.window_size).1
  else s

/-- `SlidingWindowMapManager._obtain_region` without the recursive retry
(mman.py 456-555): bisect for a covering region; otherwise evict if needed,
plan the window, and construct the region — the handle-cap check
(mman.py 531-532) raises into the same `except` handler as a failed map. -/
def slidingObtainOnce (env : Nat → Bool) (s : MState) (fid offset size _flags : Nat) :
    MState × ObtainRes :=
  let a0 := getRList s fid
  match bisectFind a0.regions offset 0 a0.regions.length (a0.regions.length + 1) with
  | some r => (s, .ok r)
  | none =>
    let s := slidingPre s
    let a := getRList s fid
    let p := slidingPlan a.regions a.file_size offset size s.window_size s.page
    if decide (s.max_handle_count ≤ s.handle_count) then (s, .mapFail)
    else if env s.mapCalls then
      let r := mkMapRegion s.next_rid p.mid.ofs p.mid.size a.file_size
      (regionInsert s fid a p.ins r, .ok r)
    else (mapFailUpd s, .mapFail)

/-- `SlidingWindowMapManager._obtain_region` with the eviction-and-retry
pass of the `except` handler (mman.py 535-548). -/
def slidingObtain (env : Nat → Bool) (s : MState) (fid offset size flags : Nat) :
    MState × Option MapRegion :=
  match slidingObtainOnce env s fid offset size flags with
  | (s1, .ok r) => (s1, some r)
  | (s1, .assertFail) => (s1, none)
  | (s1, .mapFail) =>
    let s2 := (collectLru s1 0).1
    match slidingObtainOnce env s2 fid offset size flags with
    | (s3, .ok r) => (s3, some r)
    | (s3, _) => (s3, none)

/-- Virtual dispatch of `_obtain_region` on the manager flavour. -/
def obtainRegion (env : Nat → Bool) (s : MState) (fid offset size flags : Nat) :
    MState × Option MapRegion :=
  if s.sliding then slidingObtain env s fid offset size flags
  else staticObtain env s fid offset size flags

/-! ## The cursor interface (mman.py 21-207) -/

/-- Does the region object pinned as `rid` include `offset`?
(`self._region.includes_ofs(offset)`, mman.py 102). -/
def regIncludesB (s : MState) (fid rid offset : Nat) : Bool :=
  match getRegion s fid rid with
  | some r => r.includes_ofs offset
  | none => false

/-- Dropping the cursor's strong reference to its pinned region
(`self._region = None`): the CPython reference count of the region
decreases by one. -/
def unusePins (s : MState) (c : WindowCursor) : MState :=
  match c._region with
  | some rid => { s with pins := fun k => if k = rid then s.pins k - 1 else s.pins k }
  | none => s

/-- `WindowCursor.unuse_region` (mman.py 124-131): clear `_region`; `_ofs`
and `_size` are deliberately not reset. -/
def unuseCursor (s : MState) (c : WindowCursor) : MState × WindowCursor :=
  (unusePins s c, { c with _region := none })

/-- The reuse-or-release step of `use_region` (mman.py 101-107): keep a
pinned region that includes `offset`, otherwise release the pin;
returns (`need_region`, state, cursor). -/
def useRetarget (s0 : MState) (c0 : WindowCursor) (offset : Nat) :
    Bool × MState × WindowCursor :=
  match c0._region with
  | some rid =>
    if regIncludesB s0 c0.fid rid offset then (false, s0, c0)
    else (true, unusePins s0 c0, { c0 with _region := none })
  | none => (true, s0, c0)

/-- `increment_usage_count()` at a new pin (mman.py 118).  Modelled from
the spec (sections 4.2 and 5): the manager's monotonic clock advances and
stamps the region's `last_used` (`_uc`). -/
def stampRegion (s : MState) (fid rid : Nat) : MState :=
  let c' := s.clock + 1
  let rl := getRList s fid
  let regs' := rl.regions.map (fun r => if r.rid == rid then { r with _uc := c' } else r)
  { s with clock := c', fdict := setRList s.fdict fid { rl with regions := regs' } }

/-- The pin-and-record tail of `use_region` (mman.py 114-122): take the
strong reference when the region was (re)obtained, stamp `last_used`, and
record the intra-region offset and the clamped size. -/
def usePin (s2 : MState) (c1 : WindowCursor) (fid : Nat) (needRegion : Bool)
    (r : MapRegion) (offset size : Nat) : MState × WindowCursor × Bool :=
  let s3 := if needRegion
            then { s2 with pins := fun k => if k = r.rid then s2.pins k + 1 else s2.pins k }
            else s2
  let s4 := stampRegion s3 fid r.rid
  (s4, { c1 with _region := some r.rid,
                 _ofs := offset - r._b,
                 _size := min size (r._b + r.size - offset) }, true)

/-- mman.py 99: `size = min(size or fsize, man.window_size() or fsize)`. -/
def effectiveSize (s : MState) (fid sizeParam : Nat) : Nat :=
  min (if sizeParam = 0 then (getRList s fid).file_size else sizeParam)
      (if s.window_size = 0 then (getRList s fid).file_size else s.window_size)

/-- `WindowCursor.use_region(offset, size, flags)` (mman.py 86-122).
The `Bool` result is `true` when the call returns normally and `false`
when an exception propagates out of `_obtain_region`. -/
def useRegion (env : Nat → Bool) (s0 : MState) (c0 : WindowCursor)
    (offset sizeParam flags : Nat) : MState × WindowCursor × Bool :=
  let fsize := (getRList s0 c0.fid).file_size
  let size := effectiveSize s0 c0.fid sizeParam
  let t := useRetarget s0 c0 offset
  let needRegion := t.1
  let s1 := t.2.1
  let c1 := t.2.2
  -- mman.py 109-112
  if decide (fsize ≤ offset) then (s1, c1, true)
  else
    -- mman.py 114-116
    match (if needRegion then obtainRegion env s1 c0.fid offset size flags
           else (s1, cursorRegion s1 c1)) with
    | (s2, none) => (s2, c1, false)
    | (s2, some r) => usePin s2 c1 c0.fid needRegion r offset size

/-- `WindowCursor.is_valid` (mman.py 148-150). -/
def isValid (c : WindowCursor) : Bool := c._region.isSome

/-- `WindowCursor.size` (mman.py 166-168). -/
def cursorSize (c : WindowCursor) : Nat := c._size

/-- `WindowCursor.ofs_begin` (mman.py 156-159). -/
def ofsBegin (s : MState) (c : WindowCursor) : Nat :=
  ((cursorRegion s c).getD default)._b + c._ofs

/-- `WindowCursor.ofs_end` (mman.py 161-164). -/
def ofsEnd (s : MState) (c : WindowCursor) : Nat :=
  ((cursorRegion s c).getD default)._b + c._ofs + c._size

/-- `WindowCursor.includes_ofs` (mman.py 177-182). -/
def cursorIncludesOfs (s : MState) (c : WindowCursor) (o : Nat) : Bool :=
  decide (ofsBegin s c ≤ o) && decide (o < ofsEnd s c)

/-- The region list's `client_count()`.  Modelled from the spec
(section 4.3): the number of strong references, manager plus live
cursors. -/
def listClientCount (s : MState) (fid : Nat) : Nat := 1 + s.lrefs fid

/-- `dict.pop` of a region list (mman.py 57). -/
def popRList (fd : List (Nat × MapRegionList)) (fid : Nat) : List (Nat × MapRegionList) :=
  match fd with
  | [] => []
  | p :: rest => if p.1 == fid then rest else p :: popRList rest fid

/-- `WindowCursor._destroy` (mman.py 44-59): release the pin, and drop the
region list from the manager when this cursor was its last external holder
and it is empty; finally the cursor's own list reference goes away. -/
def destroyCursor (s : MState) (c : WindowCursor) : MState :=
  let s1 := unusePins s c
  let numClients := listClientCount s1 c.fid - 2
  let s2 := if numClients == 0 && (getRList s1 c.fid).regions.isEmpty then
              { s1 with fdict := popRList s1.fdict c.fid }
            else s1
  { s2 with lrefs := fun k => if k = c.fid then s2.lrefs k - 1 else s2.lrefs k }

/-- `make_cursor(path_or_fd)` (mman.py 356-373); `fsize` is the answer of
the platform `file_size` primitive, cached in a freshly created region
list. -/
def makeCursor (s : MState) (fid fsize : Nat) : MState × WindowCursor :=
  let s1 := if (s.fdict.find? (fun p => p.1 == fid)).isSome then s
            else { s with fdict := s.fdict ++ [(fid, ⟨fid, fsize, []⟩)] }
  let s2 := { s1 with lrefs := fun k => if k = fid then s1.lrefs k + 1 else s1.lrefs k }
  (s2, ⟨fid, none, 0, 0⟩)

/-! ## Observables and invariants -/

/-- All regions over all region lists, in scan order. -/
def allRegionsF (fd : List (Nat × MapRegionList)) : List MapRegion :=
  (fd.map (fun p => p.2.regions)).flatten

/-- All regions of a manager state. -/
def allRegions (s : MState) : List MapRegion := allRegionsF s.fdict

/-- The accounting invariant of spec section 3:
`mapped_memory_size() = Σ region.size` and
`num_file_handles() = count(regions)` (mman.py 380-382 and 392-394 report
the `_handle_count` and `_memory_size` counters). -/
def accountingB (s : MState) : Bool :=
  (s.memory_size == totalMemory s.fdict) && (s.handle_count == totalRegions s.fdict)

/-- Adjacent ordering and non-overlap of a region sequence (spec
section 3): `r_i.begin + r_i.size ≤ r_{i+1}.begin` for adjacent pairs. -/
def chainOrdB : List MapRegion → Bool
  | [] => true
  | [_] => true
  | r1 :: r2 :: rest => decide (r1._b + r1.size ≤ r2._b) && chainOrdB (r2 :: rest)

/-- Every region list is sorted by `begin` with strictly non-overlapping
regions. -/
def sortedB (s : MState) : Bool := s.fdict.all (fun p => chainOrdB p.2.regions)

/-- The ordering relation underlying `chainOrdB`. -/
def ordRel (r1 r2 : MapRegion) : Prop := r1._b + r1.size ≤ r2._b

/-- Structural invariant of one region list: sorted and non-overlapping;
the cached file size fits the whole-file map request; every region is
non-empty, begins on a page boundary, ends on a page boundary or at the
end of the file, and lies inside the file. -/
def RLInvP (page : Nat) (rl : MapRegionList) : Prop :=
  rl.regions.Pairwise ordRel ∧ rl.file_size ≤ sysMaxint ∧
  ∀ r ∈ rl.regions, 0 < r.size ∧ page ∣ r._b ∧
    (page ∣ (r._b + r.size) ∨ r._b + r.size = rl.file_size) ∧ r._b + r.size ≤ rl.file_size

/-- The ghost region identities of `fd` are distinct and below the
allocation counter `nr` (they model Python object identity). -/
def RidInvF (fd : List (Nat × MapRegionList)) (nr : Nat) : Prop :=
  ((allRegionsF fd).map MapRegion.rid).Nodup ∧ ∀ r ∈ allRegionsF fd, r.rid < nr

/-- The ghost region identities are globally distinct and below the
allocation counter. -/
def RidInv (s : MState) : Prop := RidInvF s.fdict s.next_rid

/-- Structural invariant of the manager: a positive page size, every
region list well-formed, and sound ghost identities. -/
def InvP (s : MState) : Prop :=
  0 < s.page ∧ (∀ p ∈ s.fdict, RLInvP s.page p.2) ∧ RidInv s

/-- One `_fdict` entry refines another: same key and file identity, and the
regions are a subsequence (eviction only removes regions). -/
def entrySub (p' p : Nat × MapRegionList) : Prop :=
  p'.1 = p.1 ∧ p'.2.path_or_fd = p.2.path_or_fd ∧ p'.2.file_size = p.2.file_size ∧
  p'.2.regions.Sublist p.2.regions

/-- Everything except the region lists, the two budget counters and the
ghost trace is unchanged (the footprint of eviction). -/
def sameConfig (s' s : MState) : Prop :=
  s'.window_size = s.window_size ∧ s'.max_memory_size = s.max_memory_size ∧
  s'.max_handle_count = s.max_handle_count ∧ s'.page = s.page ∧ s'.clock = s.clock ∧
  s'.next_rid = s.next_rid ∧ s'.mapCalls = s.mapCalls ∧ s'.pins = s.pins ∧
  s'.lrefs = s.lrefs ∧ s'.sliding = s.sliding

/-- The cursor's pinned region, when it exists in the state, lies inside
the file (consequence of `InvP` for consistent cursors). -/
def pinnedWithinB (s : MState) (c : WindowCursor) : Bool :=
  match c._region with
  | none => true
  | some rid =>
    match getRegion s c.fid rid with
    | none => true
    | some r => decide (r._b + r.size ≤ (getRList s c.fid).file_size)

/-! ## Concrete scenarios used by witnesses and counterexamples -/

/-- An `mmap` oracle that always succeeds. -/
def envAll : Nat → Bool := fun _ => true

/-- An `mmap` oracle that always fails (resource exhaustion). -/
def envNone : Nat → Bool := fun _ => false

/-- A fresh sliding manager (window 4096, page 4096, generous budgets)
with one associated file of 1 MiB. -/
def wSliding0 : MState := (makeCursor (mkManager 4096 (10 * MB) 100 true true 4096) 1 (1024 * 1024)).1

/-- An unpinned cursor over that file. -/
def wCursor0 : WindowCursor := ⟨1, none, 0, 0⟩

/-- A sliding manager with a tight memory budget of 9000 bytes: file 1
carries one mapped region of 4096 bytes, file 2 is large and still
unmapped.  Window and page are both 4096. -/
def wC8 : MState :=
  (makeCursor (useRegion envAll (makeCursor (mkManager 4096 9000 100 true true 4096) 1 4096).1
      ⟨1, none, 0, 0⟩ 0 0 0).1 2 100000).1

/-! ## Reachability -/

/-- One observable operation on the manager (spec sections 4.4-4.8). -/
inductive Step : MState → MState → Prop where
  | mkCur (s : MState) (fid fsize : Nat) (hfs : fsize ≤ sysMaxint) :
      Step s (makeCursor s fid fsize).1
  | use (s : MState) (env : Nat → Bool) (c : WindowCursor) (offset sizeParam flags : Nat)
      (hc : (s.fdict.find? (fun p => p.1 == c.fid)).isSome = true) :
      Step s (useRegion env s c offset sizeParam flags).1
  | unuse (s : MState) (c : WindowCursor) : Step s (unuseCursor s c).1
  | destroy (s : MState) (c : WindowCursor) : Step s (destroyCursor s c)
  | collectStep (s : MState) (size : Nat) : Step s (collectLru s size).1

/-- States reachable from a fresh manager by the modelled operations. -/
inductive Reachable : MState → Prop where
  | init (windowSize : Int) (maxMemorySize maxOpenHandles : Nat) (is64 sliding : Bool)
      (page : Nat) (hp : 0 < page) :
      Reachable (mkManager windowSize maxMemorySize maxOpenHandles is64 sliding page)
  | step {s s' : MState} : Reachable s → Step s s' → Reachable s'

/-! # Lemmas

## Alignment arithmetic -/

theorem alignDown_le (n page : Nat) : alignDown n page ≤ n := by
  unfold alignDown
  calc page * (n / page) = n / page * page := Nat.mul_comm _ _
    _ ≤ n := Nat.div_mul_le_self n page

theorem dvd_alignDown (n page : Nat) : page ∣ alignDown n page := ⟨n / page, rfl⟩

theorem dvd_alignUp (n page : Nat) : page ∣ alignUp n page := ⟨_, rfl⟩

theorem le_alignUp (hp : 0 < page) (n : Nat) : n ≤ alignUp n page := by
  unfold alignUp
  have h1 := Nat.div_add_mod (n + page - 1) page
  have h2 := Nat.mod_lt (n + page - 1) hp
  omega

theorem le_alignDown (hp : 0 < page) {m n : Nat} (hd : page ∣ m) (h : m ≤ n) :
    m ≤ alignDown n page := by
  obtain ⟨k, rfl⟩ := hd
  unfold alignDown
  refine Nat.mul_le_mul_left page ((Nat.le_div_iff_mul_le hp).2 ?_)
  calc k * page = page * k := Nat.mul_comm _ _
    _ ≤ n := h

/-! ## Window arithmetic -/

theorem extend_left_ofs_le (w left : MapWindow) (m : Nat) :
    (w.extend_left_to left m).ofs ≤ w.ofs := by
  simp only [MapWindow.extend_left_to]
  omega

theorem extend_left_ofsEnd (w left : MapWindow) (m : Nat) :
    (w.extend_left_to left m).ofsEnd = w.ofsEnd := by
  simp only [MapWindow.extend_left_to, MapWindow.ofsEnd]
  omega

theorem extend_left_ofs_ge (w left : MapWindow) (m : Nat) (h : left.ofsEnd ≤ w.ofs) :
    left.ofsEnd ≤ (w.extend_left_to left m).ofs := by
  simp only [MapWindow.extend_left_to]
  omega

theorem extend_right_ofs (w right : MapWindow) (m : Nat) :
    (w.extend_right_to right m).ofs = w.ofs := rfl

theorem extend_right_ofsEnd_ge (w right : MapWindow) (m : Nat) :
    w.ofsEnd ≤ (w.extend_right_to right m).ofsEnd := by
  simp only [MapWindow.extend_right_to, MapWindow.ofsEnd]
  omega

theorem align_ofs_le (w : MapWindow) (page : Nat) : (w.align page).ofs ≤ w.ofs := by
  simp only [MapWindow.align]
  exact alignDown_le _ _

theorem align_ofsEnd (w : MapWindow) (page : Nat) (hp : 0 < page) :
    (w.align page).ofsEnd = alignUp w.ofsEnd page := by
  simp only [MapWindow.align, MapWindow.ofsEnd]
  have h1 : alignDown w.ofs page ≤ w.ofs := alignDown_le _ _
  have h2 : w.ofs + w.size ≤ alignUp (w.ofs + w.size) page := le_alignUp hp _
  omega

theorem align_ofsEnd_ge (w : MapWindow) (page : Nat) (hp : 0 < page) :
    w.ofsEnd ≤ (w.align page).ofsEnd := by
  rw [align_ofsEnd w page hp]
  exact le_alignUp hp _

theorem align_ofs_dvd (w : MapWindow) (page : Nat) : page ∣ (w.align page).ofs :=
  dvd_alignDown _ _

theorem align_ofs_ge (w : MapWindow) (page : Nat) (hp : 0 < page) {m : Nat}
    (hd : page ∣ m) (h : m ≤ w.ofs) : m ≤ (w.align page).ofs :=
  le_alignDown hp hd h

/-! ## Insertion position -/

theorem insertPosLoop_le (offset : Nat) (l : List MapRegion) :
    insertPosLoop offset l ≤ l.length := by
  induction l with
  | nil => simp [insertPosLoop]
  | cons r rest ih =>
    simp only [insertPosLoop]
    split
    · simp
    · simpa using ih

theorem insertPosLoop_before (offset : Nat) (l : List MapRegion) :
    ∀ i, i < l.length → i < insertPosLoop offset l → (l.getD i default)._b ≤ offset := by
  induction l with
  | nil => intro i h; simp at h
  | cons r rest ih =>
    intro i h hi
    simp only [insertPosLoop] at hi
    split at hi
    · omega
    · match i with
      | 0 => simpa using by omega
      | j + 1 =>
        simpa using ih j (by simpa using h) (by omega)

theorem insertPosLoop_after (offset : Nat) (l : List MapRegion)
    (h : insertPosLoop offset l < l.length) :
    offset < (l.getD (insertPosLoop offset l) default)._b := by
  induction l with
  | nil => simp [insertPosLoop] at h
  | cons r rest ih =>
    by_cases hb : offset < r._b
    · simp [insertPosLoop, hb]
    · have he : insertPosLoop offset (r :: rest) = insertPosLoop offset rest + 1 := by
        simp [insertPosLoop, hb]
      rw [he] at h ⊢
      simpa using ih (by simpa using h)

theorem findInsertPos_eq (regs : List MapRegion) (offset : Nat) :
    findInsertPos regs offset = insertPosLoop offset regs := by
  match regs with
  | [] => rfl
  | [r] =>
    simp only [findInsertPos, insertPosLoop]
    by_cases hb : r._b ≤ offset
    · simp [hb, Nat.not_lt.2 hb]
    · simp [hb, Nat.lt_of_not_le hb]
  | r1 :: r2 :: rest => rfl

theorem findInsertPos_le (regs : List MapRegion) (offset : Nat) :
    findInsertPos regs offset ≤ regs.length := by
  rw [findInsertPos_eq]; exact insertPosLoop_le _ _

theorem findInsertPos_before (regs : List MapRegion) (offset : Nat)
    {i : Nat} (h : i < regs.length) (hi : i < findInsertPos regs offset) :
    (regs.getD i default)._b ≤ offset := by
  rw [findInsertPos_eq] at hi
  exact insertPosLoop_before offset regs i h hi

theorem findInsertPos_after (regs : List MapRegion) (offset : Nat)
    (h : findInsertPos regs offset < regs.length) :
    offset < (regs.getD (findInsertPos regs offset) default)._b := by
  rw [findInsertPos_eq] at h ⊢
  exact insertPosLoop_after offset regs h

/-! ## Bounds on the planned window -/

theorem planRight_gt (regs : List MapRegion) {fsize offset : Nat} (h : offset < fsize) :
    offset < (planRight regs fsize offset).ofs := by
  unfold planRight
  by_cases h0 : findInsertPos regs offset = 0
  · by_cases hl : 0 < regs.length
    · have := findInsertPos_after regs offset (by omega)
      rw [h0] at this
      simpa [h0, hl, MapWindow.from_region] using this
    · simpa [h0, hl] using h
  · by_cases hl : findInsertPos regs offset ≠ regs.length
    · have hlt : findInsertPos regs offset < regs.length :=
        Nat.lt_of_le_of_ne (findInsertPos_le regs offset) hl
      have := findInsertPos_after regs offset hlt
      simpa [h0, hl, MapWindow.from_region] using this
    · simpa [h0, hl] using h

theorem planRight_le_fsize (regs : List MapRegion) {fsize offset : Nat}
    (hmem : ∀ r ∈ regs, r._b + r.size ≤ fsize) :
    (planRight regs fsize offset).ofs ≤ fsize := by
  unfold planRight
  have hof : ∀ i, i < regs.length → (regs.getD i default)._b ≤ fsize := by
    intro i hi
    have hm : regs.getD i default ∈ regs := by
      rw [List.getD_eq_getElem _ _ hi]
      exact List.getElem_mem hi
    have := hmem _ hm
    omega
  by_cases h0 : findInsertPos regs offset = 0
  · by_cases hl : 0 < regs.length
    · simpa [h0, hl, MapWindow.from_region] using hof 0 hl
    · simp [h0, hl]
  · by_cases hl : findInsertPos regs offset ≠ regs.length
    · have hlt : findInsertPos regs offset < regs.length :=
        Nat.lt_of_le_of_ne (findInsertPos_le regs offset) hl
      simpa [h0, hl, MapWindow.from_region] using hof _ hlt
    · simp [h0, hl]

theorem planMid1_ofs_le (regs : List MapRegion) (fsize offset size W page : Nat) :
    (planMid1 regs fsize offset size W page).ofs ≤ offset := by
  unfold planMid1
  calc ((((⟨offset, size⟩ : MapWindow).extend_left_to (planLeft regs offset) W).extend_right_to
          (planRight regs fsize offset) W).align page).ofs
      ≤ (((⟨offset, size⟩ : MapWindow).extend_left_to (planLeft regs offset) W).extend_right_to
          (planRight regs fsize offset) W).ofs := align_ofs_le _ _
    _ = (((⟨offset, size⟩ : MapWindow).extend_left_to (planLeft regs offset) W)).ofs :=
        extend_right_ofs _ _ _
    _ ≤ offset := extend_left_ofs_le _ _ _

theorem planMid1_ofsEnd_gt (regs : List MapRegion) (fsize offset size W page : Nat)
    (hp : 0 < page) (hsz : 0 < size) :
    offset < (planMid1 regs fsize offset size W page).ofsEnd := by
  unfold planMid1
  have h1 : (⟨offset, size⟩ : MapWindow).ofsEnd = offset + size := rfl
  have h2 := extend_left_ofsEnd (⟨offset, size⟩ : MapWindow) (planLeft regs offset) W
  have h3 := extend_right_ofsEnd_ge
    ((⟨offset, size⟩ : MapWindow).extend_left_to (planLeft regs offset) W)
    (planRight regs fsize offset) W
  have h4 := align_ofsEnd_ge
    (((⟨offset, size⟩ : MapWindow).extend_left_to (planLeft regs offset) W).extend_right_to
      (planRight regs fsize offset) W) page hp
  omega

theorem plan_mid_ofs (regs : List MapRegion) (fsize offset size W page : Nat) :
    (slidingPlan regs fsize offset size W page).mid.ofs =
      (planMid1 regs fsize offset size W page).ofs := by
  unfold slidingPlan
  dsimp only
  split <;> rfl

theorem plan_mid_ofs_le (regs : List MapRegion) (fsize offset size W page : Nat) :
    (slidingPlan regs fsize offset size W page).mid.ofs ≤ offset := by
  rw [plan_mid_ofs]; exact planMid1_ofs_le _ _ _ _ _ _

theorem plan_right_eq (regs : List MapRegion) (fsize offset size W page : Nat) :
    (slidingPlan regs fsize offset size W page).right = planRight regs fsize offset := rfl

theorem plan_mid_ofsEnd_gt (regs : List MapRegion) {fsize offset : Nat} (size W page : Nat)
    (hp : 0 < page) (hsz : 0 < size) (hofs : offset < fsize) :
    offset < (slidingPlan regs fsize offset size W page).mid.ofsEnd := by
  have h1 := planMid1_ofsEnd_gt regs fsize offset size W page hp hsz
  have h2 := planMid1_ofs_le regs fsize offset size W page
  have h3 := planRight_gt regs hofs
  unfold slidingPlan
  dsimp only
  simp only [MapWindow.ofsEnd] at *
  split
  · simp only [MapWindow.ofsEnd]
    omega
  · exact h1

theorem plan_mid_ofsEnd_le_right (regs : List MapRegion) {fsize offset : Nat}
    (size W page : Nat) (hofs : offset < fsize) :
    (slidingPlan regs fsize offset size W page).mid.ofsEnd ≤
      (planRight regs fsize offset).ofs := by
  have h2 := planMid1_ofs_le regs fsize offset size W page
  have h3 := planRight_gt regs hofs
  unfold slidingPlan
  dsimp only
  simp only [MapWindow.ofsEnd] at *
  split
  · simp only [MapWindow.ofsEnd]
    omega
  · omega

/-! ## Removal of one region -/

theorem removeRegion_sublist {regs : List MapRegion} {rid : Nat} {rr : MapRegion}
    {regs' : List MapRegion} (h : removeRegion regs rid = some (rr, regs')) :
    regs'.Sublist regs := by
  induction regs generalizing regs' with
  | nil => simp [removeRegion] at h
  | cons r rest ih =>
    simp only [removeRegion] at h
    split at h
    · obtain ⟨rfl, rfl⟩ := by simpa using h
      exact (List.sublist_cons_self _ _)
    · match hr : removeRegion rest rid with
      | none => rw [hr] at h; simp at h
      | some (rr0, rest0) =>
        rw [hr] at h
        obtain ⟨rfl, rfl⟩ := by simpa using h
        exact List.Sublist.cons₂ _ (ih hr)

theorem removeRegion_spec {regs : List MapRegion} {rid : Nat} {rr : MapRegion}
    {regs' : List MapRegion} (h : removeRegion regs rid = some (rr, regs')) :
    rr ∈ regs ∧ rr.rid = rid ∧ regs'.length + 1 = regs.length ∧
    (regs'.map MapRegion.size).sum + rr.size = (regs.map MapRegion.size).sum := by
  induction regs generalizing regs' with
  | nil => simp [removeRegion] at h
  | cons r rest ih =>
    simp only [removeRegion] at h
    split at h
    · next hb =>
      obtain ⟨rfl, rfl⟩ := by simpa using h
      refine ⟨List.mem_cons_self _ _, by simpa using hb, by simp, by simp [Nat.add_comm]⟩
    · match hr : removeRegion rest rid with
      | none => rw [hr] at h; simp at h
      | some (rr0, rest0) =>
        rw [hr] at h
        obtain ⟨rfl, rfl⟩ := by simpa using h
        obtain ⟨hm, hrid, hlen, hsum⟩ := ih hr
        exact ⟨List.mem_cons_of_mem _ hm, hrid, by simpa using hlen, by simp; omega⟩

theorem removeRid_entrySub {fd : List (Nat × MapRegionList)} {rid : Nat} {rr : MapRegion}
    {fd' : List (Nat × MapRegionList)} (h : removeRid fd rid = some (rr, fd')) :
    List.Forall₂ entrySub fd' fd := by
  induction fd generalizing fd' with
  | nil => simp [removeRid] at h
  | cons p rest ih =>
    obtain ⟨f, rl⟩ := p
    simp only [removeRid] at h
    match hr : removeRegion rl.regions rid with
    | some (rr0, regs') =>
      rw [hr] at h
      obtain ⟨rfl, rfl⟩ := by simpa using h
      exact List.Forall₂.cons ⟨rfl, rfl, rfl, removeRegion_sublist hr⟩
        (List.forall₂_same.2 (fun p _ => ⟨rfl, rfl, rfl, List.Sublist.refl _⟩))
    | none =>
      rw [hr] at h
      match hrr : removeRid rest rid with
      | none => rw [hrr] at h; simp at h
      | some (rr0, rest0) =>
        rw [hrr] at h
        obtain ⟨rfl, rfl⟩ := by simpa using h
        exact List.Forall₂.cons ⟨rfl, rfl, rfl, List.Sublist.refl _⟩ (ih hrr)

theorem removeRid_counts {fd : List (Nat × MapRegionList)} {rid : Nat} {rr : MapRegion}
    {fd' : List (Nat × MapRegionList)} (h : removeRid fd rid = some (rr, fd')) :
    totalRegions fd' + 1 = totalRegions fd ∧
    totalMemory fd' + rr.size = totalMemory fd ∧
    rr ∈ allRegionsF fd ∧ rr.rid = rid := by
  induction fd generalizing fd' with
  | nil => simp [removeRid] at h
  | cons p rest ih =>
    obtain ⟨f, rl⟩ := p
    simp only [removeRid] at h
    match hr : removeRegion rl.regions rid with
    | some (rr0, regs') =>
      rw [hr] at h
      obtain ⟨rfl, rfl⟩ := by simpa using h
      obtain ⟨hm, hrid, hlen, hsum⟩ := removeRegion_spec hr
      refine ⟨?_, ?_, ?_, hrid⟩
      · simp [totalRegions]; omega
      · simp [totalMemory]; omega
      · simp [allRegionsF]; exact Or.inl hm
    | none =>
      rw [hr] at h
      match hrr : removeRid rest rid with
      | none => rw [hrr] at h; simp at h
      | some (rr0, rest0) =>
        rw [hrr] at h
        obtain ⟨rfl, rfl⟩ := by simpa using h
        obtain ⟨h1, h2, h3, h4⟩ := ih hrr
        refine ⟨?_, ?_, ?_, h4⟩
        · simp [totalRegions] at h1 ⊢; omega
        · simp [totalMemory] at h2 ⊢; omega
        · simp [allRegionsF] at h3 ⊢; exact Or.inr h3

theorem entrySub_allRegions {fd' fd : List (Nat × MapRegionList)}
    (h : List.Forall₂ entrySub fd' fd) : (allRegionsF fd').Sublist (allRegionsF fd) := by
  induction h with
  | nil => simp [allRegionsF]
  | cons hpq _ ih =>
    simp only [allRegionsF, List.map_cons, List.flatten_cons]
    exact List.Sublist.append hpq.2.2.2 ih

/-! ## Eviction preserves the structure -/

theorem entrySub_refl (fd : List (Nat × MapRegionList)) : List.Forall₂ entrySub fd fd :=
  List.forall₂_same.2 (fun _ _ => ⟨rfl, rfl, rfl, List.Sublist.refl _⟩)

theorem entrySub_trans {a b c : List (Nat × MapRegionList)}
    (hab : List.Forall₂ entrySub a b) (hbc : List.Forall₂ entrySub b c) :
    List.Forall₂ entrySub a c := by
  induction hab generalizing c with
  | nil => cases hbc; exact List.Forall₂.nil
  | cons hxy _ ih =>
    cases hbc with
    | cons hyz hrest =>
      exact List.Forall₂.cons
        ⟨hxy.1.trans hyz.1, hxy.2.1.trans hyz.2.1, hxy.2.2.1.trans hyz.2.2.1,
         hxy.2.2.2.trans hyz.2.2.2⟩ (ih hrest)

theorem sameConfig_refl (s : MState) : sameConfig s s :=
  ⟨rfl, rfl, rfl, rfl, rfl, rfl, rfl, rfl, rfl, rfl⟩

theorem sameConfig_trans {a b c : MState} (hab : sameConfig a b) (hbc : sameConfig b c) :
    sameConfig a c :=
  ⟨hab.1.trans hbc.1, hab.2.1.trans hbc.2.1, hab.2.2.1.trans hbc.2.2.1,
   hab.2.2.2.1.trans hbc.2.2.2.1, hab.2.2.2.2.1.trans hbc.2.2.2.2.1,
   hab.2.2.2.2.2.1.trans hbc.2.2.2.2.2.1, hab.2.2.2.2.2.2.1.trans hbc.2.2.2.2.2.2.1,
   hab.2.2.2.2.2.2.2.1.trans hbc.2.2.2.2.2.2.2.1,
   hab.2.2.2.2.2.2.2.2.1.trans hbc.2.2.2.2.2.2.2.2.1,
   hab.2.2.2.2.2.2.2.2.2.trans hbc.2.2.2.2.2.2.2.2.2⟩

theorem collectLruAux_spec (fuel : Nat) :
    ∀ (s : MState) (size found : Nat),
      List.Forall₂ entrySub ((collectLruAux fuel s size found).1.fdict) s.fdict ∧
      sameConfig (collectLruAux fuel s size found).1 s ∧
      (collectLruAux fuel s size found).1.trace = s.trace := by
  induction fuel with
  | zero =>
    intro s size found
    exact ⟨entrySub_refl _, sameConfig_refl _, rfl⟩
  | succ fuel ih =>
    intro s size found
    simp only [collectLruAux]
    split
    · split
      · exact ⟨entrySub_refl _, sameConfig_refl _, rfl⟩
      · next r hf =>
        split
        · exact ⟨entrySub_refl _, sameConfig_refl _, rfl⟩
        · next rr fd' hr =>
          obtain ⟨h1, h2, h3⟩ := ih (evictUpd s rr fd') size (found + 1)
          exact ⟨entrySub_trans h1 (removeRid_entrySub hr), h2, h3⟩
    · exact ⟨entrySub_refl _, sameConfig_refl _, rfl⟩

theorem collectLru_spec (s : MState) (size : Nat) :
    List.Forall₂ entrySub ((collectLru s size).1.fdict) s.fdict ∧
    sameConfig (collectLru s size).1 s ∧
    (collectLru s size).1.trace = s.trace ++ [size] := by
  unfold collectLru
  obtain ⟨h1, h2, h3⟩ := collectLruAux_spec (totalRegions s.fdict + 1)
    { s with trace := s.trace ++ [size] } size 0
  exact ⟨h1, h2, h3⟩

/-! ## Association-list plumbing -/

theorem setRList_not_found {fd : List (Nat × MapRegionList)} {fid : Nat}
    (h : fd.find? (fun p => p.1 == fid) = none) (rl : MapRegionList) :
    setRList fd fid rl = fd := by
  induction fd with
  | nil => rfl
  | cons p rest ih =>
    cases hb : (p.1 == fid) with
    | true =>
      have hfc : List.find? (fun q => q.1 == fid) (p :: rest) = some p :=
        List.find?_cons_of_pos _ hb
      rw [hfc] at h; exact absurd h (by simp)
    | false =>
      have hfc : List.find? (fun q => q.1 == fid) (p :: rest) =
          List.find? (fun q => q.1 == fid) rest :=
        List.find?_cons_of_neg _ (by simp [hb])
      rw [hfc] at h
      simp [setRList, hb, ih h]

theorem find?_setRList_self {fd : List (Nat × MapRegionList)} {fid : Nat}
    {q : Nat × MapRegionList} (h : fd.find? (fun p => p.1 == fid) = some q)
    (rl : MapRegionList) :
    (setRList fd fid rl).find? (fun p => p.1 == fid) = some (q.1, rl) := by
  induction fd with
  | nil => simp at h
  | cons p rest ih =>
    cases hb : (p.1 == fid) with
    | true =>
      have hfc : List.find? (fun q => q.1 == fid) (p :: rest) = some p :=
        List.find?_cons_of_pos _ hb
      rw [hfc] at h
      obtain rfl := by simpa using h
      simp only [setRList, hb, if_true]
      exact List.find?_cons_of_pos _ hb
    | false =>
      have hfc : List.find? (fun q => q.1 == fid) (p :: rest) =
          List.find? (fun q => q.1 == fid) rest :=
        List.find?_cons_of_neg _ (by simp [hb])
      rw [hfc] at h
      simp only [setRList, hb]
      rw [if_neg (by simp)]
      have hfc2 : List.find? (fun q => q.1 == fid) (p :: setRList rest fid rl) =
          List.find? (fun q => q.1 == fid) (setRList rest fid rl) :=
        List.find?_cons_of_neg _ (by simp [hb])
      rw [hfc2]
      exact ih h

theorem allRegionsF_setRList {fd : List (Nat × MapRegionList)} {fid : Nat}
    {q : Nat × MapRegionList} (h : fd.find? (fun p => p.1 == fid) = some q)
    (rl : MapRegionList) :
    ∃ L R, allRegionsF fd = L ++ (q.2.regions ++ R) ∧
      allRegionsF (setRList fd fid rl) = L ++ (rl.regions ++ R) := by
  induction fd with
  | nil => simp at h
  | cons p rest ih =>
    cases hb : (p.1 == fid) with
    | true =>
      have hfc : List.find? (fun q => q.1 == fid) (p :: rest) = some p :=
        List.find?_cons_of_pos _ hb
      rw [hfc] at h
      obtain rfl := by simpa using h
      exact ⟨[], allRegionsF rest, by simp [allRegionsF], by simp [setRList, hb, allRegionsF]⟩
    | false =>
      have hfc : List.find? (fun q => q.1 == fid) (p :: rest) =
          List.find? (fun q => q.1 == fid) rest :=
        List.find?_cons_of_neg _ (by simp [hb])
      rw [hfc] at h
      obtain ⟨L, R, h1, h2⟩ := ih h
      refine ⟨p.2.regions ++ L, R, ?_, ?_⟩
      · simp only [allRegionsF, List.map_cons, List.flatten_cons] at h1 ⊢
        rw [h1]; simp
      · simp only [setRList, hb]
        rw [if_neg (by simp)]
        simp only [allRegionsF, List.map_cons, List.flatten_cons]
        simp only [allRegionsF] at h2
        rw [h2]; simp

theorem setRList_mem {fd : List (Nat × MapRegionList)} {fid : Nat} {rl : MapRegionList}
    {p' : Nat × MapRegionList} (h : p' ∈ setRList fd fid rl) :
    p' ∈ fd ∨ p'.2 = rl := by
  induction fd with
  | nil => simp [setRList] at h
  | cons p rest ih =>
    simp only [setRList] at h
    split at h
    · rcases List.mem_cons.1 h with h | h
      · right; rw [h]
      · left; exact List.mem_cons_of_mem _ h
    · rcases List.mem_cons.1 h with h | h
      · left; rw [h]; exact List.mem_cons_self _ _
      · rcases ih h with h | h
        · left; exact List.mem_cons_of_mem _ h
        · right; exact h

theorem getRList_fileSize_of_find? {s : MState} {fid : Nat} {q : Nat × MapRegionList}
    (h : s.fdict.find? (fun p => p.1 == fid) = some q) :
    getRList s fid = q.2 := by
  unfold getRList
  rw [h]

/-! ## Ordered insertion -/

theorem insertAt_mem {l : List MapRegion} {n : Nat} {x y : MapRegion}
    (h : y ∈ insertAt l n x) : y = x ∨ y ∈ l := by
  unfold insertAt at h
  rcases List.mem_append.1 h with h | h
  · exact Or.inr (List.mem_of_mem_take h)
  · rcases List.mem_cons.1 h with h | h
    · exact Or.inl h
    · exact Or.inr (List.mem_of_mem_drop h)

theorem insertAt_length (l : List MapRegion) (n : Nat) (x : MapRegion) :
    (insertAt l n x).length = l.length + 1 := by
  unfold insertAt
  simp [List.length_take, List.length_drop]
  omega

theorem insertAt_sum (l : List MapRegion) (n : Nat) (x : MapRegion) :
    ((insertAt l n x).map MapRegion.size).sum = (l.map MapRegion.size).sum + x.size := by
  unfold insertAt
  rw [List.map_append, List.sum_append, List.map_cons, List.sum_cons,
    List.map_take, List.map_drop]
  have := List.sum_take_add_sum_drop (l.map MapRegion.size) n
  omega

theorem insertAt_map_rid (l : List MapRegion) (n : Nat) (x : MapRegion) :
    (insertAt l n x).map MapRegion.rid =
      (l.take n).map MapRegion.rid ++ x.rid :: (l.drop n).map MapRegion.rid := by
  simp [insertAt]

theorem insertAt_pairwise {l : List MapRegion} {n : Nat} {x : MapRegion}
    (hl : l.Pairwise ordRel)
    (hbefore : ∀ y ∈ l.take n, ordRel y x) (hafter : ∀ y ∈ l.drop n, ordRel x y) :
    (insertAt l n x).Pairwise ordRel := by
  unfold insertAt
  have htake : (l.take n).Pairwise ordRel := hl.sublist (List.take_sublist n l)
  have hdrop : (l.drop n).Pairwise ordRel := hl.sublist (List.drop_sublist n l)
  refine List.pairwise_append.mpr ⟨htake, List.pairwise_cons.mpr ⟨hafter, hdrop⟩, ?_⟩
  intro a ha b hb
  rcases List.mem_cons.1 hb with rfl | hb
  · exact hbefore a ha
  · -- a comes before b in l, with x in between
    have h1 : ordRel a x := hbefore a ha
    have h2 : ordRel x b := hafter b hb
    unfold ordRel at *
    omega

/-! ## Bisection lookup -/

theorem includes_ofs_true_iff (r : MapRegion) (o : Nat) :
    r.includes_ofs o = true ↔ (r._b ≤ o ∧ o < r._b + r.size) := by
  simp [MapRegion.includes_ofs]

theorem includes_ofs_false_iff (r : MapRegion) (o : Nat) :
    r.includes_ofs o = false ↔ (o < r._b ∨ r._b + r.size ≤ o) := by
  rw [← Bool.not_eq_true, includes_ofs_true_iff]
  omega

theorem pairwise_getD {regs : List MapRegion} (hpair : regs.Pairwise ordRel)
    {i j : Nat} (hij : i < j) (hj : j < regs.length) :
    ordRel (regs.getD i default) (regs.getD j default) := by
  rw [List.getD_eq_getElem _ _ (by omega), List.getD_eq_getElem _ _ hj]
  exact List.pairwise_iff_getElem.mp hpair i j (by omega) hj hij

theorem bisect_some {regs : List MapRegion} {offset : Nat} :
    ∀ {fuel lo hi : Nat} {r : MapRegion}, hi ≤ regs.length →
      bisectFind regs offset lo hi fuel = some r →
      r ∈ regs ∧ r.includes_ofs offset = true := by
  intro fuel
  induction fuel with
  | zero => intro lo hi r _ h; simp [bisectFind] at h
  | succ fuel ih =>
    intro lo hi r hhi h
    simp only [bisectFind] at h
    split at h
    · next hlh =>
      have hmid : (lo + hi) / 2 < regs.length := by omega
      split at h
      · split at h
        · next h1 h2 =>
          have hr : regs.getD ((lo + hi) / 2) default = r := Option.some.inj h
          subst hr
          refine ⟨?_, ?_⟩
          · rw [List.getD_eq_getElem _ _ hmid]
            exact List.getElem_mem hmid
          · rw [includes_ofs_true_iff]; exact ⟨h1, h2⟩
        · exact ih hhi h
      · exact ih (by omega) h
    · simp at h

theorem bisect_none {regs : List MapRegion} {offset : Nat}
    (hpair : regs.Pairwise ordRel) :
    ∀ {fuel lo hi : Nat}, hi ≤ regs.length → hi - lo ≤ fuel →
      (∀ i, i < lo → i < regs.length →
        (regs.getD i default)._b + (regs.getD i default).size ≤ offset) →
      (∀ i, hi ≤ i → i < regs.length → offset < (regs.getD i default)._b) →
      bisectFind regs offset lo hi fuel = none →
      ∀ i, i < regs.length → (regs.getD i default).includes_ofs offset = false := by
  intro fuel
  induction fuel with
  | zero =>
    intro lo hi hhi hfuel hlow hhigh _ i hi_len
    have hlo : hi ≤ lo := by omega
    by_cases hc : i < lo
    · have := hlow i hc hi_len
      rw [includes_ofs_false_iff]
      omega
    · have := hhigh i (by omega) hi_len
      rw [includes_ofs_false_iff]
      omega
  | succ fuel ih =>
    intro lo hi hhi hfuel hlow hhigh h i hi_len
    simp only [bisectFind] at h
    split at h
    · next hlh =>
      have hmid : (lo + hi) / 2 < regs.length := by omega
      split at h
      · next hb =>
        split at h
        · simp at h
        · next hni =>
          -- recurse on the right half: everything at or below mid ends before offset
          refine ih hhi (by omega) ?_ hhigh h i hi_len
          intro j hj hj_len
          by_cases hjm : j = (lo + hi) / 2
          · subst hjm; omega
          · have := pairwise_getD hpair (show j < (lo + hi) / 2 by omega) hmid
            unfold ordRel at this
            omega
      · next hb =>
        -- recurse on the left half: everything at or above mid begins past offset
        refine ih (by omega) (by omega) hlow ?_ h i hi_len
        intro j hj hj_len
        by_cases hjm : j = (lo + hi) / 2
        · subst hjm; omega
        · have := pairwise_getD hpair (show (lo + hi) / 2 < j by omega) hj_len
          unfold ordRel at this
          omega
    · -- lo ≥ hi: the boundaries cover everything
      by_cases hc : i < lo
      · have := hlow i hc hi_len
        rw [includes_ofs_false_iff]
        omega
      · have := hhigh i (by omega) hi_len
        rw [includes_ofs_false_iff]
        omega

/-- Top-level bisection miss: no region of a sorted list contains the
offset. -/
theorem bisect_none_top {regs : List MapRegion} {offset : Nat}
    (hpair : regs.Pairwise ordRel)
    (h : bisectFind regs offset 0 regs.length (regs.length + 1) = none) :
    ∀ r ∈ regs, r.includes_ofs offset = false := by
  intro r hr
  obtain ⟨i, hi, rfl⟩ := List.getElem_of_mem hr
  have := bisect_none hpair (Nat.le_refl _) (by omega)
    (by intro j hj _; omega) (by intro j hj hjl; omega) h i hi
  rwa [List.getD_eq_getElem _ _ hi] at this

/-! ## The `use_region` control paths -/

theorem unusePins_some (s : MState) {c : WindowCursor} {rid : Nat}
    (h : c._region = some rid) :
    unusePins s c = { s with pins := fun k => if k = rid then s.pins k - 1 else s.pins k } := by
  unfold unusePins
  rw [h]

theorem unusePins_fields (s : MState) (c : WindowCursor) :
    (unusePins s c).fdict = s.fdict ∧ (unusePins s c).memory_size = s.memory_size ∧
    (unusePins s c).handle_count = s.handle_count ∧ (unusePins s c).trace = s.trace ∧
    (unusePins s c).window_size = s.window_size ∧ (unusePins s c).page = s.page ∧
    (unusePins s c).next_rid = s.next_rid ∧ (unusePins s c).max_memory_size = s.max_memory_size ∧
    (unusePins s c).max_handle_count = s.max_handle_count ∧
    (unusePins s c).sliding = s.sliding ∧ (unusePins s c).clock = s.clock ∧
    (unusePins s c).mapCalls = s.mapCalls ∧ (unusePins s c).lrefs = s.lrefs := by
  unfold unusePins
  cases c._region <;> exact ⟨rfl, rfl, rfl, rfl, rfl, rfl, rfl, rfl, rfl, rfl, rfl, rfl, rfl⟩

theorem useRetarget_none {s : MState} {c : WindowCursor} (h : c._region = none)
    (offset : Nat) : useRetarget s c offset = (true, s, c) := by
  unfold useRetarget
  rw [h]

theorem useRetarget_inc {s : MState} {c : WindowCursor} {rid : Nat} {offset : Nat}
    (h : c._region = some rid) (hinc : regIncludesB s c.fid rid offset = true) :
    useRetarget s c offset = (false, s, c) := by
  unfold useRetarget
  rw [h]
  simp [hinc]

theorem useRetarget_notinc {s : MState} {c : WindowCursor} {rid : Nat} {offset : Nat}
    (h : c._region = some rid) (hninc : regIncludesB s c.fid rid offset = false) :
    useRetarget s c offset = (true, unusePins s c, { c with _region := none }) := by
  unfold useRetarget
  rw [h]
  simp [hninc]

/-- The EOF early return (mman.py 109-112): when `offset ≥ fsize`, the call
stops right after the reuse-or-release step. -/
theorem useRegion_eof {s : MState} {c : WindowCursor} {offset : Nat}
    (env : Nat → Bool) (sizeParam flags : Nat)
    (hofs : (getRList s c.fid).file_size ≤ offset) :
    useRegion env s c offset sizeParam flags =
      ((useRetarget s c offset).2.1, (useRetarget s c offset).2.2, true) := by
  unfold useRegion
  rw [if_pos (by simpa using hofs)]

/-- The in-bounds path: when `offset < fsize`, the call runs the
obtain-or-reuse dispatch and pins on success. -/
theorem useRegion_inbounds {s : MState} {c : WindowCursor} {offset : Nat}
    (env : Nat → Bool) (sizeParam flags : Nat)
    (hofs : offset < (getRList s c.fid).file_size) :
    useRegion env s c offset sizeParam flags =
      (match (if (useRetarget s c offset).1 then
                obtainRegion env (useRetarget s c offset).2.1 c.fid offset
                  (effectiveSize s c.fid sizeParam) flags
              else ((useRetarget s c offset).2.1,
                    cursorRegion (useRetarget s c offset).2.1 (useRetarget s c offset).2.2)) with
       | (s2, none) => (s2, (useRetarget s c offset).2.2, false)
       | (s2, some r) =>
         usePin s2 (useRetarget s c offset).2.2 c.fid (useRetarget s c offset).1 r offset
           (effectiveSize s c.fid sizeParam)) := by
  unfold useRegion
  rw [if_neg (by simpa using Nat.not_le.2 hofs)]

/-! ## Lookup plumbing for `_obtain_region` -/

theorem forall₂_find? {fd' fd : List (Nat × MapRegionList)} {k : Nat}
    (h : List.Forall₂ entrySub fd' fd) {q : Nat × MapRegionList}
    (hq : fd.find? (fun p => p.1 == k) = some q) :
    ∃ q', fd'.find? (fun p => p.1 == k) = some q' ∧ entrySub q' q := by
  induction h with
  | nil => simp at hq
  | cons hpq hrest ih =>
    next p' p l' l =>
    cases hb : (p.1 == k) with
    | true =>
      have hfc : List.find? (fun x => x.1 == k) (p :: l) = some p :=
        List.find?_cons_of_pos _ hb
      rw [hfc] at hq
      obtain rfl := by simpa using hq
      have hb' : (p'.1 == k) = true := by rw [hpq.1]; exact hb
      exact ⟨p', List.find?_cons_of_pos _ hb', hpq⟩
    | false =>
      have hfc : List.find? (fun x => x.1 == k) (p :: l) = List.find? (fun x => x.1 == k) l :=
        List.find?_cons_of_neg _ (by simp [hb])
      rw [hfc] at hq
      obtain ⟨q', hq', hsub⟩ := ih hq
      have hb' : (p'.1 == k) = false := by rw [hpq.1]; exact hb
      refine ⟨q', ?_, hsub⟩
      have hfc' : List.find? (fun x => x.1 == k) (p' :: l') =
          List.find? (fun x => x.1 == k) l' :=
        List.find?_cons_of_neg _ (by simp [hb'])
      rw [hfc']
      exact hq'

theorem forall₂_find?_isSome {fd' fd : List (Nat × MapRegionList)} {k : Nat}
    (h : List.Forall₂ entrySub fd' fd)
    (hq : (fd.find? (fun p => p.1 == k)).isSome = true) :
    (fd'.find? (fun p => p.1 == k)).isSome = true := by
  cases hfind : fd.find? (fun p => p.1 == k) with
  | none => rw [hfind] at hq; simp at hq
  | some q =>
    obtain ⟨q', hq', _⟩ := forall₂_find? h hfind
    rw [hq']
    rfl

theorem ridInvF_of_entrySub {fd' fd : List (Nat × MapRegionList)} {nr : Nat}
    (h : List.Forall₂ entrySub fd' fd) (hr : RidInvF fd nr) : RidInvF fd' nr := by
  have hsub := entrySub_allRegions h
  exact ⟨hr.1.sublist (hsub.map _), fun r hm => hr.2 r (hsub.mem hm)⟩

theorem ridInv_collectLru (s : MState) (size : Nat) (h : RidInv s) :
    RidInv (collectLru s size).1 := by
  obtain ⟨h1, h2, _⟩ := collectLru_spec s size
  unfold RidInv at *
  rw [h2.2.2.2.2.2.1]
  exact ridInvF_of_entrySub h1 h

theorem sublist_allRegionsF_of_mem {fd : List (Nat × MapRegionList)}
    {p : Nat × MapRegionList} (h : p ∈ fd) : p.2.regions.Sublist (allRegionsF fd) := by
  induction fd with
  | nil => simp at h
  | cons q rest ih =>
    rcases List.mem_cons.1 h with rfl | h
    · simp only [allRegionsF, List.map_cons, List.flatten_cons]
      exact List.sublist_append_left _ _
    · simp only [allRegionsF, List.map_cons, List.flatten_cons]
      exact (ih h).trans (List.sublist_append_right _ _)

theorem find?_rid_of_mem_nodup {l : List MapRegion}
    (hnd : (l.map MapRegion.rid).Nodup) {r : MapRegion} (hr : r ∈ l) :
    l.find? (fun x => x.rid == r.rid) = some r := by
  induction l with
  | nil => simp at hr
  | cons x rest ih =>
    rcases List.mem_cons.1 hr with rfl | hr
    · exact List.find?_cons_of_pos _ (by simp)
    · have hx : x.rid ≠ r.rid := by
        intro he
        have : x.rid ∈ rest.map MapRegion.rid := he ▸ List.mem_map_of_mem _ hr
        exact (List.nodup_cons.1 (by simpa using hnd)).1 this
      have hfc : List.find? (fun y => y.rid == r.rid) (x :: rest) =
          List.find? (fun y => y.rid == r.rid) rest :=
        List.find?_cons_of_neg _ (by simp [hx])
      rw [hfc]
      exact ih (List.nodup_cons.1 (by simpa using hnd)).2 hr

theorem insertAt_perm (l : List MapRegion) (n : Nat) (x : MapRegion) :
    (insertAt l n x).Perm (x :: l) := by
  unfold insertAt
  calc (l.take n ++ x :: l.drop n).Perm (x :: (l.take n ++ l.drop n)) := List.perm_middle
    _ = x :: l := by rw [List.take_append_drop]

/-- `getRegion` in the list of `fid` after inserting a region whose ghost
id is fresh for that list. -/
theorem find?_insertAt_fresh {l : List MapRegion} {n : Nat} {x : MapRegion}
    (hfresh : ∀ y ∈ l, y.rid ≠ x.rid) :
    (insertAt l n x).find? (fun y => y.rid == x.rid) = some x := by
  unfold insertAt
  rw [List.find?_append]
  have h1 : (l.take n).find? (fun y => y.rid == x.rid) = none := by
    rw [List.find?_eq_none]
    intro y hy
    simp [hfresh y (List.mem_of_mem_take hy)]
  rw [h1]
  simp [List.find?_cons_of_pos]

/-- The uc-stamping function preserves everything except `_uc`. -/
theorem stamp_f_shape (rid u : Nat) (x : MapRegion) :
    ((if x.rid == rid then { x with _uc := u } else x)._b = x._b) ∧
    ((if x.rid == rid then { x with _uc := u } else x).size = x.size) ∧
    ((if x.rid == rid then { x with _uc := u } else x).rid = x.rid) := by
  split <;> exact ⟨rfl, rfl, rfl⟩

theorem stampRegion_fields (s : MState) (fid rid : Nat) :
    (stampRegion s fid rid).pins = s.pins ∧
    (stampRegion s fid rid).memory_size = s.memory_size ∧
    (stampRegion s fid rid).handle_count = s.handle_count ∧
    (stampRegion s fid rid).trace = s.trace ∧
    (stampRegion s fid rid).next_rid = s.next_rid ∧
    (stampRegion s fid rid).lrefs = s.lrefs := by
  unfold stampRegion
  exact ⟨rfl, rfl, rfl, rfl, rfl, rfl⟩

theorem stamp_getRegion {s : MState} {fid rid : Nat} {r : MapRegion}
    (h : getRegion s fid rid = some r) :
    getRegion (stampRegion s fid rid) fid rid = some { r with _uc := s.clock + 1 } := by
  have hfind : ∃ q, s.fdict.find? (fun p => p.1 == fid) = some q := by
    cases hf : s.fdict.find? (fun p => p.1 == fid) with
    | none =>
      exfalso
      unfold getRegion getRList at h
      rw [hf] at h
      simp at h
    | some q => exact ⟨q, rfl⟩
  obtain ⟨q, hf⟩ := hfind
  have hrl : getRList s fid = q.2 := getRList_fileSize_of_find? hf
  have hlist : q.2.regions.find? (fun y => y.rid == rid) = some r := by
    unfold getRegion at h
    rw [hrl] at h
    exact h
  have hrtrue : (r.rid == rid) = true := by simpa using List.find?_some hlist
  unfold stampRegion
  dsimp only
  rw [hrl]
  have hset := find?_setRList_self hf
    (⟨q.2.path_or_fd, q.2.file_size, q.2.regions.map
      (fun r0 => if r0.rid == rid then { r0 with _uc := s.clock + 1 } else r0)⟩ : MapRegionList)
  unfold getRegion getRList
  dsimp only
  rw [hset]
  dsimp only
  rw [List.find?_map]
  have hpred : ((fun y : MapRegion => y.rid == rid) ∘
      (fun r0 => if r0.rid == rid then { r0 with _uc := s.clock + 1 } else r0)) =
      (fun y : MapRegion => y.rid == rid) := by
    funext y
    simp only [Function.comp]
    rw [(stamp_f_shape rid (s.clock + 1) y).2.2]
  rw [hpred, hlist]
  simp only [Option.map_some', if_pos hrtrue]

theorem forall₂_find?_none {fd' fd : List (Nat × MapRegionList)} {k : Nat}
    (h : List.Forall₂ entrySub fd' fd)
    (hq : fd.find? (fun p => p.1 == k) = none) :
    fd'.find? (fun p => p.1 == k) = none := by
  induction h with
  | nil => rfl
  | cons hpq hrest ih =>
    next p' p l' l =>
    cases hb : (p.1 == k) with
    | true =>
      have hfc : List.find? (fun x => x.1 == k) (p :: l) = some p :=
        List.find?_cons_of_pos _ hb
      rw [hfc] at hq
      simp at hq
    | false =>
      have hfc : List.find? (fun x => x.1 == k) (p :: l) = List.find? (fun x => x.1 == k) l :=
        List.find?_cons_of_neg _ (by simp [hb])
      rw [hfc] at hq
      have hb' : (p'.1 == k) = false := by rw [hpq.1]; exact hb
      have hfc' : List.find? (fun x => x.1 == k) (p' :: l') =
          List.find? (fun x => x.1 == k) l' :=
        List.find?_cons_of_neg _ (by simp [hb'])
      rw [hfc']
      exact ih hq

theorem entrySub_getRList {s2 s : MState}
    (h : List.Forall₂ entrySub s2.fdict s.fdict) (fid : Nat) :
    (getRList s2 fid).file_size = (getRList s fid).file_size ∧
    (getRList s2 fid).regions.Sublist (getRList s fid).regions := by
  cases hf : s.fdict.find? (fun p => p.1 == fid) with
  | none =>
    unfold getRList
    rw [hf, forall₂_find?_none h hf]
    exact ⟨rfl, List.Sublist.refl _⟩
  | some q =>
    obtain ⟨q', hq', hsub⟩ := forall₂_find? h hf
    unfold getRList
    rw [hf, hq']
    exact ⟨hsub.2.2.1, hsub.2.2.2⟩

theorem getRList_of_fdict_set {s' : MState} {fd : List (Nat × MapRegionList)}
    {fid : Nat} {rlNew : MapRegionList} {q : Nat × MapRegionList}
    (h : s'.fdict = setRList fd fid rlNew)
    (hf : fd.find? (fun p => p.1 == fid) = some q) :
    getRList s' fid = rlNew := by
  unfold getRList
  rw [h, find?_setRList_self hf]

/-- Inserting one region with a fresh ghost id keeps the id invariant,
with the allocation counter advanced. -/
theorem ridInvF_after_insert {fd : List (Nat × MapRegionList)} {fid : Nat}
    {q : Nat × MapRegionList} (hf : fd.find? (fun p => p.1 == fid) = some q)
    {regs' : List MapRegion} {r1 : MapRegion} {nr : Nat}
    (hperm : regs'.Perm (r1 :: q.2.regions)) (hrid : RidInvF fd nr) (hr1 : r1.rid = nr) :
    RidInvF (setRList fd fid ⟨q.2.path_or_fd, q.2.file_size, regs'⟩) (nr + 1) := by
  obtain ⟨L, R, hold, hnew⟩ :=
    allRegionsF_setRList hf (⟨q.2.path_or_fd, q.2.file_size, regs'⟩ : MapRegionList)
  have hperm2 : (allRegionsF (setRList fd fid ⟨q.2.path_or_fd, q.2.file_size, regs'⟩)).Perm
      (r1 :: allRegionsF fd) := by
    rw [hnew, hold]
    have hp1 : (L ++ (regs' ++ R)).Perm (L ++ ((r1 :: q.2.regions) ++ R)) :=
      List.Perm.append_left L (hperm.append_right R)
    have hp2 : L ++ ((r1 :: q.2.regions) ++ R) = L ++ (r1 :: (q.2.regions ++ R)) := by simp
    have hp3 : (L ++ (r1 :: (q.2.regions ++ R))).Perm (r1 :: (L ++ (q.2.regions ++ R))) :=
      List.perm_middle
    exact hp1.trans (hp2 ▸ hp3)
  constructor
  · refine ((hperm2.map MapRegion.rid).nodup_iff).2 ?_
    simp only [List.map_cons, List.nodup_cons]
    refine ⟨?_, hrid.1⟩
    intro hmem
    obtain ⟨r0, hr0, he⟩ := List.mem_map.1 hmem
    have := hrid.2 r0 hr0
    omega
  · intro r hr
    have := hperm2.mem_iff.1 hr
    rcases List.mem_cons.1 this with rfl | hm
    · omega
    · have := hrid.2 r hm
      omega

theorem getRList_regionAppend {s : MState} {fid : Nat} {q : Nat × MapRegionList}
    (hf : s.fdict.find? (fun p => p.1 == fid) = some q) (r : MapRegion) :
    getRList (regionAppend s fid (getRList s fid) r) fid =
      { getRList s fid with regions := (getRList s fid).regions ++ [r] } :=
  getRList_of_fdict_set rfl hf

theorem getRList_regionInsert {s : MState} {fid : Nat} {q : Nat × MapRegionList}
    (hf : s.fdict.find? (fun p => p.1 == fid) = some q) (ins : Nat) (r : MapRegion) :
    getRList (regionInsert s fid (getRList s fid) ins r) fid =
      { getRList s fid with regions := insertAt (getRList s fid).regions ins r } :=
  getRList_of_fdict_set rfl hf

theorem regionAppend_presence {s : MState} {fid : Nat} {q : Nat × MapRegionList}
    (hf : s.fdict.find? (fun p => p.1 == fid) = some q) (a : MapRegionList) (r : MapRegion) :
    (((regionAppend s fid a r).fdict).find? (fun p => p.1 == fid)).isSome = true := by
  unfold regionAppend
  dsimp only
  rw [find?_setRList_self hf]
  rfl

theorem regionInsert_presence {s : MState} {fid : Nat} {q : Nat × MapRegionList}
    (hf : s.fdict.find? (fun p => p.1 == fid) = some q) (a : MapRegionList) (ins : Nat)
    (r : MapRegion) :
    (((regionInsert s fid a ins r).fdict).find? (fun p => p.1 == fid)).isSome = true := by
  unfold regionInsert
  dsimp only
  rw [find?_setRList_self hf]
  rfl

theorem ridInv_regionAppend {s : MState} {fid : Nat} {q : Nat × MapRegionList}
    (hf : s.fdict.find? (fun p => p.1 == fid) = some q) {r : MapRegion}
    (hrid : RidInv s) (hr : r.rid = s.next_rid) :
    RidInv (regionAppend s fid (getRList s fid) r) := by
  have ha : getRList s fid = q.2 := getRList_fileSize_of_find? hf
  unfold RidInv regionAppend
  dsimp only
  rw [ha]
  exact ridInvF_after_insert hf (List.perm_append_singleton r q.2.regions) hrid hr

theorem ridInv_regionInsert {s : MState} {fid : Nat} {q : Nat × MapRegionList}
    (hf : s.fdict.find? (fun p => p.1 == fid) = some q) {r : MapRegion} (ins : Nat)
    (hrid : RidInv s) (hr : r.rid = s.next_rid) :
    RidInv (regionInsert s fid (getRList s fid) ins r) := by
  have ha : getRList s fid = q.2 := getRList_fileSize_of_find? hf
  unfold RidInv regionInsert
  dsimp only
  rw [ha]
  exact ridInvF_after_insert hf (insertAt_perm q.2.regions ins r) hrid hr

/-- Postcondition of a successful `StaticWindowMapManager._obtain_region`
attempt: the returned region passed the `includes_ofs` assert, it is
present (first of its ghost id) in the list of `fid`, and the id
invariant is maintained. -/
theorem staticOnce_ok {env : Nat → Bool} {s : MState} {fid offset size flags : Nat}
    {s' : MState} {r : MapRegion}
    (h : staticObtainOnce env s fid offset size flags = (s', .ok r))
    (hq : (s.fdict.find? (fun p => p.1 == fid)).isSome = true)
    (hrid : RidInv s) :
    r.includes_ofs offset = true ∧ getRegion s' fid r.rid = some r ∧ RidInv s' ∧
    (s'.fdict.find? (fun p => p.1 == fid)).isSome = true := by
  unfold staticObtainOnce at h
  set s1 := if decide (s.max_memory_size < s.memory_size + size) then (collectLru s size).1
            else s with hs1
  dsimp only at h
  have hfacts : List.Forall₂ entrySub s1.fdict s.fdict ∧ sameConfig s1 s := by
    rw [hs1]
    split
    · obtain ⟨h1, h2, _⟩ := collectLru_spec s size
      exact ⟨h1, h2⟩
    · exact ⟨entrySub_refl _, sameConfig_refl _⟩
  have hq1 : (s1.fdict.find? (fun p => p.1 == fid)).isSome = true :=
    forall₂_find?_isSome hfacts.1 hq
  have hrid1 : RidInv s1 := by
    unfold RidInv at hrid ⊢
    rw [hfacts.2.2.2.2.2.2.1]
    exact ridInvF_of_entrySub hfacts.1 hrid
  obtain ⟨q1, hf1⟩ : ∃ q1, s1.fdict.find? (fun p => p.1 == fid) = some q1 := by
    cases hc : s1.fdict.find? (fun p => p.1 == fid) with
    | none => rw [hc] at hq1; simp at hq1
    | some q1 => exact ⟨q1, rfl⟩
  have ha : getRList s1 fid = q1.2 := getRList_fileSize_of_find? hf1
  cases hregs : (getRList s1 fid).regions with
  | cons r0 rest =>
    rw [hregs] at h
    dsimp only at h
    cases hrest : rest.isEmpty with
    | true =>
      rw [hrest] at h
      simp only [if_true] at h
      split at h
      · next hinc =>
        obtain ⟨rfl, hok⟩ := Prod.mk.inj h
        cases hok
        refine ⟨hinc, ?_, hrid1, hq1⟩
        unfold getRegion
        rw [hregs]
        have : rest = [] := List.isEmpty_iff.1 hrest
        subst this
        exact List.find?_cons_of_pos _ (by simp)
      · exact absurd (Prod.mk.inj h).2 (by simp)
    | false =>
      rw [hrest] at h
      simp only [Bool.false_eq_true, if_false] at h
      exact absurd (Prod.mk.inj h).2 (by simp)
  | nil =>
    rw [hregs] at h
    dsimp only at h
    cases henv : env s1.mapCalls with
    | false =>
      rw [henv] at h
      simp only [Bool.false_eq_true, if_false] at h
      exact absurd (Prod.mk.inj h).2 (by simp)
    | true =>
      rw [henv] at h
      simp only [if_true] at h
      split at h
      · next hinc =>
        obtain ⟨rfl, hok⟩ := Prod.mk.inj h
        cases hok
        refine ⟨hinc, ?_, ?_, ?_⟩
        · unfold getRegion
          rw [getRList_regionAppend hf1]
          dsimp only
          rw [hregs]
          simp only [List.nil_append]
          exact List.find?_cons_of_pos _ (by simp)
        · exact ridInv_regionAppend hf1 hrid1 rfl
        · exact regionAppend_presence hf1 _ _
      · exact absurd (Prod.mk.inj h).2 (by simp)

theorem mem_allRegions_of_mem_list {s : MState} {fid : Nat} {q : Nat × MapRegionList}
    (hf : s.fdict.find? (fun p => p.1 == fid) = some q) {y : MapRegion}
    (hy : y ∈ (getRList s fid).regions) : y ∈ allRegionsF s.fdict := by
  have ha : getRList s fid = q.2 := getRList_fileSize_of_find? hf
  rw [ha] at hy
  exact (sublist_allRegionsF_of_mem (List.mem_of_find?_eq_some hf)).mem hy

/-- Postcondition of a successful `SlidingWindowMapManager._obtain_region`
attempt: the returned region covers the requested offset (found by
bisection, or by the window-planning arithmetic), it is present in the
list of `fid`, and the id invariant is maintained. -/
theorem slidingOnce_ok {env : Nat → Bool} {s : MState} {fid offset size flags : Nat}
    {s' : MState} {r : MapRegion}
    (h : slidingObtainOnce env s fid offset size flags = (s', .ok r))
    (hq : (s.fdict.find? (fun p => p.1 == fid)).isSome = true)
    (hrid : RidInv s)
    (hofs : offset < (getRList s fid).file_size)
    (hsz : 0 < size) (hp : 0 < s.page) :
    r.includes_ofs offset = true ∧ getRegion s' fid r.rid = some r ∧ RidInv s' ∧
    (s'.fdict.find? (fun p => p.1 == fid)).isSome = true := by
  obtain ⟨q0, hf0⟩ : ∃ q0, s.fdict.find? (fun p => p.1 == fid) = some q0 := by
    cases hc : s.fdict.find? (fun p => p.1 == fid) with
    | none => rw [hc] at hq; simp at hq
    | some q0 => exact ⟨q0, rfl⟩
  unfold slidingObtainOnce at h
  dsimp only at h
  cases hbis : bisectFind (getRList s fid).regions offset 0 (getRList s fid).regions.length
      ((getRList s fid).regions.length + 1) with
  | some r0 =>
    rw [hbis] at h
    dsimp only at h
    obtain ⟨rfl, hok⟩ := Prod.mk.inj h
    cases hok
    obtain ⟨hmem, hinc⟩ := bisect_some (Nat.le_refl _) hbis
    refine ⟨hinc, ?_, hrid, hq⟩
    have ha : getRList s fid = q0.2 := getRList_fileSize_of_find? hf0
    have hnd : ((getRList s fid).regions.map MapRegion.rid).Nodup := by
      rw [ha]
      exact hrid.1.sublist
        ((sublist_allRegionsF_of_mem (List.mem_of_find?_eq_some hf0)).map _)
    unfold getRegion
    exact find?_rid_of_mem_nodup hnd hmem
  | none =>
    rw [hbis] at h
    dsimp only at h
    set s1 := slidingPre s with hs1
    have hfacts : List.Forall₂ entrySub s1.fdict s.fdict ∧ sameConfig s1 s := by
      rw [hs1]
      unfold slidingPre
      split
      · obtain ⟨h1, h2, _⟩ := collectLru_spec s s.window_size
        exact ⟨h1, h2⟩
      · exact ⟨entrySub_refl _, sameConfig_refl _⟩
    have hq1 : (s1.fdict.find? (fun p => p.1 == fid)).isSome = true :=
      forall₂_find?_isSome hfacts.1 hq
    have hrid1 : RidInv s1 := by
      unfold RidInv at hrid ⊢
      rw [hfacts.2.2.2.2.2.2.1]
      exact ridInvF_of_entrySub hfacts.1 hrid
    obtain ⟨q1, hf1⟩ : ∃ q1, s1.fdict.find? (fun p => p.1 == fid) = some q1 := by
      cases hc : s1.fdict.find? (fun p => p.1 == fid) with
      | none => rw [hc] at hq1; simp at hq1
      | some q1 => exact ⟨q1, rfl⟩
    have hfs1 : (getRList s1 fid).file_size = (getRList s fid).file_size :=
      (entrySub_getRList hfacts.1 fid).1
    have hofs1 : offset < (getRList s1 fid).file_size := by rw [hfs1]; exact hofs
    have hp1 : 0 < s1.page := by rw [hfacts.2.2.2.2.1]; exact hp
    split at h
    · exact absurd (Prod.mk.inj h).2 (by simp)
    · split at h
      · next henv =>
        obtain ⟨rfl, hok⟩ := Prod.mk.inj h
        cases hok
        refine ⟨?_, ?_, ?_, ?_⟩
        · rw [includes_ofs_true_iff]
          unfold mkMapRegion
          dsimp only
          have h1 := plan_mid_ofs_le (getRList s1 fid).regions (getRList s1 fid).file_size
            offset size s1.window_size s1.page
          have h2 := plan_mid_ofsEnd_gt (getRList s1 fid).regions size
            s1.window_size s1.page hp1 hsz hofs1
          simp only [MapWindow.ofsEnd] at h2
          omega
        · unfold getRegion
          rw [getRList_regionInsert hf1]
          dsimp only
          refine find?_insertAt_fresh ?_
          intro y hy
          have := hrid1.2 y (mem_allRegions_of_mem_list hf1 hy)
          unfold mkMapRegion
          dsimp only
          omega
        · exact ridInv_regionInsert hf1 _ hrid1 rfl
        · exact regionInsert_presence hf1 _ _ _
      · exact absurd (Prod.mk.inj h).2 (by simp)

/-- A failed static map attempt only evicts and consumes the oracle call:
the region lists refine the old ones and the ghost id counter and page are
unchanged. -/
theorem staticOnce_mapFail_rel {env : Nat → Bool} {s : MState} {fid offset size flags : Nat}
    {s' : MState} (h : staticObtainOnce env s fid offset size flags = (s', .mapFail)) :
    List.Forall₂ entrySub s'.fdict s.fdict ∧ s'.page = s.page ∧ s'.next_rid = s.next_rid := by
  unfold staticObtainOnce at h
  set s1 := if decide (s.max_memory_size < s.memory_size + size) then (collectLru s size).1
            else s with hs1
  dsimp only at h
  have hfacts : List.Forall₂ entrySub s1.fdict s.fdict ∧ sameConfig s1 s := by
    rw [hs1]
    split
    · obtain ⟨h1, h2, _⟩ := collectLru_spec s size
      exact ⟨h1, h2⟩
    · exact ⟨entrySub_refl _, sameConfig_refl _⟩
  cases hregs : (getRList s1 fid).regions with
  | cons r0 rest =>
    rw [hregs] at h
    dsimp only at h
    split at h
    · split at h
      · exact absurd (Prod.mk.inj h).2 (by simp)
      · exact absurd (Prod.mk.inj h).2 (by simp)
    · exact absurd (Prod.mk.inj h).2 (by simp)
  | nil =>
    rw [hregs] at h
    dsimp only at h
    split at h
    · split at h
      · exact absurd (Prod.mk.inj h).2 (by simp)
      · exact absurd (Prod.mk.inj h).2 (by simp)
    · obtain ⟨rfl, _⟩ := Prod.mk.inj h
      exact ⟨hfacts.1, hfacts.2.2.2.2.1, hfacts.2.2.2.2.2.2.1⟩

/-- A failed sliding map attempt (handle cap or map refusal) likewise only
evicts. -/
theorem slidingOnce_mapFail_rel {env : Nat → Bool} {s : MState} {fid offset size flags : Nat}
    {s' : MState} (h : slidingObtainOnce env s fid offset size flags = (s', .mapFail)) :
    List.Forall₂ entrySub s'.fdict s.fdict ∧ s'.page = s.page ∧ s'.next_rid = s.next_rid := by
  unfold slidingObtainOnce at h
  dsimp only at h
  cases hbis : bisectFind (getRList s fid).regions offset 0 (getRList s fid).regions.length
      ((getRList s fid).regions.length + 1) with
  | some r0 =>
    rw [hbis] at h
    dsimp only at h
    exact absurd (Prod.mk.inj h).2 (by simp)
  | none =>
    rw [hbis] at h
    dsimp only at h
    set s1 := slidingPre s with hs1
    have hfacts : List.Forall₂ entrySub s1.fdict s.fdict ∧ sameConfig s1 s := by
      rw [hs1]
      unfold slidingPre
      split
      · obtain ⟨h1, h2, _⟩ := collectLru_spec s s.window_size
        exact ⟨h1, h2⟩
      · exact ⟨entrySub_refl _, sameConfig_refl _⟩
    split at h
    · obtain ⟨rfl, _⟩ := Prod.mk.inj h
      exact ⟨hfacts.1, hfacts.2.2.2.2.1, hfacts.2.2.2.2.2.2.1⟩
    · split at h
      · exact absurd (Prod.mk.inj h).2 (by simp)
      · obtain ⟨rfl, _⟩ := Prod.mk.inj h
        exact ⟨hfacts.1, hfacts.2.2.2.2.1, hfacts.2.2.2.2.2.2.1⟩

theorem presence_of_fsize_pos {s : MState} {fid : Nat}
    (h : 0 < (getRList s fid).file_size) :
    (s.fdict.find? (fun p => p.1 == fid)).isSome = true := by
  cases hf : s.fdict.find? (fun p => p.1 == fid) with
  | none =>
    exfalso
    unfold getRList at h
    rw [hf] at h
    simp at h
  | some q => rfl

/-- Postcondition of a successful `_obtain_region` call (either manager
flavour, including the eviction-and-retry pass). -/
theorem obtainRegion_ok {env : Nat → Bool} {s : MState} {fid offset size flags : Nat}
    {s' : MState} {r : MapRegion}
    (h : obtainRegion env s fid offset size flags = (s', some r))
    (hrid : RidInv s)
    (hofs : offset < (getRList s fid).file_size)
    (hsz : 0 < size) (hp : 0 < s.page) :
    r.includes_ofs offset = true ∧ getRegion s' fid r.rid = some r ∧ RidInv s' := by
  have hq : (s.fdict.find? (fun p => p.1 == fid)).isSome = true :=
    presence_of_fsize_pos (by omega)
  unfold obtainRegion at h
  split at h
  · -- sliding flavour
    unfold slidingObtain at h
    rcases hOnce : slidingObtainOnce env s fid offset size flags with ⟨s1, res⟩
    rw [hOnce] at h
    cases res with
    | ok r1 =>
      dsimp only at h
      obtain ⟨rfl, hr⟩ := Prod.mk.inj h
      obtain rfl := by simpa using hr
      obtain ⟨a1, a2, a3, _⟩ := slidingOnce_ok hOnce hq hrid hofs hsz hp
      exact ⟨a1, a2, a3⟩
    | assertFail =>
      dsimp only at h
      exact absurd (Prod.mk.inj h).2 (by simp)
    | mapFail =>
      dsimp only at h
      obtain ⟨hsub1, hpage1, hnr1⟩ := slidingOnce_mapFail_rel hOnce
      obtain ⟨hsub2, hcfg2, _⟩ := collectLru_spec s1 0
      set s2 := (collectLru s1 0).1 with hs2
      have hsub : List.Forall₂ entrySub s2.fdict s.fdict := entrySub_trans hsub2 hsub1
      have hq2 : (s2.fdict.find? (fun p => p.1 == fid)).isSome = true :=
        forall₂_find?_isSome hsub hq
      have hrid2 : RidInv s2 := by
        unfold RidInv at hrid ⊢
        rw [hcfg2.2.2.2.2.2.1, hnr1]
        exact ridInvF_of_entrySub hsub hrid
      have hofs2 : offset < (getRList s2 fid).file_size := by
        rw [(entrySub_getRList hsub fid).1]
        exact hofs
      have hp2 : 0 < s2.page := by rw [hcfg2.2.2.2.1, hpage1]; exact hp
      rcases hOnce2 : slidingObtainOnce env s2 fid offset size flags with ⟨s3, res2⟩
      rw [hOnce2] at h
      cases res2 with
      | ok r1 =>
        dsimp only at h
        obtain ⟨rfl, hr⟩ := Prod.mk.inj h
        obtain rfl := by simpa using hr
        obtain ⟨a1, a2, a3, _⟩ := slidingOnce_ok hOnce2 hq2 hrid2 hofs2 hsz hp2
        exact ⟨a1, a2, a3⟩
      | assertFail =>
        dsimp only at h
        exact absurd (Prod.mk.inj h).2 (by simp)
      | mapFail =>
        dsimp only at h
        exact absurd (Prod.mk.inj h).2 (by simp)
  · -- static flavour
    unfold staticObtain at h
    rcases hOnce : staticObtainOnce env s fid offset size flags with ⟨s1, res⟩
    rw [hOnce] at h
    cases res with
    | ok r1 =>
      dsimp only at h
      obtain ⟨rfl, hr⟩ := Prod.mk.inj h
      obtain rfl := by simpa using hr
      obtain ⟨a1, a2, a3, _⟩ := staticOnce_ok hOnce hq hrid
      exact ⟨a1, a2, a3⟩
    | assertFail =>
      dsimp only at h
      exact absurd (Prod.mk.inj h).2 (by simp)
    | mapFail =>
      dsimp only at h
      obtain ⟨hsub1, hpage1, hnr1⟩ := staticOnce_mapFail_rel hOnce
      obtain ⟨hsub2, hcfg2, _⟩ := collectLru_spec s1 0
      set s2 := (collectLru s1 0).1 with hs2
      have hsub : List.Forall₂ entrySub s2.fdict s.fdict := entrySub_trans hsub2 hsub1
      have hq2 : (s2.fdict.find? (fun p => p.1 == fid)).isSome = true :=
        forall₂_find?_isSome hsub hq
      have hrid2 : RidInv s2 := by
        unfold RidInv at hrid ⊢
        rw [hcfg2.2.2.2.2.2.1, hnr1]
        exact ridInvF_of_entrySub hsub hrid
      rcases hOnce2 : staticObtainOnce env s2 fid offset size flags with ⟨s3, res2⟩
      rw [hOnce2] at h
      cases res2 with
      | ok r1 =>
        dsimp only at h
        obtain ⟨rfl, hr⟩ := Prod.mk.inj h
        obtain rfl := by simpa using hr
        obtain ⟨a1, a2, a3, _⟩ := staticOnce_ok hOnce2 hq2 hrid2
        exact ⟨a1, a2, a3⟩
      | assertFail =>
        dsimp only at h
        exact absurd (Prod.mk.inj h).2 (by simp)
      | mapFail =>
        dsimp only at h
        exact absurd (Prod.mk.inj h).2 (by simp)

theorem effectiveSize_pos {s : MState} {fid : Nat} (sizeParam : Nat)
    (h : 0 < (getRList s fid).file_size) : 0 < effectiveSize s fid sizeParam := by
  unfold effectiveSize
  split <;> split <;> omega

theorem getRegion_unusePins (s : MState) (c : WindowCursor) (fid rid : Nat) :
    getRegion (unusePins s c) fid rid = getRegion s fid rid := by
  unfold getRegion getRList
  rw [(unusePins_fields s c).1]

theorem ridInv_unusePins (s : MState) (c : WindowCursor) (h : RidInv s) :
    RidInv (unusePins s c) := by
  unfold RidInv at h ⊢
  obtain ⟨h1, _, _, _, _, _, h7, _⟩ := unusePins_fields s c
  rw [h1, h7]
  exact h

/-- The in-bounds path when a region must be (re)obtained. -/
theorem useRegion_need {env : Nat → Bool} {s : MState} {c : WindowCursor} {offset : Nat}
    (sizeParam flags : Nat)
    (hofs : offset < (getRList s c.fid).file_size)
    (ht : (useRetarget s c offset).1 = true) :
    useRegion env s c offset sizeParam flags =
      (match obtainRegion env (useRetarget s c offset).2.1 c.fid offset
          (effectiveSize s c.fid sizeParam) flags with
       | (s2, none) => (s2, (useRetarget s c offset).2.2, false)
       | (s2, some r) => usePin s2 (useRetarget s c offset).2.2 c.fid true r offset
           (effectiveSize s c.fid sizeParam)) := by
  unfold useRegion
  rw [if_neg (by simpa using Nat.not_le.2 hofs), ht]
  rfl

/-- The in-bounds path when the pinned region is reused. -/
theorem useRegion_noneed {env : Nat → Bool} {s : MState} {c : WindowCursor} {offset : Nat}
    (sizeParam flags : Nat)
    (hofs : offset < (getRList s c.fid).file_size)
    (ht : (useRetarget s c offset).1 = false) :
    useRegion env s c offset sizeParam flags =
      (match ((useRetarget s c offset).2.1,
              cursorRegion (useRetarget s c offset).2.1 (useRetarget s c offset).2.2) with
       | (s2, none) => (s2, (useRetarget s c offset).2.2, false)
       | (s2, some r) => usePin s2 (useRetarget s c offset).2.2 c.fid
           false r offset (effectiveSize s c.fid sizeParam)) := by
  unfold useRegion
  rw [if_neg (by simpa using Nat.not_le.2 hofs), ht]
  rfl

/-- A successful in-bounds `use_region` pins a region that includes the
requested offset and records exactly the intra-region offset and clamped
size of mman.py 118-120. -/
theorem useRegion_ok {env : Nat → Bool} {s : MState} {c : WindowCursor}
    {offset : Nat} (sizeParam flags : Nat)
    (hofs : offset < (getRList s c.fid).file_size)
    (hp : 0 < s.page) (hrid : RidInv s)
    (hsucc : (useRegion env s c offset sizeParam flags).2.2 = true) :
    ∃ (r : MapRegion) (u : Nat),
      r.includes_ofs offset = true ∧
      (useRegion env s c offset sizeParam flags).2.1 =
        ⟨c.fid, some r.rid, offset - r._b,
         min (effectiveSize s c.fid sizeParam) (r._b + r.size - offset)⟩ ∧
      cursorRegion (useRegion env s c offset sizeParam flags).1
        (useRegion env s c offset sizeParam flags).2.1 = some { r with _uc := u } := by
  have hsz : 0 < effectiveSize s c.fid sizeParam := effectiveSize_pos _ (by omega)
  cases hpin : c._region with
  | none =>
    rw [useRegion_need sizeParam flags hofs (by rw [useRetarget_none hpin])] at hsucc ⊢
    rw [useRetarget_none hpin] at hsucc ⊢
    dsimp only at hsucc ⊢
    rcases hOb : obtainRegion env s c.fid offset (effectiveSize s c.fid sizeParam) flags
      with ⟨s2, res⟩
    try rw [hOb] at hsucc
    try rw [hOb]
    cases res with
    | none => exact absurd hsucc (by simp)
    | some r =>
      obtain ⟨hinc, hget, _⟩ := obtainRegion_ok hOb hrid hofs hsz hp
      refine ⟨r, s2.clock + 1, hinc, ?_, ?_⟩
      · unfold usePin
        dsimp only
      · unfold usePin cursorRegion
        dsimp only
        exact stamp_getRegion hget
  | some rid =>
    cases hinc0 : regIncludesB s c.fid rid offset with
    | true =>
      rw [useRegion_noneed sizeParam flags hofs (by rw [useRetarget_inc hpin hinc0])]
        at hsucc ⊢
      rw [useRetarget_inc hpin hinc0] at hsucc ⊢
      dsimp only at hsucc ⊢
      obtain ⟨r0, hget0, hinc⟩ : ∃ r0, getRegion s c.fid rid = some r0 ∧
          r0.includes_ofs offset = true := by
        unfold regIncludesB at hinc0
        cases hg : getRegion s c.fid rid with
        | none => rw [hg] at hinc0; simp at hinc0
        | some r0 => rw [hg] at hinc0; exact ⟨r0, rfl, hinc0⟩
      have hcur : cursorRegion s c = some r0 := by
        unfold cursorRegion
        rw [hpin]
        exact hget0
      rw [hcur] at hsucc ⊢
      dsimp only at hsucc ⊢
      have hr0rid : r0.rid = rid := by
        simpa using List.find?_some hget0
      refine ⟨r0, s.clock + 1, hinc, ?_, ?_⟩
      · unfold usePin
        dsimp only
      · unfold usePin cursorRegion
        dsimp only
        exact stamp_getRegion (by rw [hr0rid]; exact hget0)
    | false =>
      rw [useRegion_need sizeParam flags hofs (by rw [useRetarget_notinc hpin hinc0])]
        at hsucc ⊢
      rw [useRetarget_notinc hpin hinc0] at hsucc ⊢
      dsimp only at hsucc ⊢
      have hofs1 : offset < (getRList (unusePins s c) c.fid).file_size := by
        unfold getRList
        rw [(unusePins_fields s c).1]
        exact hofs
      have hp1 : 0 < (unusePins s c).page := by
        obtain ⟨_, _, _, _, _, h6, _⟩ := unusePins_fields s c
        rw [h6]
        exact hp
      rcases hOb : obtainRegion env (unusePins s c) c.fid offset
          (effectiveSize s c.fid sizeParam) flags with ⟨s2, res⟩
      try rw [hOb] at hsucc
      try rw [hOb]
      cases res with
      | none => exact absurd hsucc (by simp)
      | some r =>
        obtain ⟨hinc, hget, _⟩ := obtainRegion_ok hOb (ridInv_unusePins s c hrid) hofs1 hsz hp1
        refine ⟨r, s2.clock + 1, hinc, ?_, ?_⟩
        · unfold usePin
          dsimp only
        · unfold usePin cursorRegion
          dsimp only
          exact stamp_getRegion hget

/-- When the pinned region includes the offset, `use_region` keeps the
very same region object pinned and performs no unpin/repin (the CPython
reference count of the region is untouched); the call returns normally. -/
theorem useRegion_reuse {env : Nat → Bool} {s : MState} {c : WindowCursor}
    {offset rid : Nat} (sizeParam flags : Nat)
    (hpin : c._region = some rid)
    (hinc : regIncludesB s c.fid rid offset = true) :
    (useRegion env s c offset sizeParam flags).2.1._region = some rid ∧
    (useRegion env s c offset sizeParam flags).1.pins rid = s.pins rid ∧
    (useRegion env s c offset sizeParam flags).2.2 = true := by
  obtain ⟨r0, hget0, hinc1⟩ : ∃ r0, getRegion s c.fid rid = some r0 ∧
      r0.includes_ofs offset = true := by
    unfold regIncludesB at hinc
    cases hg : getRegion s c.fid rid with
    | none => rw [hg] at hinc; simp at hinc
    | some r0 => rw [hg] at hinc; exact ⟨r0, rfl, hinc⟩
  have hr0rid : r0.rid = rid := by simpa using List.find?_some hget0
  by_cases hofs : (getRList s c.fid).file_size ≤ offset
  · rw [useRegion_eof env sizeParam flags hofs, useRetarget_inc hpin hinc]
    exact ⟨hpin, rfl, rfl⟩
  · have hofs' : offset < (getRList s c.fid).file_size := Nat.lt_of_not_le hofs
    rw [useRegion_noneed sizeParam flags hofs' (by rw [useRetarget_inc hpin hinc])]
    rw [useRetarget_inc hpin hinc]
    dsimp only
    have hcur : cursorRegion s c = some r0 := by
      unfold cursorRegion
      rw [hpin]
      exact hget0
    rw [hcur]
    dsimp only
    unfold usePin
    dsimp only
    refine ⟨by rw [hr0rid], ?_, rfl⟩
    rw [(stampRegion_fields _ c.fid r0.rid).1]
    rfl

/-! ## Reference-count bookkeeping of `_obtain_region` (for C9) -/

theorem collectLru_pins (s : MState) (size : Nat) :
    ((collectLru s size).1).pins = s.pins :=
  (collectLru_spec s size).2.1.2.2.2.2.2.2.2.1

/-- `StaticWindowMapManager._obtain_region` never touches any cursor's
strong references: one attempt. -/
theorem staticOnce_pins {env : Nat → Bool} {s : MState} {fid offset size flags : Nat}
    {s' : MState} {res : ObtainRes}
    (h : staticObtainOnce env s fid offset size flags = (s', res)) :
    s'.pins = s.pins := by
  unfold staticObtainOnce at h
  set s1 := if decide (s.max_memory_size < s.memory_size + size) then (collectLru s size).1
            else s with hs1
  dsimp only at h
  have hp1 : s1.pins = s.pins := by
    rw [hs1]
    split
    · exact collectLru_pins s size
    · rfl
  cases hregs : (getRList s1 fid).regions with
  | cons r0 rest =>
    rw [hregs] at h
    dsimp only at h
    split at h
    · split at h
      · obtain ⟨rfl, _⟩ := Prod.mk.inj h
        exact hp1
      · obtain ⟨rfl, _⟩ := Prod.mk.inj h
        exact hp1
    · obtain ⟨rfl, _⟩ := Prod.mk.inj h
      exact hp1
  | nil =>
    rw [hregs] at h
    dsimp only at h
    split at h
    · split at h
      · obtain ⟨rfl, _⟩ := Prod.mk.inj h
        exact hp1
      · obtain ⟨rfl, _⟩ := Prod.mk.inj h
        exact hp1
    · obtain ⟨rfl, _⟩ := Prod.mk.inj h
      exact hp1

/-- `SlidingWindowMapManager._obtain_region` never touches any cursor's
strong references: one attempt. -/
theorem slidingOnce_pins {env : Nat → Bool} {s : MState} {fid offset size flags : Nat}
    {s' : MState} {res : ObtainRes}
    (h : slidingObtainOnce env s fid offset size flags = (s', res)) :
    s'.pins = s.pins := by
  unfold slidingObtainOnce at h
  dsimp only at h
  cases hbis : bisectFind (getRList s fid).regions offset 0 (getRList s fid).regions.length
      ((getRList s fid).regions.length + 1) with
  | some r0 =>
    rw [hbis] at h
    dsimp only at h
    obtain ⟨rfl, _⟩ := Prod.mk.inj h
    rfl
  | none =>
    rw [hbis] at h
    dsimp only at h
    set s1 := slidingPre s with hs1
    have hp1 : s1.pins = s.pins := by
      rw [hs1]
      unfold slidingPre
      split
      · exact collectLru_pins s s.window_size
      · rfl
    split at h
    · obtain ⟨rfl, _⟩ := Prod.mk.inj h
      exact hp1
    · split at h
      · obtain ⟨rfl, _⟩ := Prod.mk.inj h
        exact hp1
      · obtain ⟨rfl, _⟩ := Prod.mk.inj h
        exact hp1

/-- `_obtain_region` (either flavour, including the eviction-and-retry
pass) leaves every region's cursor reference count unchanged: the pin
increments and decrements happen only in `WindowCursor` code. -/
theorem obtain_pins {env : Nat → Bool} {s : MState} {fid offset size flags : Nat}
    {s' : MState} {res : Option MapRegion}
    (h : obtainRegion env s fid offset size flags = (s', res)) :
    s'.pins = s.pins := by
  unfold obtainRegion at h
  split at h
  · unfold slidingObtain at h
    rcases hOnce : slidingObtainOnce env s fid offset size flags with ⟨s1, r1⟩
    rw [hOnce] at h
    have h1 := slidingOnce_pins hOnce
    cases r1 with
    | ok r =>
      dsimp only at h
      obtain ⟨rfl, _⟩ := Prod.mk.inj h
      exact h1
    | assertFail =>
      dsimp only at h
      obtain ⟨rfl, _⟩ := Prod.mk.inj h
      exact h1
    | mapFail =>
      dsimp only at h
      have h2 : ((collectLru s1 0).1).pins = s1.pins := collectLru_pins s1 0
      rcases hOnce2 : slidingObtainOnce env (collectLru s1 0).1 fid offset size flags
        with ⟨s3, r3⟩
      rw [hOnce2] at h
      have h3 := slidingOnce_pins hOnce2
      cases r3 with
      | ok r =>
        dsimp only at h
        obtain ⟨rfl, _⟩ := Prod.mk.inj h
        rw [h3, h2, h1]
      | assertFail =>
        dsimp only at h
        obtain ⟨rfl, _⟩ := Prod.mk.inj h
        rw [h3, h2, h1]
      | mapFail =>
        dsimp only at h
        obtain ⟨rfl, _⟩ := Prod.mk.inj h
        rw [h3, h2, h1]
  · unfold staticObtain at h
    rcases hOnce : staticObtainOnce env s fid offset size flags with ⟨s1, r1⟩
    rw [hOnce] at h
    have h1 := staticOnce_pins hOnce
    cases r1 with
    | ok r =>
      dsimp only at h
      obtain ⟨rfl, _⟩ := Prod.mk.inj h
      exact h1
    | assertFail =>
      dsimp only at h
      obtain ⟨rfl, _⟩ := Prod.mk.inj h
      exact h1
    | mapFail =>
      dsimp only at h
      have h2 : ((collectLru s1 0).1).pins = s1.pins := collectLru_pins s1 0
      rcases hOnce2 : staticObtainOnce env (collectLru s1 0).1 fid offset size flags
        with ⟨s3, r3⟩
      rw [hOnce2] at h
      have h3 := staticOnce_pins hOnce2
      cases r3 with
      | ok r =>
        dsimp only at h
        obtain ⟨rfl, _⟩ := Prod.mk.inj h
        rw [h3, h2, h1]
      | assertFail =>
        dsimp only at h
        obtain ⟨rfl, _⟩ := Prod.mk.inj h
        rw [h3, h2, h1]
      | mapFail =>
        dsimp only at h
        obtain ⟨rfl, _⟩ := Prod.mk.inj h
        rw [h3, h2, h1]

/-- Under the id invariant, any region present in a file's list is exactly
what the id lookup returns. -/
theorem getRegion_of_mem_ridInv {s : MState} {fid : Nat} {q : MapRegion}
    (hrid : RidInv s) (hm : q ∈ (getRList s fid).regions) :
    getRegion s fid q.rid = some q := by
  obtain ⟨p, hf⟩ : ∃ p, s.fdict.find? (fun x => x.1 == fid) = some p := by
    cases hf : s.fdict.find? (fun x => x.1 == fid) with
    | none =>
      exfalso
      unfold getRList at hm
      rw [hf] at hm
      simp at hm
    | some p => exact ⟨p, rfl⟩
  have hrl : getRList s fid = p.2 := getRList_fileSize_of_find? hf
  have hsubl : (getRList s fid).regions.Sublist (allRegionsF s.fdict) := by
    rw [hrl]
    exact sublist_allRegionsF_of_mem (List.mem_of_find?_eq_some hf)
  unfold RidInv RidInvF at hrid
  have hnd : ((getRList s fid).regions.map MapRegion.rid).Nodup :=
    hrid.1.sublist (hsubl.map _)
  unfold getRegion
  exact find?_rid_of_mem_nodup hnd hm

/-- Pull a region lookup with its coverage fact back through eviction
(regions only disappear). -/
theorem provenance_pullback {s2 s : MState} {fid rid offset : Nat}
    (hsub : List.Forall₂ entrySub s2.fdict s.fdict) (hrid : RidInv s)
    (h : ∃ q, getRegion s2 fid rid = some q ∧ q.includes_ofs offset = true) :
    ∃ q, getRegion s fid rid = some q ∧ q.includes_ofs offset = true := by
  obtain ⟨q, hget, hinc⟩ := h
  unfold getRegion at hget
  have hqrid : q.rid = rid := by simpa using List.find?_some hget
  have hmem2 : q ∈ (getRList s2 fid).regions := List.mem_of_find?_eq_some hget
  have hmem : q ∈ (getRList s fid).regions := (entrySub_getRList hsub fid).2.mem hmem2
  refine ⟨q, ?_, hinc⟩
  have hg := getRegion_of_mem_ridInv hrid hmem
  rwa [hqrid] at hg

/-- A region handed out by one static attempt is either freshly allocated
(ghost id at the allocation counter) or was already present and covering
the offset. -/
theorem staticOnce_provenance {env : Nat → Bool} {s : MState} {fid offset size flags : Nat}
    {s' : MState} {r : MapRegion}
    (h : staticObtainOnce env s fid offset size flags = (s', .ok r))
    (hrid : RidInv s) :
    s.next_rid ≤ r.rid ∨
      ∃ q, getRegion s fid r.rid = some q ∧ q.includes_ofs offset = true := by
  unfold staticObtainOnce at h
  set s1 := if decide (s.max_memory_size < s.memory_size + size) then (collectLru s size).1
            else s with hs1
  dsimp only at h
  have hfacts : List.Forall₂ entrySub s1.fdict s.fdict ∧ sameConfig s1 s := by
    rw [hs1]
    split
    · obtain ⟨h1, h2, _⟩ := collectLru_spec s size
      exact ⟨h1, h2⟩
    · exact ⟨entrySub_refl _, sameConfig_refl _⟩
  cases hregs : (getRList s1 fid).regions with
  | cons r0 rest =>
    rw [hregs] at h
    dsimp only at h
    cases hrest : rest.isEmpty with
    | true =>
      rw [hrest] at h
      simp only [if_true] at h
      split at h
      · next hinc =>
        obtain ⟨rfl, hok⟩ := Prod.mk.inj h
        cases hok
        right
        refine provenance_pullback hfacts.1 hrid ⟨r, ?_, hinc⟩
        unfold getRegion
        rw [hregs]
        exact List.find?_cons_of_pos _ (by simp)
      · exact absurd (Prod.mk.inj h).2 (by simp)
    | false =>
      rw [hrest] at h
      simp only [Bool.false_eq_true, if_false] at h
      exact absurd (Prod.mk.inj h).2 (by simp)
  | nil =>
    rw [hregs] at h
    dsimp only at h
    cases henv : env s1.mapCalls with
    | false =>
      rw [henv] at h
      simp only [Bool.false_eq_true, if_false] at h
      exact absurd (Prod.mk.inj h).2 (by simp)
    | true =>
      rw [henv] at h
      simp only [if_true] at h
      split at h
      · obtain ⟨rfl, hok⟩ := Prod.mk.inj h
        cases hok
        left
        exact Nat.le_of_eq hfacts.2.2.2.2.2.2.1.symm
      · exact absurd (Prod.mk.inj h).2 (by simp)

/-- A region handed out by one sliding attempt is either freshly allocated
or was found by bisection, hence already present and covering the
offset. -/
theorem slidingOnce_provenance {env : Nat → Bool} {s : MState} {fid offset size flags : Nat}
    {s' : MState} {r : MapRegion}
    (h : slidingObtainOnce env s fid offset size flags = (s', .ok r))
    (hrid : RidInv s) :
    s.next_rid ≤ r.rid ∨
      ∃ q, getRegion s fid r.rid = some q ∧ q.includes_ofs offset = true := by
  unfold slidingObtainOnce at h
  dsimp only at h
  cases hbis : bisectFind (getRList s fid).regions offset 0 (getRList s fid).regions.length
      ((getRList s fid).regions.length + 1) with
  | some r0 =>
    rw [hbis] at h
    dsimp only at h
    obtain ⟨rfl, hok⟩ := Prod.mk.inj h
    cases hok
    obtain ⟨hmem, hinc⟩ := bisect_some (Nat.le_refl _) hbis
    right
    exact ⟨r, getRegion_of_mem_ridInv hrid hmem, hinc⟩
  | none =>
    rw [hbis] at h
    dsimp only at h
    set s1 := slidingPre s with hs1
    have hnr : s1.next_rid = s.next_rid := by
      rw [hs1]
      unfold slidingPre
      split
      · exact (collectLru_spec s s.window_size).2.1.2.2.2.2.2.1
      · rfl
    split at h
    · exact absurd (Prod.mk.inj h).2 (by simp)
    · split at h
      · obtain ⟨rfl, hok⟩ := Prod.mk.inj h
        cases hok
        left
        exact Nat.le_of_eq hnr.symm
      · exact absurd (Prod.mk.inj h).2 (by simp)

/-- Provenance of a successful `_obtain_region` call: the returned region
is freshly allocated, or it already existed and covers the offset. -/
theorem obtain_provenance {env : Nat → Bool} {s : MState} {fid offset size flags : Nat}
    {s' : MState} {r : MapRegion}
    (h : obtainRegion env s fid offset size flags = (s', some r))
    (hrid : RidInv s) :
    s.next_rid ≤ r.rid ∨
      ∃ q, getRegion s fid r.rid = some q ∧ q.includes_ofs offset = true := by
  unfold obtainRegion at h
  split at h
  · unfold slidingObtain at h
    rcases hOnce : slidingObtainOnce env s fid offset size flags with ⟨s1, r1⟩
    rw [hOnce] at h
    cases r1 with
    | ok r0 =>
      dsimp only at h
      obtain ⟨rfl, hok⟩ := Prod.mk.inj h
      obtain rfl := by simpa using hok
      exact slidingOnce_provenance hOnce hrid
    | assertFail =>
      dsimp only at h
      exact absurd (Prod.mk.inj h).2 (by simp)
    | mapFail =>
      dsimp only at h
      obtain ⟨hsub1, hpage1, hnr1⟩ := slidingOnce_mapFail_rel hOnce
      obtain ⟨hsub2, hcfg2, _⟩ := collectLru_spec s1 0
      set s2 := (collectLru s1 0).1 with hs2
      have hsub : List.Forall₂ entrySub s2.fdict s.fdict := entrySub_trans hsub2 hsub1
      have hnr : s2.next_rid = s.next_rid := by
        rw [hcfg2.2.2.2.2.2.1, hnr1]
      have hrid2 : RidInv s2 := by
        unfold RidInv at hrid ⊢
        rw [hnr]
        exact ridInvF_of_entrySub hsub hrid
      rcases hOnce2 : slidingObtainOnce env s2 fid offset size flags with ⟨s3, r3⟩
      rw [hOnce2] at h
      cases r3 with
      | ok r0 =>
        dsimp only at h
        obtain ⟨rfl, hok⟩ := Prod.mk.inj h
        obtain rfl := by simpa using hok
        rcases slidingOnce_provenance hOnce2 hrid2 with hle | hex
        · left
          rw [hnr] at hle
          exact hle
        · right
          exact provenance_pullback hsub hrid hex
      | assertFail =>
        dsimp only at h
        exact absurd (Prod.mk.inj h).2 (by simp)
      | mapFail =>
        dsimp only at h
        exact absurd (Prod.mk.inj h).2 (by simp)
  · unfold staticObtain at h
    rcases hOnce : staticObtainOnce env s fid offset size flags with ⟨s1, r1⟩
    rw [hOnce] at h
    cases r1 with
    | ok r0 =>
      dsimp only at h
      obtain ⟨rfl, hok⟩ := Prod.mk.inj h
      obtain rfl := by simpa using hok
      exact staticOnce_provenance hOnce hrid
    | assertFail =>
      dsimp only at h
      exact absurd (Prod.mk.inj h).2 (by simp)
    | mapFail =>
      dsimp only at h
      obtain ⟨hsub1, hpage1, hnr1⟩ := staticOnce_mapFail_rel hOnce
      obtain ⟨hsub2, hcfg2, _⟩ := collectLru_spec s1 0
      set s2 := (collectLru s1 0).1 with hs2
      have hsub : List.Forall₂ entrySub s2.fdict s.fdict := entrySub_trans hsub2 hsub1
      have hnr : s2.next_rid = s.next_rid := by
        rw [hcfg2.2.2.2.2.2.1, hnr1]
      have hrid2 : RidInv s2 := by
        unfold RidInv at hrid ⊢
        rw [hnr]
        exact ridInvF_of_entrySub hsub hrid
      rcases hOnce2 : staticObtainOnce env s2 fid offset size flags with ⟨s3, r3⟩
      rw [hOnce2] at h
      cases r3 with
      | ok r0 =>
        dsimp only at h
        obtain ⟨rfl, hok⟩ := Prod.mk.inj h
        obtain rfl := by simpa using hok
        rcases staticOnce_provenance hOnce2 hrid2 with hle | hex
        · left
          rw [hnr] at hle
          exact hle
        · right
          exact provenance_pullback hsub hrid hex
      | assertFail =>
        dsimp only at h
        exact absurd (Prod.mk.inj h).2 (by simp)
      | mapFail =>
        dsimp only at h
        exact absurd (Prod.mk.inj h).2 (by simp)


/-!
## C1: the postcondition of a successful in-bounds `use_region`
-/

/-- C1: after a successful `use_region(offset, size)` with
`offset < file_size`, the cursor satisfies
`_ofs = offset - region._b` and
`_size = min(effective, region._b + region.size - offset)` where
`effective = min(size or file_size, window_size or file_size)`
(mman.py 99 and 118-120); consequently `includes_ofs(offset)` holds and
`ofs_begin ≤ offset < ofs_end`.  The hypotheses `0 < page` and `RidInv`
hold in every reachable state. -/
theorem C1_use_region_postcondition (env : Nat → Bool) (s : MState) (c : WindowCursor)
    (offset sizeParam flags : Nat)
    (hofs : offset < (getRList s c.fid).file_size)
    (hp : 0 < s.page) (hrid : RidInv s)
    (hsucc : (useRegion env s c offset sizeParam flags).2.2 = true) :
    (cursorRegion (useRegion env s c offset sizeParam flags).1
      (useRegion env s c offset sizeParam flags).2.1).isSome = true ∧
    (useRegion env s c offset sizeParam flags).2.1._ofs =
      offset - ((cursorRegion (useRegion env s c offset sizeParam flags).1
        (useRegion env s c offset sizeParam flags).2.1).getD default)._b ∧
    (useRegion env s c offset sizeParam flags).2.1._size =
      min (effectiveSize s c.fid sizeParam)
        (((cursorRegion (useRegion env s c offset sizeParam flags).1
            (useRegion env s c offset sizeParam flags).2.1).getD default)._b +
         ((cursorRegion (useRegion env s c offset sizeParam flags).1
            (useRegion env s c offset sizeParam flags).2.1).getD default).size - offset) ∧
    cursorIncludesOfs (useRegion env s c offset sizeParam flags).1
      (useRegion env s c offset sizeParam flags).2.1 offset = true ∧
    ofsBegin (useRegion env s c offset sizeParam flags).1
      (useRegion env s c offset sizeParam flags).2.1 ≤ offset ∧
    offset < ofsEnd (useRegion env s c offset sizeParam flags).1
      (useRegion env s c offset sizeParam flags).2.1 := by
  obtain ⟨r, u, hinc, hc, hcr⟩ := useRegion_ok sizeParam flags hofs hp hrid hsucc
  rw [includes_ofs_true_iff] at hinc
  have heff : 0 < effectiveSize s c.fid sizeParam := effectiveSize_pos _ (by omega)
  rw [hc] at hcr
  rw [hc]
  unfold cursorIncludesOfs ofsBegin ofsEnd
  rw [hcr]
  simp only [Option.getD_some, Option.isSome_some]
  dsimp only
  refine ⟨trivial, trivial, trivial, ?_, ?_, ?_⟩
  · rw [Bool.and_eq_true, decide_eq_true_eq, decide_eq_true_eq]
    omega
  · omega
  · omega

theorem C1_use_region_postcondition_witness :
    (cursorRegion (useRegion envAll wSliding0 wCursor0 10000 100 0).1
      (useRegion envAll wSliding0 wCursor0 10000 100 0).2.1).isSome = true ∧
    (useRegion envAll wSliding0 wCursor0 10000 100 0).2.1._ofs =
      10000 - ((cursorRegion (useRegion envAll wSliding0 wCursor0 10000 100 0).1
        (useRegion envAll wSliding0 wCursor0 10000 100 0).2.1).getD default)._b ∧
    (useRegion envAll wSliding0 wCursor0 10000 100 0).2.1._size =
      min (effectiveSize wSliding0 wCursor0.fid 100)
        (((cursorRegion (useRegion envAll wSliding0 wCursor0 10000 100 0).1
            (useRegion envAll wSliding0 wCursor0 10000 100 0).2.1).getD default)._b +
         ((cursorRegion (useRegion envAll wSliding0 wCursor0 10000 100 0).1
            (useRegion envAll wSliding0 wCursor0 10000 100 0).2.1).getD default).size - 10000) ∧
    cursorIncludesOfs (useRegion envAll wSliding0 wCursor0 10000 100 0).1
      (useRegion envAll wSliding0 wCursor0 10000 100 0).2.1 10000 = true ∧
    ofsBegin (useRegion envAll wSliding0 wCursor0 10000 100 0).1
      (useRegion envAll wSliding0 wCursor0 10000 100 0).2.1 ≤ 10000 ∧
    10000 < ofsEnd (useRegion envAll wSliding0 wCursor0 10000 100 0).1
      (useRegion envAll wSliding0 wCursor0 10000 100 0).2.1 :=
  C1_use_region_postcondition envAll wSliding0 wCursor0 10000 100 0
    (by decide) (by decide) (by unfold RidInv RidInvF; decide) (by decide)

/-!
## C6: reuse of the pinned region
-/

/-- C6: if the cursor's pinned region includes the requested offset,
`use_region` reuses that same region object without unpinning and
repinning (mman.py 101-107: `need_region = False`, and the region's
reference count is untouched); hence two successive
`use_region(offset, size)` calls on the same cursor with no intervening
operation pin the same region object, and the second call succeeds. -/
theorem C6_successive_use_same_region (env env2 : Nat → Bool) (s : MState)
    (c : WindowCursor) (offset sizeParam flags flags2 : Nat)
    (hofs : offset < (getRList s c.fid).file_size)
    (hp : 0 < s.page) (hrid : RidInv s)
    (hsucc : (useRegion env s c offset sizeParam flags).2.2 = true) :
    ((useRegion env s c offset sizeParam flags).2.1._region).isSome = true ∧
    (useRegion env2 (useRegion env s c offset sizeParam flags).1
        (useRegion env s c offset sizeParam flags).2.1 offset sizeParam flags2).2.1._region =
      (useRegion env s c offset sizeParam flags).2.1._region ∧
    (useRegion env2 (useRegion env s c offset sizeParam flags).1
        (useRegion env s c offset sizeParam flags).2.1 offset sizeParam flags2).1.pins
      (((useRegion env s c offset sizeParam flags).2.1._region).getD 0) =
      (useRegion env s c offset sizeParam flags).1.pins
        (((useRegion env s c offset sizeParam flags).2.1._region).getD 0) ∧
    (useRegion env2 (useRegion env s c offset sizeParam flags).1
        (useRegion env s c offset sizeParam flags).2.1 offset sizeParam flags2).2.2 = true := by
  obtain ⟨r, u, hinc, hc, hcr⟩ := useRegion_ok sizeParam flags hofs hp hrid hsucc
  have hpin1 : (useRegion env s c offset sizeParam flags).2.1._region = some r.rid := by
    rw [hc]
  have hfid1 : (useRegion env s c offset sizeParam flags).2.1.fid = c.fid := by
    rw [hc]
  have hinc1 : regIncludesB (useRegion env s c offset sizeParam flags).1
      (useRegion env s c offset sizeParam flags).2.1.fid r.rid offset = true := by
    unfold regIncludesB
    rw [hfid1]
    have hgr : getRegion (useRegion env s c offset sizeParam flags).1 c.fid r.rid =
        some { r with _uc := u } := by
      have h0 := hcr
      unfold cursorRegion at h0
      rw [hpin1] at h0
      rw [hfid1] at h0
      exact h0
    rw [hgr]
    rw [includes_ofs_true_iff] at hinc ⊢
    exact hinc
  obtain ⟨h1, h2, h3⟩ := @useRegion_reuse env2 _ _ _ _ sizeParam flags2 hpin1 hinc1
  refine ⟨by rw [hpin1]; rfl, ?_, ?_, h3⟩
  · rw [h1, hpin1]
  · rw [hpin1]
    simpa using h2

theorem C6_successive_use_same_region_witness :
    ((useRegion envAll wSliding0 wCursor0 10000 100 0).2.1._region).isSome = true ∧
    (useRegion envAll (useRegion envAll wSliding0 wCursor0 10000 100 0).1
        (useRegion envAll wSliding0 wCursor0 10000 100 0).2.1 10000 100 0).2.1._region =
      (useRegion envAll wSliding0 wCursor0 10000 100 0).2.1._region ∧
    (useRegion envAll (useRegion envAll wSliding0 wCursor0 10000 100 0).1
        (useRegion envAll wSliding0 wCursor0 10000 100 0).2.1 10000 100 0).1.pins
      (((useRegion envAll wSliding0 wCursor0 10000 100 0).2.1._region).getD 0) =
      (useRegion envAll wSliding0 wCursor0 10000 100 0).1.pins
        (((useRegion envAll wSliding0 wCursor0 10000 100 0).2.1._region).getD 0) ∧
    (useRegion envAll (useRegion envAll wSliding0 wCursor0 10000 100 0).1
        (useRegion envAll wSliding0 wCursor0 10000 100 0).2.1 10000 100 0).2.2 = true :=
  C6_successive_use_same_region envAll envAll wSliding0 wCursor0 10000 100 0 0
    (by decide) (by decide) (by unfold RidInv RidInvF; decide) (by decide)

/-!
## C9: dropping or re-targeting a pin decrements the usage count
-/

/-- C9: a cursor holding a pin on region `rid` decrements that region's
cursor reference count by exactly one when the pin is dropped — by
`unuse_region` (mman.py 124-131), by `_destroy` (mman.py 44-59), or by a
`use_region` that re-targets away because the pinned region does not
include the new offset (mman.py 101-107) — and this decrement persists to
the end of the `use_region` call; symmetrically, when that call pins a
region, the newly pinned region's count goes up by exactly one, matching
the decrement (mman.py 114-118).  The hypotheses `rid < next_rid` and
`RidInv` hold in every reachable state for a pinned `rid`. -/
theorem C9_pin_release_decrements (env : Nat → Bool) (s : MState) (c : WindowCursor)
    (offset sizeParam flags rid : Nat)
    (hpin : c._region = some rid)
    (hpos : 0 < s.pins rid)
    (hninc : regIncludesB s c.fid rid offset = false)
    (hlt : rid < s.next_rid)
    (hrid : RidInv s) :
    ((unuseCursor s c).1.pins rid + 1 = s.pins rid ∧ (unuseCursor s c).2._region = none) ∧
    (destroyCursor s c).pins rid + 1 = s.pins rid ∧
    ((useRegion env s c offset sizeParam flags).1.pins rid + 1 = s.pins rid ∧
     ∀ rid', (useRegion env s c offset sizeParam flags).2.1._region = some rid' →
       (useRegion env s c offset sizeParam flags).1.pins rid' = s.pins rid' + 1) := by
  have hup : (unusePins s c).pins rid = s.pins rid - 1 := by
    rw [unusePins_some s hpin]
    simp
  have hupne : ∀ k, k ≠ rid → (unusePins s c).pins k = s.pins k := by
    intro k hk
    rw [unusePins_some s hpin]
    simp [hk]
  refine ⟨⟨?_, rfl⟩, ?_, ?_⟩
  · show (unusePins s c).pins rid + 1 = s.pins rid
    rw [hup]
    omega
  · unfold destroyCursor
    dsimp only
    split
    · show (unusePins s c).pins rid + 1 = s.pins rid
      rw [hup]
      omega
    · show (unusePins s c).pins rid + 1 = s.pins rid
      rw [hup]
      omega
  · have hretarget := useRetarget_notinc hpin hninc
    by_cases hofs : (getRList s c.fid).file_size ≤ offset
    · rw [useRegion_eof env sizeParam flags hofs, hretarget]
      dsimp only
      refine ⟨?_, ?_⟩
      · rw [hup]
        omega
      · intro rid' hr'
        simp at hr'
    · have hofs2 : offset < (getRList s c.fid).file_size := Nat.lt_of_not_le hofs
      rw [useRegion_need sizeParam flags hofs2 (by rw [hretarget]), hretarget]
      dsimp only
      rcases hOb : obtainRegion env (unusePins s c) c.fid offset
          (effectiveSize s c.fid sizeParam) flags with ⟨s2, res⟩
      try rw [hOb]
      have hp2 : s2.pins = (unusePins s c).pins := obtain_pins hOb
      cases res with
      | none =>
        dsimp only
        refine ⟨?_, ?_⟩
        · rw [hp2, hup]
          omega
        · intro rid' hr'
          simp at hr'
      | some r =>
        have hrne : r.rid ≠ rid := by
          rcases obtain_provenance hOb (ridInv_unusePins s c hrid) with hle | ⟨q, hget, hqinc⟩
          · have hnr1 : (unusePins s c).next_rid = s.next_rid :=
              (unusePins_fields s c).2.2.2.2.2.2.1
            omega
          · intro he
            rw [getRegion_unusePins, he] at hget
            unfold regIncludesB at hninc
            rw [hget] at hninc
            dsimp only at hninc
            rw [hqinc] at hninc
            exact absurd hninc (by simp)
        dsimp only
        unfold usePin
        dsimp only
        refine ⟨?_, ?_⟩
        · show (stampRegion
              { s2 with pins := fun k => if k = r.rid then s2.pins k + 1 else s2.pins k }
              c.fid r.rid).pins rid + 1 = s.pins rid
          rw [(stampRegion_fields _ c.fid r.rid).1]
          show (if rid = r.rid then s2.pins rid + 1 else s2.pins rid) + 1 = s.pins rid
          rw [if_neg (Ne.symm hrne), hp2, hup]
          omega
        · intro rid' hr'
          have he : rid' = r.rid := by
            have hr2 : some r.rid = some rid' := hr'
            exact (Option.some.inj hr2).symm
          subst he
          show (stampRegion
              { s2 with pins := fun k => if k = r.rid then s2.pins k + 1 else s2.pins k }
              c.fid r.rid).pins r.rid = s.pins r.rid + 1
          rw [(stampRegion_fields _ c.fid r.rid).1]
          show (if r.rid = r.rid then s2.pins r.rid + 1 else s2.pins r.rid) = s.pins r.rid + 1
          rw [if_pos rfl, hp2, hupne r.rid hrne]

theorem C9_pin_release_decrements_witness :
    ((unuseCursor (useRegion envAll wSliding0 wCursor0 10000 100 0).1
        (useRegion envAll wSliding0 wCursor0 10000 100 0).2.1).1.pins 0 + 1 =
      (useRegion envAll wSliding0 wCursor0 10000 100 0).1.pins 0 ∧
     (unuseCursor (useRegion envAll wSliding0 wCursor0 10000 100 0).1
        (useRegion envAll wSliding0 wCursor0 10000 100 0).2.1).2._region = none) ∧
    (destroyCursor (useRegion envAll wSliding0 wCursor0 10000 100 0).1
        (useRegion envAll wSliding0 wCursor0 10000 100 0).2.1).pins 0 + 1 =
      (useRegion envAll wSliding0 wCursor0 10000 100 0).1.pins 0 ∧
    ((useRegion envAll (useRegion envAll wSliding0 wCursor0 10000 100 0).1
        (useRegion envAll wSliding0 wCursor0 10000 100 0).2.1 0 100 0).1.pins 0 + 1 =
      (useRegion envAll wSliding0 wCursor0 10000 100 0).1.pins 0 ∧
     ∀ rid', (useRegion envAll (useRegion envAll wSliding0 wCursor0 10000 100 0).1
        (useRegion envAll wSliding0 wCursor0 10000 100 0).2.1 0 100 0).2.1._region =
          some rid' →
       (useRegion envAll (useRegion envAll wSliding0 wCursor0 10000 100 0).1
        (useRegion envAll wSliding0 wCursor0 10000 100 0).2.1 0 100 0).1.pins rid' =
        (useRegion envAll wSliding0 wCursor0 10000 100 0).1.pins rid' + 1) :=
  C9_pin_release_decrements envAll (useRegion envAll wSliding0 wCursor0 10000 100 0).1
    (useRegion envAll wSliding0 wCursor0 10000 100 0).2.1 0 100 0 0
    (by decide) (by decide) (by decide) (by decide) (by unfold RidInv RidInvF; decide)

/-! ## Failure-path bookkeeping of `_obtain_region` (for C7) -/

theorem collectLruAux_counters (fuel : Nat) :
    ∀ (s : MState) (size found : Nat),
      (collectLruAux fuel s size found).1.memory_size ≤ s.memory_size ∧
      (collectLruAux fuel s size found).1.handle_count ≤ s.handle_count := by
  induction fuel with
  | zero =>
    intro s size found
    exact ⟨Nat.le_refl _, Nat.le_refl _⟩
  | succ fuel ih =>
    intro s size found
    simp only [collectLruAux]
    split
    · split
      · exact ⟨Nat.le_refl _, Nat.le_refl _⟩
      · next r hf =>
        split
        · exact ⟨Nat.le_refl _, Nat.le_refl _⟩
        · next rr fd' hr =>
          obtain ⟨h1, h2⟩ := ih (evictUpd s rr fd') size (found + 1)
          have hm : (evictUpd s rr fd').memory_size = s.memory_size - rr.size := rfl
          have hh : (evictUpd s rr fd').handle_count = s.handle_count - 1 := rfl
          rw [hm] at h1
          rw [hh] at h2
          exact ⟨by omega, by omega⟩
    · exact ⟨Nat.le_refl _, Nat.le_refl _⟩

/-- Eviction never increments the budget counters. -/
theorem collectLru_counters (s : MState) (size : Nat) :
    ((collectLru s size).1).memory_size ≤ s.memory_size ∧
    ((collectLru s size).1).handle_count ≤ s.handle_count := by
  unfold collectLru
  obtain ⟨h1, h2⟩ := collectLruAux_counters (totalRegions s.fdict + 1)
    { s with trace := s.trace ++ [size] } size 0
  exact ⟨h1, h2⟩

/-- A static attempt that does not hand out a region only evicts: regions
only disappear and the counters do not grow.  The in-bounds and
`file_size ≤ sys.maxint` hypotheses rule out the whole-file assertion
path of mman.py 349, which cannot fire for an in-range offset. -/
theorem staticOnce_notok_rel {env : Nat → Bool} {s : MState} {fid offset size flags : Nat}
    {s' : MState} {res : ObtainRes}
    (h : staticObtainOnce env s fid offset size flags = (s', res))
    (hres : ∀ r, res ≠ ObtainRes.ok r)
    (hofs : offset < (getRList s fid).file_size)
    (hmax : (getRList s fid).file_size ≤ sysMaxint) :
    List.Forall₂ entrySub s'.fdict s.fdict ∧ s'.memory_size ≤ s.memory_size ∧
    s'.handle_count ≤ s.handle_count := by
  unfold staticObtainOnce at h
  set s1 := if decide (s.max_memory_size < s.memory_size + size) then (collectLru s size).1
            else s with hs1
  dsimp only at h
  have hfacts : List.Forall₂ entrySub s1.fdict s.fdict ∧ s1.memory_size ≤ s.memory_size ∧
      s1.handle_count ≤ s.handle_count := by
    rw [hs1]
    split
    · exact ⟨(collectLru_spec s size).1, (collectLru_counters s size).1,
        (collectLru_counters s size).2⟩
    · exact ⟨entrySub_refl _, Nat.le_refl _, Nat.le_refl _⟩
  cases hregs : (getRList s1 fid).regions with
  | cons r0 rest =>
    rw [hregs] at h
    dsimp only at h
    split at h
    · split at h
      · exact absurd (Prod.mk.inj h).2.symm (hres r0)
      · obtain ⟨rfl, _⟩ := Prod.mk.inj h
        exact hfacts
    · obtain ⟨rfl, _⟩ := Prod.mk.inj h
      exact hfacts
  | nil =>
    rw [hregs] at h
    dsimp only at h
    split at h
    · split at h
      · exact absurd (Prod.mk.inj h).2.symm (hres _)
      · next hninc =>
        exfalso
        have hfs : (getRList s1 fid).file_size = (getRList s fid).file_size :=
          (entrySub_getRList hfacts.1 fid).1
        rw [Bool.not_eq_true] at hninc
        rw [includes_ofs_false_iff] at hninc
        have hb : (mkMapRegion s1.next_rid 0 sysMaxint ((getRList s1 fid).file_size))._b =
            0 := rfl
        have hsz : (mkMapRegion s1.next_rid 0 sysMaxint ((getRList s1 fid).file_size)).size =
            min sysMaxint ((getRList s1 fid).file_size - 0) := rfl
        rw [hb, hsz, hfs] at hninc
        omega
    · obtain ⟨rfl, _⟩ := Prod.mk.inj h
      exact ⟨hfacts.1, hfacts.2.1, hfacts.2.2⟩

/-- A sliding attempt that does not hand out a region only evicts. -/
theorem slidingOnce_notok_rel {env : Nat → Bool} {s : MState} {fid offset size flags : Nat}
    {s' : MState} {res : ObtainRes}
    (h : slidingObtainOnce env s fid offset size flags = (s', res))
    (hres : ∀ r, res ≠ ObtainRes.ok r) :
    List.Forall₂ entrySub s'.fdict s.fdict ∧ s'.memory_size ≤ s.memory_size ∧
    s'.handle_count ≤ s.handle_count := by
  unfold slidingObtainOnce at h
  dsimp only at h
  cases hbis : bisectFind (getRList s fid).regions offset 0 (getRList s fid).regions.length
      ((getRList s fid).regions.length + 1) with
  | some r0 =>
    rw [hbis] at h
    dsimp only at h
    exact absurd (Prod.mk.inj h).2.symm (hres r0)
  | none =>
    rw [hbis] at h
    dsimp only at h
    set s1 := slidingPre s with hs1
    have hfacts : List.Forall₂ entrySub s1.fdict s.fdict ∧ s1.memory_size ≤ s.memory_size ∧
        s1.handle_count ≤ s.handle_count := by
      rw [hs1]
      unfold slidingPre
      split
      · exact ⟨(collectLru_spec s s.window_size).1, (collectLru_counters s s.window_size).1,
          (collectLru_counters s s.window_size).2⟩
      · exact ⟨entrySub_refl _, Nat.le_refl _, Nat.le_refl _⟩
    split at h
    · obtain ⟨rfl, _⟩ := Prod.mk.inj h
      exact hfacts
    · split at h
      · exact absurd (Prod.mk.inj h).2.symm (hres _)
      · obtain ⟨rfl, _⟩ := Prod.mk.inj h
        exact ⟨hfacts.1, hfacts.2.1, hfacts.2.2⟩

/-- A failed `_obtain_region` call (either flavour, after the
eviction-and-retry pass) leaves no partial placement: the region lists
only shrink and neither budget counter grows. -/
theorem obtain_fail_rel {env : Nat → Bool} {s : MState} {fid offset size flags : Nat}
    {s' : MState}
    (h : obtainRegion env s fid offset size flags = (s', none))
    (hofs : offset < (getRList s fid).file_size)
    (hmax : (getRList s fid).file_size ≤ sysMaxint) :
    List.Forall₂ entrySub s'.fdict s.fdict ∧ s'.memory_size ≤ s.memory_size ∧
    s'.handle_count ≤ s.handle_count := by
  unfold obtainRegion at h
  split at h
  · unfold slidingObtain at h
    rcases hOnce : slidingObtainOnce env s fid offset size flags with ⟨s1, r1⟩
    rw [hOnce] at h
    cases r1 with
    | ok r =>
      dsimp only at h
      exact absurd (Prod.mk.inj h).2 (by simp)
    | assertFail =>
      dsimp only at h
      obtain ⟨rfl, _⟩ := Prod.mk.inj h
      exact slidingOnce_notok_rel hOnce (by intro r hc; cases hc)
    | mapFail =>
      dsimp only at h
      have hrel1 := slidingOnce_notok_rel hOnce (by intro r hc; cases hc)
      have hrel2 := collectLru_spec s1 0
      have hcnt2 := collectLru_counters s1 0
      set s2 := (collectLru s1 0).1 with hs2
      rcases hOnce2 : slidingObtainOnce env s2 fid offset size flags with ⟨s3, r3⟩
      rw [hOnce2] at h
      cases r3 with
      | ok r =>
        dsimp only at h
        exact absurd (Prod.mk.inj h).2 (by simp)
      | assertFail =>
        dsimp only at h
        obtain ⟨rfl, _⟩ := Prod.mk.inj h
        have hrel3 := slidingOnce_notok_rel hOnce2 (by intro r hc; cases hc)
        refine ⟨entrySub_trans hrel3.1 (entrySub_trans hrel2.1 hrel1.1), ?_, ?_⟩
        · exact Nat.le_trans hrel3.2.1 (Nat.le_trans hcnt2.1 hrel1.2.1)
        · exact Nat.le_trans hrel3.2.2 (Nat.le_trans hcnt2.2 hrel1.2.2)
      | mapFail =>
        dsimp only at h
        obtain ⟨rfl, _⟩ := Prod.mk.inj h
        have hrel3 := slidingOnce_notok_rel hOnce2 (by intro r hc; cases hc)
        refine ⟨entrySub_trans hrel3.1 (entrySub_trans hrel2.1 hrel1.1), ?_, ?_⟩
        · exact Nat.le_trans hrel3.2.1 (Nat.le_trans hcnt2.1 hrel1.2.1)
        · exact Nat.le_trans hrel3.2.2 (Nat.le_trans hcnt2.2 hrel1.2.2)
  · unfold staticObtain at h
    rcases hOnce : staticObtainOnce env s fid offset size flags with ⟨s1, r1⟩
    rw [hOnce] at h
    cases r1 with
    | ok r =>
      dsimp only at h
      exact absurd (Prod.mk.inj h).2 (by simp)
    | assertFail =>
      dsimp only at h
      obtain ⟨rfl, _⟩ := Prod.mk.inj h
      exact staticOnce_notok_rel hOnce (by intro r hc; cases hc) hofs hmax
    | mapFail =>
      dsimp only at h
      have hrel1 := staticOnce_notok_rel hOnce (by intro r hc; cases hc) hofs hmax
      have hrel2 := collectLru_spec s1 0
      have hcnt2 := collectLru_counters s1 0
      set s2 := (collectLru s1 0).1 with hs2
      have hsub12 : List.Forall₂ entrySub s2.fdict s.fdict :=
        entrySub_trans hrel2.1 hrel1.1
      have hfs2 : (getRList s2 fid).file_size = (getRList s fid).file_size :=
        (entrySub_getRList hsub12 fid).1
      rcases hOnce2 : staticObtainOnce env s2 fid offset size flags with ⟨s3, r3⟩
      rw [hOnce2] at h
      cases r3 with
      | ok r =>
        dsimp only at h
        exact absurd (Prod.mk.inj h).2 (by simp)
      | assertFail =>
        dsimp only at h
        obtain ⟨rfl, _⟩ := Prod.mk.inj h
        have hrel3 := staticOnce_notok_rel hOnce2 (by intro r hc; cases hc)
          (by rw [hfs2]; exact hofs) (by rw [hfs2]; exact hmax)
        refine ⟨entrySub_trans hrel3.1 hsub12, ?_, ?_⟩
        · exact Nat.le_trans hrel3.2.1 (Nat.le_trans hcnt2.1 hrel1.2.1)
        · exact Nat.le_trans hrel3.2.2 (Nat.le_trans hcnt2.2 hrel1.2.2)
      | mapFail =>
        dsimp only at h
        obtain ⟨rfl, _⟩ := Prod.mk.inj h
        have hrel3 := staticOnce_notok_rel hOnce2 (by intro r hc; cases hc)
          (by rw [hfs2]; exact hofs) (by rw [hfs2]; exact hmax)
        refine ⟨entrySub_trans hrel3.1 hsub12, ?_, ?_⟩
        · exact Nat.le_trans hrel3.2.1 (Nat.le_trans hcnt2.1 hrel1.2.1)
        · exact Nat.le_trans hrel3.2.2 (Nat.le_trans hcnt2.2 hrel1.2.2)

/-!
## C7: a failed map construction leaves no partial state
-/

/-- C7 counterexample: the claim says a failed `use_region` leaves the
cursor's pin unchanged, but `use_region` releases the old pin
(mman.py 105) before calling `_obtain_region`, so when both map attempts
fail the pin is gone.  Concretely: a cursor pinned to region `0`
(covering `[4096, 12288)`) calls `use_region(0, 100)` under an allocator
that refuses every `mmap`; the call fails and the cursor comes back
invalid instead of still pinned to region `0`. -/
theorem C7_failure_pin_not_preserved :
    (useRegion envAll wSliding0 wCursor0 10000 100 0).2.1._region = some 0 ∧
    (useRegion envNone (useRegion envAll wSliding0 wCursor0 10000 100 0).1
       (useRegion envAll wSliding0 wCursor0 10000 100 0).2.1 0 100 0).2.2 = false ∧
    (useRegion envNone (useRegion envAll wSliding0 wCursor0 10000 100 0).1
       (useRegion envAll wSliding0 wCursor0 10000 100 0).2.1 0 100 0).2.1._region ≠
      some 0 :=
  ⟨by decide, by decide, by decide⟩

/-- C7 (amended): when `use_region` fails (the map construction failed even
after the eviction-and-retry pass), no partial placement is left — no
region was inserted (the region lists only shrink, by eviction), neither
budget counter grew — but the cursor's pin is *released*, not unchanged:
the cursor comes back with no pin.  `file_size ≤ sys.maxint` rules out the
static whole-file assertion path (mman.py 349), which cannot fail for an
in-range offset. -/
theorem C7_use_region_failure_amended (env : Nat → Bool) (s : MState) (c : WindowCursor)
    (offset sizeParam flags : Nat)
    (hmax : (getRList s c.fid).file_size ≤ sysMaxint)
    (hfail : (useRegion env s c offset sizeParam flags).2.2 = false) :
    List.Forall₂ entrySub (useRegion env s c offset sizeParam flags).1.fdict s.fdict ∧
    (useRegion env s c offset sizeParam flags).1.memory_size ≤ s.memory_size ∧
    (useRegion env s c offset sizeParam flags).1.handle_count ≤ s.handle_count ∧
    (useRegion env s c offset sizeParam flags).2.1._region = none := by
  by_cases hofs : (getRList s c.fid).file_size ≤ offset
  · rw [useRegion_eof env sizeParam flags hofs] at hfail
    simp at hfail
  · have hofs2 : offset < (getRList s c.fid).file_size := Nat.lt_of_not_le hofs
    cases hpin : c._region with
    | none =>
      have ht : useRetarget s c offset = (true, s, c) := useRetarget_none hpin offset
      rw [useRegion_need sizeParam flags hofs2 (by rw [ht])] at hfail ⊢
      rw [ht] at hfail ⊢
      dsimp only at hfail ⊢
      rcases hOb : obtainRegion env s c.fid offset (effectiveSize s c.fid sizeParam) flags
        with ⟨s2, res⟩
      try rw [hOb] at hfail
      try rw [hOb]
      cases res with
      | some r =>
        dsimp only at hfail
        unfold usePin at hfail
        dsimp only at hfail
        exact absurd hfail (by simp)
      | none =>
        dsimp only at hfail ⊢
        obtain ⟨h1, h2, h3⟩ := obtain_fail_rel hOb hofs2 hmax
        exact ⟨h1, h2, h3, hpin⟩
    | some rid =>
      cases hinc0 : regIncludesB s c.fid rid offset with
      | true =>
        have hreu := @useRegion_reuse env _ _ _ _ sizeParam flags hpin hinc0
        rw [hreu.2.2] at hfail
        exact absurd hfail (by simp)
      | false =>
        have ht := useRetarget_notinc hpin hinc0
        rw [useRegion_need sizeParam flags hofs2 (by rw [ht])] at hfail ⊢
        rw [ht] at hfail ⊢
        dsimp only at hfail ⊢
        have hgr : getRList (unusePins s c) c.fid = getRList s c.fid := by
          unfold getRList
          rw [(unusePins_fields s c).1]
        rcases hOb : obtainRegion env (unusePins s c) c.fid offset
            (effectiveSize s c.fid sizeParam) flags with ⟨s2, res⟩
        try rw [hOb] at hfail
        try rw [hOb]
        cases res with
        | some r =>
          dsimp only at hfail
          unfold usePin at hfail
          dsimp only at hfail
          exact absurd hfail (by simp)
        | none =>
          dsimp only at hfail ⊢
          obtain ⟨h1, h2, h3⟩ := obtain_fail_rel hOb (by rw [hgr]; exact hofs2)
            (by rw [hgr]; exact hmax)
          rw [(unusePins_fields s c).1] at h1
          rw [(unusePins_fields s c).2.1] at h2
          rw [(unusePins_fields s c).2.2.1] at h3
          exact ⟨h1, h2, h3, rfl⟩

theorem C7_use_region_failure_amended_witness :
    List.Forall₂ entrySub (useRegion envNone wSliding0 wCursor0 0 10 0).1.fdict
      wSliding0.fdict ∧
    (useRegion envNone wSliding0 wCursor0 0 10 0).1.memory_size ≤ wSliding0.memory_size ∧
    (useRegion envNone wSliding0 wCursor0 0 10 0).1.handle_count ≤
      wSliding0.handle_count ∧
    (useRegion envNone wSliding0 wCursor0 0 10 0).2.1._region = none :=
  C7_use_region_failure_amended envNone wSliding0 wCursor0 0 10 0
    (by decide) (by decide)

/-! ## The ghost eviction trace of the sliding placement (for C8) -/

/-- On a bisect miss, one sliding attempt records exactly one eviction
attempt, of `window_size` bytes, iff the pre-planning budget check
(mman.py 485-487) fires — the check compares against `window_size`, not
against the planned window. -/
theorem slidingOnce_trace {env : Nat → Bool} {s : MState} {fid offset size flags : Nat}
    {s' : MState} {res : ObtainRes}
    (h : slidingObtainOnce env s fid offset size flags = (s', res))
    (hmiss : bisectFind (getRList s fid).regions offset 0 (getRList s fid).regions.length
      ((getRList s fid).regions.length + 1) = none) :
    (s.max_memory_size < s.memory_size + s.window_size →
      s'.trace = s.trace ++ [s.window_size]) ∧
    (¬ s.max_memory_size < s.memory_size + s.window_size → s'.trace = s.trace) := by
  unfold slidingObtainOnce at h
  dsimp only at h
  rw [hmiss] at h
  dsimp only at h
  set s1 := slidingPre s with hs1
  have htr : s'.trace = s1.trace := by
    split at h
    · obtain ⟨rfl, _⟩ := Prod.mk.inj h
      rfl
    · split at h
      · obtain ⟨rfl, _⟩ := Prod.mk.inj h
        rfl
      · obtain ⟨rfl, _⟩ := Prod.mk.inj h
        rfl
  constructor
  · intro hov
    rw [htr, hs1]
    unfold slidingPre
    rw [if_pos (by simpa using hov)]
    exact (collectLru_spec s s.window_size).2.2
  · intro hov
    rw [htr, hs1]
    unfold slidingPre
    rw [if_neg (by simpa using hov)]

/-- Any sliding attempt only appends to the ghost eviction trace. -/
theorem slidingOnce_trace_ext {env : Nat → Bool} {s : MState} {fid offset size flags : Nat}
    {s' : MState} {res : ObtainRes}
    (h : slidingObtainOnce env s fid offset size flags = (s', res)) :
    ∃ t, s'.trace = s.trace ++ t := by
  unfold slidingObtainOnce at h
  dsimp only at h
  cases hbis : bisectFind (getRList s fid).regions offset 0 (getRList s fid).regions.length
      ((getRList s fid).regions.length + 1) with
  | some r0 =>
    rw [hbis] at h
    dsimp only at h
    obtain ⟨rfl, _⟩ := Prod.mk.inj h
    exact ⟨[], by simp⟩
  | none =>
    rw [hbis] at h
    dsimp only at h
    set s1 := slidingPre s with hs1
    have htr1 : ∃ t, s1.trace = s.trace ++ t := by
      rw [hs1]
      unfold slidingPre
      split
      · exact ⟨[s.window_size], (collectLru_spec s s.window_size).2.2⟩
      · exact ⟨[], by simp⟩
    have htr : s'.trace = s1.trace := by
      split at h
      · obtain ⟨rfl, _⟩ := Prod.mk.inj h
        rfl
      · split at h
        · obtain ⟨rfl, _⟩ := Prod.mk.inj h
          rfl
        · obtain ⟨rfl, _⟩ := Prod.mk.inj h
          rfl
    obtain ⟨t, ht⟩ := htr1
    exact ⟨t, by rw [htr, ht]⟩

/-!
## C8: budget checks before constructing the planned sliding window
-/

/-- C8 counterexample: the claim says that whenever
`memory_in_use + mid.size > max_memory` the manager attempts eviction
before constructing the planned window.  The code checks
`memory_in_use + window_size() > max_memory` *before planning*
(mman.py 485-487), and alignment can grow the planned window beyond
`window_size`.  Concretely (`wC8`: 4096 of 9000 budget bytes in use,
window = page = 4096): `use_region(100, 4096)` on the large file plans
`mid = [0, 8192)`, so `memory + mid.size = 12288 > 9000`, yet no eviction
is attempted (the ghost trace is unchanged) and the region is constructed,
leaving `memory_in_use = 12288` above the budget. -/
theorem C8_no_eviction_for_planned_window :
    wC8.max_memory_size <
      wC8.memory_size + (slidingPlan (getRList wC8 2).regions (getRList wC8 2).file_size
        100 (effectiveSize wC8 2 4096) wC8.window_size wC8.page).mid.size ∧
    ¬ wC8.max_memory_size < wC8.memory_size + wC8.window_size ∧
    (useRegion envAll wC8 ⟨2, none, 0, 0⟩ 100 4096 0).2.2 = true ∧
    (useRegion envAll wC8 ⟨2, none, 0, 0⟩ 100 4096 0).1.trace = wC8.trace ∧
    wC8.max_memory_size < (useRegion envAll wC8 ⟨2, none, 0, 0⟩ 100 4096 0).1.memory_size :=
  ⟨by decide, by decide, by decide, by decide, by decide⟩

/-- C8 (amended): on a bisect miss the sliding placement attempts eviction
before constructing the planned window iff
`memory_in_use + window_size() > max_memory` — the check uses
`window_size`, not the planned `mid.size` — and the attempt asks for
`window_size` bytes; when the attempt still fails (handle cap or map
refusal), the retry pass first attempts eviction with size `0` (one more
trace entry) before the second and last attempt. -/
theorem C8_eviction_uses_window_size_amended (env : Nat → Bool) (s : MState)
    (fid offset size flags : Nat)
    (hmiss : bisectFind (getRList s fid).regions offset 0 (getRList s fid).regions.length
      ((getRList s fid).regions.length + 1) = none) :
    (s.max_memory_size < s.memory_size + s.window_size →
      (slidingObtainOnce env s fid offset size flags).1.trace =
        s.trace ++ [s.window_size]) ∧
    (¬ s.max_memory_size < s.memory_size + s.window_size →
      (slidingObtainOnce env s fid offset size flags).1.trace = s.trace) ∧
    (∀ s1, slidingObtainOnce env s fid offset size flags = (s1, ObtainRes.mapFail) →
      ∃ t, (slidingObtain env s fid offset size flags).1.trace = s1.trace ++ 0 :: t) := by
  rcases hOnce : slidingObtainOnce env s fid offset size flags with ⟨sA, resA⟩
  obtain ⟨h1, h2⟩ := slidingOnce_trace hOnce hmiss
  refine ⟨h1, h2, ?_⟩
  intro s1 heq
  obtain ⟨rfl, hres⟩ := Prod.mk.inj heq
  subst hres
  unfold slidingObtain
  rw [hOnce]
  dsimp only
  have htr2 : ((collectLru sA 0).1).trace = sA.trace ++ [0] := (collectLru_spec sA 0).2.2
  rcases hOnce2 : slidingObtainOnce env (collectLru sA 0).1 fid offset size flags
    with ⟨s3, res3⟩
  obtain ⟨t, ht⟩ := slidingOnce_trace_ext hOnce2
  rw [htr2] at ht
  cases res3 with
  | ok r =>
    dsimp only
    exact ⟨t, by rw [ht]; simp⟩
  | assertFail =>
    dsimp only
    exact ⟨t, by rw [ht]; simp⟩
  | mapFail =>
    dsimp only
    exact ⟨t, by rw [ht]; simp⟩

theorem C8_eviction_uses_window_size_amended_witness :
    (wC8.max_memory_size < wC8.memory_size + wC8.window_size →
      (slidingObtainOnce envAll wC8 2 100 4096 0).1.trace =
        wC8.trace ++ [wC8.window_size]) ∧
    (¬ wC8.max_memory_size < wC8.memory_size + wC8.window_size →
      (slidingObtainOnce envAll wC8 2 100 4096 0).1.trace = wC8.trace) ∧
    (∀ s1, slidingObtainOnce envAll wC8 2 100 4096 0 = (s1, ObtainRes.mapFail) →
      ∃ t, (slidingObtain envAll wC8 2 100 4096 0).1.trace = s1.trace ++ 0 :: t) :=
  C8_eviction_uses_window_size_amended envAll wC8 2 100 4096 0 (by decide)

/-! ## The LRU scan and pinned-region survival (for C3) -/

theorem allRegionsF_cons (p : Nat × MapRegionList) (rest : List (Nat × MapRegionList)) :
    allRegionsF (p :: rest) = p.2.regions ++ allRegionsF rest := by
  unfold allRegionsF
  simp

/-- The nested fold of `findLRU` is the flat fold of `lruStep` over all
regions. -/
theorem findLRU_eq_foldl (s : MState) :
    findLRU s = (allRegionsF s.fdict).foldl (lruStep s) none := by
  suffices h : ∀ (fd : List (Nat × MapRegionList)) (acc : Option MapRegion),
      fd.foldl (fun acc p => p.2.regions.foldl
        (fun acc r =>
          if regionClientCount s r.rid - 2 == 0 && betterLRU r acc then some r else acc)
        acc) acc
      = (allRegionsF fd).foldl (lruStep s) acc by
    exact h s.fdict none
  intro fd
  induction fd with
  | nil =>
    intro acc
    rfl
  | cons p rest ihfd =>
    intro acc
    rw [List.foldl_cons, allRegionsF_cons, List.foldl_append]
    rw [ihfd]
    rfl

/-- Behaviour of the flat LRU fold: the result is an evictable region of
minimal `last_used` among the evictable ones, when any exists. -/
theorem foldl_lru (s : MState) :
    ∀ (l : List MapRegion) (acc : Option MapRegion),
      (∀ y, acc = some y → (regionClientCount s y.rid - 2 == 0) = true) →
      ((l.foldl (lruStep s) acc = none →
          acc = none ∧ ∀ q ∈ l, (regionClientCount s q.rid - 2 == 0) = false) ∧
       (∀ x, l.foldl (lruStep s) acc = some x →
          (regionClientCount s x.rid - 2 == 0) = true ∧ (x ∈ l ∨ acc = some x) ∧
          (∀ q ∈ l, (regionClientCount s q.rid - 2 == 0) = true → x._uc ≤ q._uc) ∧
          (∀ y, acc = some y → x._uc ≤ y._uc))) := by
  intro l
  induction l with
  | nil =>
    intro acc hacc
    constructor
    · intro h
      exact ⟨h, by intro q hq; simp at hq⟩
    · intro x hx
      refine ⟨hacc x hx, Or.inr hx, ?_, ?_⟩
      · intro q hq
        simp at hq
      · intro y hy
        have hax : acc = some x := hx
        rw [hax] at hy
        obtain rfl := Option.some.inj hy
        exact Nat.le_refl _
  | cons r rest ih =>
    intro acc hacc
    rw [List.foldl_cons]
    cases hc : (regionClientCount s r.rid - 2 == 0) && betterLRU r acc with
    | true =>
      have hstep : lruStep s acc r = some r := by
        unfold lruStep
        rw [hc]
        rfl
      rw [hstep]
      have hand : (regionClientCount s r.rid - 2 == 0) = true ∧ betterLRU r acc = true := by
        rw [Bool.and_eq_true] at hc
        exact hc
      have hevr := hand.1
      have hbet := hand.2
      obtain ⟨ihn, ihs⟩ := ih (some r) (by
        intro y hy
        obtain rfl := Option.some.inj hy
        exact hevr)
      constructor
      · intro h
        exact absurd (ihn h).1 (by simp)
      · intro x hx
        obtain ⟨hex, hmem, hmin, hinit⟩ := ihs x hx
        have hxr : x._uc ≤ r._uc := hinit r rfl
        refine ⟨hex, ?_, ?_, ?_⟩
        · left
          rcases hmem with hm | hm
          · exact List.mem_cons_of_mem _ hm
          · obtain rfl := Option.some.inj hm
            exact List.mem_cons_self _ _
        · intro q hq hevq
          rcases List.mem_cons.1 hq with heq | hq2
          · subst heq
            exact hxr
          · exact hmin q hq2 hevq
        · intro y hy
          rw [hy] at hbet
          unfold betterLRU at hbet
          have : r._uc < y._uc := by simpa using hbet
          omega
    | false =>
      have hstep : lruStep s acc r = acc := by
        unfold lruStep
        rw [hc]
        rfl
      rw [hstep]
      obtain ⟨ihn, ihs⟩ := ih acc hacc
      constructor
      · intro h
        obtain ⟨haccn, hrest⟩ := ihn h
        refine ⟨haccn, ?_⟩
        intro q hq
        rcases List.mem_cons.1 hq with heq | hq2
        · subst heq
          rcases Bool.and_eq_false_iff.1 hc with he | hb
          · exact he
          · exfalso
            rw [haccn] at hb
            unfold betterLRU at hb
            simp at hb
        · exact hrest q hq2
      · intro x hx
        obtain ⟨hex, hmem, hmin, hinit⟩ := ihs x hx
        refine ⟨hex, ?_, ?_, hinit⟩
        · rcases hmem with hm | hm
          · exact Or.inl (List.mem_cons_of_mem _ hm)
          · exact Or.inr hm
        · intro q hq hevq
          rcases List.mem_cons.1 hq with heq | hq2
          · subst heq
            rcases Bool.and_eq_false_iff.1 hc with he | hb
            · rw [hevq] at he
              exact absurd he (by simp)
            · cases hacc2 : acc with
              | none =>
                rw [hacc2] at hb
                unfold betterLRU at hb
                simp at hb
              | some y =>
                rw [hacc2] at hb
                unfold betterLRU at hb
                have hyq : ¬ q._uc < y._uc := by simpa using hb
                have hxy : x._uc ≤ y._uc := hinit y hacc2
                omega
          · exact hmin q hq2 hevq

/-- The LRU scan returns an unpinned region of minimal `last_used` among
the unpinned ones; it returns nothing iff every region is pinned. -/
theorem findLRU_spec (s : MState) :
    (findLRU s = none → ∀ q ∈ allRegions s, s.pins q.rid ≠ 0) ∧
    (∀ x, findLRU s = some x →
      s.pins x.rid = 0 ∧ x ∈ allRegions s ∧
      ∀ q ∈ allRegions s, s.pins q.rid = 0 → x._uc ≤ q._uc) := by
  have hfold := foldl_lru s (allRegionsF s.fdict) none (by intro y hy; simp at hy)
  have heq := findLRU_eq_foldl s
  have hcc : ∀ (q : MapRegion),
      ((regionClientCount s q.rid - 2 == 0) = true ↔ s.pins q.rid = 0) := by
    intro q
    unfold regionClientCount
    simp
  constructor
  · intro h q hq hz
    rw [heq] at h
    have hf := (hfold.1 h).2 q hq
    have ht := (hcc q).2 hz
    rw [hf] at ht
    exact absurd ht (by simp)
  · intro x hx
    rw [heq] at hx
    obtain ⟨hex, hmem, hmin, _⟩ := hfold.2 x hx
    refine ⟨(hcc x).1 hex, ?_, ?_⟩
    · rcases hmem with hm | hm
      · exact hm
      · exact absurd hm (by simp)
    · intro q hq hz
      exact hmin q hq ((hcc q).2 hz)

theorem removeRegion_none_of_no_rid {regs : List MapRegion} {rid : Nat}
    (h : ∀ y ∈ regs, y.rid ≠ rid) : removeRegion regs rid = none := by
  induction regs with
  | nil => rfl
  | cons r rest ih =>
    have hne : (r.rid == rid) = false := by
      simp only [beq_eq_false_iff_ne, ne_eq]
      exact h r (List.mem_cons_self _ _)
    unfold removeRegion
    rw [hne]
    simp only [Bool.false_eq_true, if_false]
    rw [ih (fun y hy => h y (List.mem_cons_of_mem _ hy))]

/-- Under distinct ghost ids, removing a member's id removes exactly that
member. -/
theorem removeRegion_of_mem_nodup {regs : List MapRegion} {x : MapRegion}
    (hm : x ∈ regs) (hnd : (regs.map MapRegion.rid).Nodup) :
    ∃ regs', removeRegion regs x.rid = some (x, regs') := by
  induction regs with
  | nil => simp at hm
  | cons r rest ih =>
    rw [List.map_cons, List.nodup_cons] at hnd
    rcases List.mem_cons.1 hm with rfl | hm2
    · refine ⟨rest, ?_⟩
      unfold removeRegion
      rw [if_pos (by simp)]
    · have hne : (r.rid == x.rid) = false := by
        simp only [beq_eq_false_iff_ne, ne_eq]
        intro he
        apply hnd.1
        rw [he]
        exact List.mem_map_of_mem _ hm2
      obtain ⟨rest', hrest'⟩ := ih hm2 hnd.2
      refine ⟨r :: rest', ?_⟩
      unfold removeRegion
      rw [hne]
      simp only [Bool.false_eq_true, if_false]
      rw [hrest']

/-- Under globally distinct ghost ids, `removeRid` of a member's id
removes exactly that member. -/
theorem removeRid_of_mem_nodup {fd : List (Nat × MapRegionList)} {x : MapRegion}
    (hm : x ∈ allRegionsF fd) (hnd : ((allRegionsF fd).map MapRegion.rid).Nodup) :
    ∃ fd', removeRid fd x.rid = some (x, fd') := by
  induction fd with
  | nil => simp [allRegionsF] at hm
  | cons p rest ih =>
    rw [allRegionsF_cons] at hm hnd
    rw [List.map_append] at hnd
    obtain ⟨hnd1, hnd2, hdisj⟩ := List.nodup_append.1 hnd
    obtain ⟨f, rl⟩ := p
    rcases List.mem_append.1 hm with hm1 | hm2
    · obtain ⟨regs', hr⟩ := removeRegion_of_mem_nodup hm1 hnd1
      refine ⟨(f, { rl with regions := regs' }) :: rest, ?_⟩
      unfold removeRid
      rw [hr]
    · have hnone : removeRegion rl.regions x.rid = none := by
        apply removeRegion_none_of_no_rid
        intro y hy he
        exact hdisj (List.mem_map_of_mem _ hy) (he ▸ List.mem_map_of_mem _ hm2)
      obtain ⟨fd', hfd'⟩ := ih hm2 hnd2
      refine ⟨(f, rl) :: fd', ?_⟩
      unfold removeRid
      rw [hnone, hfd']

theorem removeRegion_find?_ne {regs : List MapRegion} {rid : Nat} {rr : MapRegion}
    {regs' : List MapRegion} (h : removeRegion regs rid = some (rr, regs'))
    {rid' : Nat} (hne : rid' ≠ rid) :
    regs'.find? (fun y => y.rid == rid') = regs.find? (fun y => y.rid == rid') := by
  induction regs generalizing regs' with
  | nil => simp [removeRegion] at h
  | cons r rest ih =>
    unfold removeRegion at h
    cases hb : (r.rid == rid) with
    | true =>
      rw [hb] at h
      simp only [if_true] at h
      obtain ⟨h1, h2⟩ := Prod.mk.inj (Option.some.inj h)
      subst h2
      have hrr : r.rid = rid := by simpa using hb
      have hhead : (r.rid == rid') = false := by
        simp only [beq_eq_false_iff_ne, ne_eq, hrr]
        exact fun he => hne he.symm
      have hc2 : List.find? (fun y => y.rid == rid') (r :: rest) =
          List.find? (fun y => y.rid == rid') rest :=
        List.find?_cons_of_neg _ (by simp [hhead])
      rw [hc2]
    | false =>
      rw [hb] at h
      simp only [Bool.false_eq_true, if_false] at h
      cases hrec : removeRegion rest rid with
      | none =>
        rw [hrec] at h
        simp at h
      | some pr =>
        obtain ⟨rr2, rest2⟩ := pr
        rw [hrec] at h
        dsimp only at h
        obtain ⟨h1, h2⟩ := Prod.mk.inj (Option.some.inj h)
        subst h1
        subst h2
        cases hhead : (r.rid == rid') with
        | true =>
          have hc1 : List.find? (fun y => y.rid == rid') (r :: rest2) = some r :=
            List.find?_cons_of_pos _ hhead
          have hc2 : List.find? (fun y => y.rid == rid') (r :: rest) = some r :=
            List.find?_cons_of_pos _ hhead
          rw [hc1, hc2]
        | false =>
          have hc1 : List.find? (fun y => y.rid == rid') (r :: rest2) =
              List.find? (fun y => y.rid == rid') rest2 :=
            List.find?_cons_of_neg _ (by simp [hhead])
          have hc2 : List.find? (fun y => y.rid == rid') (r :: rest) =
              List.find? (fun y => y.rid == rid') rest :=
            List.find?_cons_of_neg _ (by simp [hhead])
          rw [hc1, hc2]
          exact ih hrec

theorem removeRid_find?_ne {fd : List (Nat × MapRegionList)} {rid : Nat} {rr : MapRegion}
    {fd' : List (Nat × MapRegionList)} (h : removeRid fd rid = some (rr, fd'))
    {rid' : Nat} (hne : rid' ≠ rid) (fid : Nat) :
    (match fd'.find? (fun (p : Nat × MapRegionList) => p.1 == fid) with
      | some q => q.2
      | none => (⟨fid, 0, []⟩ : MapRegionList)).regions.find?
        (fun (y : MapRegion) => y.rid == rid') =
    (match fd.find? (fun (p : Nat × MapRegionList) => p.1 == fid) with
      | some q => q.2
      | none => (⟨fid, 0, []⟩ : MapRegionList)).regions.find?
        (fun (y : MapRegion) => y.rid == rid') := by
  induction fd generalizing fd' with
  | nil => simp [removeRid] at h
  | cons p rest ih =>
    obtain ⟨f, rl⟩ := p
    unfold removeRid at h
    cases hrem : removeRegion rl.regions rid with
    | some pr =>
      obtain ⟨rr0, regs'⟩ := pr
      rw [hrem] at h
      dsimp only at h
      obtain ⟨h1, h2⟩ := Prod.mk.inj (Option.some.inj h)
      subst h2
      cases hf : (f == fid) with
      | true =>
        have hc1 : List.find? (fun p => p.1 == fid)
            ((f, { rl with regions := regs' }) :: rest) =
            some (f, { rl with regions := regs' }) :=
          List.find?_cons_of_pos _ (by simpa using hf)
        have hc2 : List.find? (fun p => p.1 == fid) ((f, rl) :: rest) = some (f, rl) :=
          List.find?_cons_of_pos _ (by simpa using hf)
        rw [hc1, hc2]
        dsimp only
        exact removeRegion_find?_ne hrem hne
      | false =>
        have hc1 : List.find? (fun p => p.1 == fid)
            ((f, { rl with regions := regs' }) :: rest) =
            List.find? (fun p => p.1 == fid) rest :=
          List.find?_cons_of_neg _ (by simp [hf])
        have hc2 : List.find? (fun p => p.1 == fid) ((f, rl) :: rest) =
            List.find? (fun p => p.1 == fid) rest :=
          List.find?_cons_of_neg _ (by simp [hf])
        rw [hc1, hc2]
    | none =>
      rw [hrem] at h
      dsimp only at h
      cases hrec : removeRid rest rid with
      | none =>
        rw [hrec] at h
        simp at h
      | some pr2 =>
        obtain ⟨rr2, rest2⟩ := pr2
        rw [hrec] at h
        dsimp only at h
        obtain ⟨h1, h2⟩ := Prod.mk.inj (Option.some.inj h)
        subst h1
        subst h2
        cases hf : (f == fid) with
        | true =>
          have hc1 : List.find? (fun p => p.1 == fid) ((f, rl) :: rest2) = some (f, rl) :=
            List.find?_cons_of_pos _ (by simpa using hf)
          have hc2 : List.find? (fun p => p.1 == fid) ((f, rl) :: rest) = some (f, rl) :=
            List.find?_cons_of_pos _ (by simpa using hf)
          rw [hc1, hc2]
        | false =>
          have hc1 : List.find? (fun p => p.1 == fid) ((f, rl) :: rest2) =
              List.find? (fun p => p.1 == fid) rest2 :=
            List.find?_cons_of_neg _ (by simp [hf])
          have hc2 : List.find? (fun p => p.1 == fid) ((f, rl) :: rest) =
              List.find? (fun p => p.1 == fid) rest :=
            List.find?_cons_of_neg _ (by simp [hf])
          rw [hc1, hc2]
          exact ih hrec

/-- Evicting one region does not disturb the lookup of any other ghost
id. -/
theorem evictUpd_getRegion_ne {s : MState} {rid : Nat} {rr : MapRegion}
    {fd' : List (Nat × MapRegionList)} (h : removeRid s.fdict rid = some (rr, fd'))
    {rid' : Nat} (hne : rid' ≠ rid) (fid : Nat) :
    getRegion (evictUpd s rr fd') fid rid' = getRegion s fid rid' := by
  unfold getRegion getRList
  exact removeRid_find?_ne h hne fid

/-- A region pinned by a live cursor survives the whole eviction loop,
unchanged. -/
theorem collectLruAux_preserves_pinned (fuel : Nat) :
    ∀ (s : MState) (size found : Nat) {fid rid : Nat} {r : MapRegion},
      getRegion s fid rid = some r → 0 < s.pins rid →
      getRegion (collectLruAux fuel s size found).1 fid rid = some r := by
  induction fuel with
  | zero =>
    intro s size found fid rid r hget hpin
    exact hget
  | succ fuel ih =>
    intro s size found fid rid r hget hpin
    simp only [collectLruAux]
    split
    · cases hlru : findLRU s with
      | none => exact hget
      | some lr =>
        dsimp only
        cases hrem : removeRid s.fdict lr.rid with
        | none => exact hget
        | some pr =>
          obtain ⟨rr, fd'⟩ := pr
          dsimp only
          have hex : s.pins lr.rid = 0 := ((findLRU_spec s).2 lr hlru).1
          have hne : rid ≠ lr.rid := by
            intro he
            rw [he] at hpin
            omega
          have hget2 : getRegion (evictUpd s rr fd') fid rid = some r := by
            rw [evictUpd_getRegion_ne hrem hne fid]
            exact hget
          exact ih (evictUpd s rr fd') size (found + 1) hget2 hpin
    · exact hget

theorem collectLru_preserves_pinned (s : MState) (size : Nat) {fid rid : Nat}
    {r : MapRegion} (hget : getRegion s fid rid = some r) (hpin : 0 < s.pins rid) :
    getRegion (collectLru s size).1 fid rid = some r := by
  unfold collectLru
  exact collectLruAux_preserves_pinned _ _ size 0 hget hpin

/-!
## C3: the eviction policy
-/

/-- C3: the LRU scan of `_collect_lru_region` (mman.py 286-310) treats a
region as evictable iff `client_count() - 2 == 0` (no live cursor pins
it); when it selects a region, that region is evictable and has the
smallest `last_used` among all evictable regions across all region lists,
and (under the ghost id invariant) `del(...)` removes exactly that region;
when every region is pinned it selects nothing; and a region pinned by a
live cursor survives the whole eviction loop unchanged. -/
theorem C3_lru_eviction (s : MState) (size : Nat) :
    (∀ x, findLRU s = some x →
       regionClientCount s x.rid - 2 = 0 ∧ x ∈ allRegions s ∧
       (∀ q ∈ allRegions s, regionClientCount s q.rid - 2 = 0 → x._uc ≤ q._uc) ∧
       (RidInv s → ∃ fd', removeRid s.fdict x.rid = some (x, fd'))) ∧
    (findLRU s = none → ∀ q ∈ allRegions s, regionClientCount s q.rid - 2 ≠ 0) ∧
    (∀ fid rid r, getRegion s fid rid = some r → 0 < s.pins rid →
       getRegion (collectLru s size).1 fid rid = some r) := by
  have hcc : ∀ (q : MapRegion), regionClientCount s q.rid - 2 = s.pins q.rid := by
    intro q
    unfold regionClientCount
    omega
  refine ⟨?_, ?_, ?_⟩
  · intro x hx
    obtain ⟨h1, h2, h3⟩ := (findLRU_spec s).2 x hx
    refine ⟨by rw [hcc]; exact h1, h2, ?_, ?_⟩
    · intro q hq hz
      rw [hcc] at hz
      exact h3 q hq hz
    · intro hrid
      unfold RidInv RidInvF at hrid
      exact removeRid_of_mem_nodup h2 hrid.1
  · intro h q hq
    rw [hcc]
    exact (findLRU_spec s).1 h q hq
  · intro fid rid r hget hpin
    exact collectLru_preserves_pinned s size hget hpin

theorem C3_lru_eviction_witness :
    (regionClientCount (unuseCursor (useRegion envAll wSliding0 wCursor0 10000 100 0).1
        (useRegion envAll wSliding0 wCursor0 10000 100 0).2.1).1 (0 : Nat) - 2 = 0 ∧
     (⟨4096, 8192, 1, 0⟩ : MapRegion) ∈
       allRegions (unuseCursor (useRegion envAll wSliding0 wCursor0 10000 100 0).1
         (useRegion envAll wSliding0 wCursor0 10000 100 0).2.1).1 ∧
     (∀ q ∈ allRegions (unuseCursor (useRegion envAll wSliding0 wCursor0 10000 100 0).1
         (useRegion envAll wSliding0 wCursor0 10000 100 0).2.1).1,
       regionClientCount (unuseCursor (useRegion envAll wSliding0 wCursor0 10000 100 0).1
         (useRegion envAll wSliding0 wCursor0 10000 100 0).2.1).1 q.rid - 2 = 0 →
       (⟨4096, 8192, 1, 0⟩ : MapRegion)._uc ≤ q._uc) ∧
     (RidInv (unuseCursor (useRegion envAll wSliding0 wCursor0 10000 100 0).1
         (useRegion envAll wSliding0 wCursor0 10000 100 0).2.1).1 →
       ∃ fd', removeRid (unuseCursor (useRegion envAll wSliding0 wCursor0 10000 100 0).1
         (useRegion envAll wSliding0 wCursor0 10000 100 0).2.1).1.fdict
           (⟨4096, 8192, 1, 0⟩ : MapRegion).rid =
         some (⟨4096, 8192, 1, 0⟩, fd'))) ∧
    getRegion (collectLru (useRegion envAll wSliding0 wCursor0 10000 100 0).1 0).1 1 0 =
      some ⟨4096, 8192, 1, 0⟩ :=
  ⟨(C3_lru_eviction (unuseCursor (useRegion envAll wSliding0 wCursor0 10000 100 0).1
      (useRegion envAll wSliding0 wCursor0 10000 100 0).2.1).1 0).1
      ⟨4096, 8192, 1, 0⟩ (by decide),
   (C3_lru_eviction (useRegion envAll wSliding0 wCursor0 10000 100 0).1 0).2.2
      1 0 ⟨4096, 8192, 1, 0⟩ (by decide) (by decide)⟩

/-! ## The budget-counter accounting (for C2) -/

theorem accountingB_iff (s : MState) :
    accountingB s = true ↔
      (s.memory_size = totalMemory s.fdict ∧ s.handle_count = totalRegions s.fdict) := by
  unfold accountingB
  simp

theorem totalRegions_eq_length (fd : List (Nat × MapRegionList)) :
    totalRegions fd = (allRegionsF fd).length := by
  induction fd with
  | nil => rfl
  | cons p rest ih =>
    rw [allRegionsF_cons, List.length_append]
    unfold totalRegions at ih ⊢
    simp only [List.map_cons, List.sum_cons]
    omega

theorem totalMemory_eq_sum (fd : List (Nat × MapRegionList)) :
    totalMemory fd = ((allRegionsF fd).map MapRegion.size).sum := by
  induction fd with
  | nil => rfl
  | cons p rest ih =>
    rw [allRegionsF_cons, List.map_append, List.sum_append]
    unfold totalMemory at ih ⊢
    simp only [List.map_cons, List.sum_cons]
    omega

theorem totals_setRList {fd : List (Nat × MapRegionList)} {fid : Nat}
    {q : Nat × MapRegionList} (hf : fd.find? (fun p => p.1 == fid) = some q)
    (rl : MapRegionList) :
    totalRegions (setRList fd fid rl) + q.2.regions.length
      = totalRegions fd + rl.regions.length ∧
    totalMemory (setRList fd fid rl) + (q.2.regions.map MapRegion.size).sum
      = totalMemory fd + (rl.regions.map MapRegion.size).sum := by
  obtain ⟨L, R, hold, hnew⟩ := allRegionsF_setRList hf rl
  constructor
  · rw [totalRegions_eq_length, totalRegions_eq_length, hold, hnew]
    simp only [List.length_append]
    omega
  · rw [totalMemory_eq_sum, totalMemory_eq_sum, hold, hnew]
    simp only [List.map_append, List.sum_append]
    omega

theorem acc_evictUpd {s : MState} {rid : Nat} {rr : MapRegion}
    {fd' : List (Nat × MapRegionList)} (hrem : removeRid s.fdict rid = some (rr, fd'))
    (ih : s.memory_size = totalMemory s.fdict ∧ s.handle_count = totalRegions s.fdict) :
    (evictUpd s rr fd').memory_size = totalMemory (evictUpd s rr fd').fdict ∧
    (evictUpd s rr fd').handle_count = totalRegions (evictUpd s rr fd').fdict := by
  obtain ⟨h1, h2, _, _⟩ := removeRid_counts hrem
  obtain ⟨ihm, ihh⟩ := ih
  have hm : (evictUpd s rr fd').memory_size = s.memory_size - rr.size := rfl
  have hh : (evictUpd s rr fd').handle_count = s.handle_count - 1 := rfl
  have hfd : (evictUpd s rr fd').fdict = fd' := rfl
  rw [hm, hh, hfd]
  exact ⟨by omega, by omega⟩

theorem acc_collectLruAux (fuel : Nat) :
    ∀ (s : MState) (size found : Nat),
      (s.memory_size = totalMemory s.fdict ∧ s.handle_count = totalRegions s.fdict) →
      ((collectLruAux fuel s size found).1.memory_size
          = totalMemory (collectLruAux fuel s size found).1.fdict ∧
       (collectLruAux fuel s size found).1.handle_count
          = totalRegions (collectLruAux fuel s size found).1.fdict) := by
  induction fuel with
  | zero =>
    intro s size found ih
    exact ih
  | succ fuel ihf =>
    intro s size found ih
    simp only [collectLruAux]
    split
    · split
      · exact ih
      · next r hf =>
        split
        · exact ih
        · next rr fd' hr =>
          exact ihf (evictUpd s rr fd') size (found + 1) (acc_evictUpd hr ih)
    · exact ih

theorem acc_collectLru (s : MState) (size : Nat)
    (ih : s.memory_size = totalMemory s.fdict ∧ s.handle_count = totalRegions s.fdict) :
    ((collectLru s size).1.memory_size = totalMemory (collectLru s size).1.fdict ∧
     (collectLru s size).1.handle_count = totalRegions (collectLru s size).1.fdict) := by
  unfold collectLru
  exact acc_collectLruAux (totalRegions s.fdict + 1)
    { s with trace := s.trace ++ [size] } size 0 ih

theorem acc_regionAppend {s : MState} {fid : Nat} {q : Nat × MapRegionList}
    (hf : s.fdict.find? (fun p => p.1 == fid) = some q) (r : MapRegion)
    (ih : s.memory_size = totalMemory s.fdict ∧ s.handle_count = totalRegions s.fdict) :
    ((regionAppend s fid (getRList s fid) r).memory_size
        = totalMemory (regionAppend s fid (getRList s fid) r).fdict ∧
     (regionAppend s fid (getRList s fid) r).handle_count
        = totalRegions (regionAppend s fid (getRList s fid) r).fdict) := by
  have hrl : getRList s fid = q.2 := getRList_fileSize_of_find? hf
  obtain ⟨ht1, ht2⟩ := totals_setRList hf
    { getRList s fid with regions := (getRList s fid).regions ++ [r] }
  obtain ⟨ihm, ihh⟩ := ih
  have hlen : ({ getRList s fid with
      regions := (getRList s fid).regions ++ [r] } : MapRegionList).regions.length
      = q.2.regions.length + 1 := by
    rw [hrl]
    simp
  have hsum : (({ getRList s fid with
      regions := (getRList s fid).regions ++ [r] } : MapRegionList).regions.map
        MapRegion.size).sum
      = (q.2.regions.map MapRegion.size).sum + r.size := by
    rw [hrl]
    simp
  rw [hlen] at ht1
  rw [hsum] at ht2
  have hm : (regionAppend s fid (getRList s fid) r).memory_size
      = s.memory_size + r.size := rfl
  have hh : (regionAppend s fid (getRList s fid) r).handle_count
      = s.handle_count + 1 := rfl
  have hfd : (regionAppend s fid (getRList s fid) r).fdict
      = setRList s.fdict fid
          { getRList s fid with regions := (getRList s fid).regions ++ [r] } := rfl
  rw [hm, hh, hfd]
  exact ⟨by omega, by omega⟩

theorem acc_regionInsert {s : MState} {fid : Nat} {q : Nat × MapRegionList}
    (hf : s.fdict.find? (fun p => p.1 == fid) = some q) (ins : Nat) (r : MapRegion)
    (ih : s.memory_size = totalMemory s.fdict ∧ s.handle_count = totalRegions s.fdict) :
    ((regionInsert s fid (getRList s fid) ins r).memory_size
        = totalMemory (regionInsert s fid (getRList s fid) ins r).fdict ∧
     (regionInsert s fid (getRList s fid) ins r).handle_count
        = totalRegions (regionInsert s fid (getRList s fid) ins r).fdict) := by
  have hrl : getRList s fid = q.2 := getRList_fileSize_of_find? hf
  obtain ⟨ht1, ht2⟩ := totals_setRList hf
    { getRList s fid with regions := insertAt (getRList s fid).regions ins r }
  obtain ⟨ihm, ihh⟩ := ih
  have hlen : ({ getRList s fid with
      regions := insertAt (getRList s fid).regions ins r } : MapRegionList).regions.length
      = q.2.regions.length + 1 := by
    rw [hrl]
    dsimp only
    rw [(insertAt_perm q.2.regions ins r).length_eq]
    rfl
  have hsum : (({ getRList s fid with
      regions := insertAt (getRList s fid).regions ins r } : MapRegionList).regions.map
        MapRegion.size).sum
      = (q.2.regions.map MapRegion.size).sum + r.size := by
    rw [hrl]
    dsimp only
    rw [((insertAt_perm q.2.regions ins r).map MapRegion.size).sum_eq]
    simp
    omega
  rw [hlen] at ht1
  rw [hsum] at ht2
  have hm : (regionInsert s fid (getRList s fid) ins r).memory_size
      = s.memory_size + r.size := rfl
  have hh : (regionInsert s fid (getRList s fid) ins r).handle_count
      = s.handle_count + 1 := rfl
  have hfd : (regionInsert s fid (getRList s fid) ins r).fdict
      = setRList s.fdict fid
          { getRList s fid with regions := insertAt (getRList s fid).regions ins r } := rfl
  rw [hm, hh, hfd]
  exact ⟨by omega, by omega⟩

theorem acc_stampRegion (s : MState) (fid rid : Nat)
    (ih : s.memory_size = totalMemory s.fdict ∧ s.handle_count = totalRegions s.fdict) :
    ((stampRegion s fid rid).memory_size = totalMemory (stampRegion s fid rid).fdict ∧
     (stampRegion s fid rid).handle_count = totalRegions (stampRegion s fid rid).fdict) := by
  have hm : (stampRegion s fid rid).memory_size = s.memory_size := rfl
  have hh : (stampRegion s fid rid).handle_count = s.handle_count := rfl
  have hfd : (stampRegion s fid rid).fdict
      = setRList s.fdict fid
          { getRList s fid with regions := (getRList s fid).regions.map (fun r => if r.rid == rid then { r with _uc := s.clock + 1 } else r) } := rfl
  obtain ⟨ihm, ihh⟩ := ih
  cases hf : s.fdict.find? (fun p => p.1 == fid) with
  | none =>
    rw [hm, hh, hfd, setRList_not_found hf]
    exact ⟨ihm, ihh⟩
  | some q =>
    have hrl : getRList s fid = q.2 := getRList_fileSize_of_find? hf
    obtain ⟨ht1, ht2⟩ := totals_setRList hf
      { getRList s fid with regions := (getRList s fid).regions.map (fun r => if r.rid == rid then { r with _uc := s.clock + 1 } else r) }
    have hmapsize : ∀ (l : List MapRegion),
        (l.map (fun r => if r.rid == rid then { r with _uc := s.clock + 1 } else r)).map MapRegion.size = l.map MapRegion.size := by
      intro l
      induction l with
      | nil => rfl
      | cons a t iht =>
        simp only [List.map_cons]
        rw [(stamp_f_shape rid (s.clock + 1) a).2.1, iht]
    have hlen : ({ getRList s fid with regions := (getRList s fid).regions.map (fun r => if r.rid == rid then { r with _uc := s.clock + 1 } else r) } : MapRegionList).regions.length
        = q.2.regions.length := by
      rw [hrl]
      simp
    have hsum : (({ getRList s fid with regions := (getRList s fid).regions.map (fun r => if r.rid == rid then { r with _uc := s.clock + 1 } else r) } : MapRegionList).regions.map MapRegion.size).sum
        = (q.2.regions.map MapRegion.size).sum := by
      rw [hrl]
      dsimp only
      rw [hmapsize]
    rw [hlen] at ht1
    rw [hsum] at ht2
    rw [hm, hh, hfd]
    exact ⟨by omega, by omega⟩

theorem acc_usePin (s2 : MState) (c1 : WindowCursor) (fid : Nat) (needRegion : Bool)
    (r : MapRegion) (offset size : Nat)
    (ih : s2.memory_size = totalMemory s2.fdict ∧ s2.handle_count = totalRegions s2.fdict) :
    ((usePin s2 c1 fid needRegion r offset size).1.memory_size
        = totalMemory (usePin s2 c1 fid needRegion r offset size).1.fdict ∧
     (usePin s2 c1 fid needRegion r offset size).1.handle_count
        = totalRegions (usePin s2 c1 fid needRegion r offset size).1.fdict) := by
  cases needRegion with
  | true =>
    exact acc_stampRegion
      { s2 with pins := fun k => if k = r.rid then s2.pins k + 1 else s2.pins k } fid r.rid ih
  | false => exact acc_stampRegion s2 fid r.rid ih

theorem useRetarget_fdict (s : MState) (c : WindowCursor) (offset : Nat) :
    (useRetarget s c offset).2.1.fdict = s.fdict ∧
    (useRetarget s c offset).2.1.memory_size = s.memory_size ∧
    (useRetarget s c offset).2.1.handle_count = s.handle_count := by
  unfold useRetarget
  cases c._region with
  | none => exact ⟨rfl, rfl, rfl⟩
  | some rid =>
    dsimp only
    split
    · exact ⟨rfl, rfl, rfl⟩
    · exact ⟨(unusePins_fields s c).1, (unusePins_fields s c).2.1,
        (unusePins_fields s c).2.2.1⟩

theorem acc_useRetarget (s : MState) (c : WindowCursor) (offset : Nat)
    (ih : s.memory_size = totalMemory s.fdict ∧ s.handle_count = totalRegions s.fdict) :
    ((useRetarget s c offset).2.1.memory_size
        = totalMemory (useRetarget s c offset).2.1.fdict ∧
     (useRetarget s c offset).2.1.handle_count
        = totalRegions (useRetarget s c offset).2.1.fdict) := by
  obtain ⟨h1, h2, h3⟩ := useRetarget_fdict s c offset
  rw [h1, h2, h3]
  exact ih

theorem acc_staticOnce {env : Nat → Bool} {s : MState} {fid offset size flags : Nat}
    {s' : MState} {res : ObtainRes}
    (h : staticObtainOnce env s fid offset size flags = (s', res))
    (hq : (s.fdict.find? (fun p => p.1 == fid)).isSome = true)
    (ih : s.memory_size = totalMemory s.fdict ∧ s.handle_count = totalRegions s.fdict) :
    s'.memory_size = totalMemory s'.fdict ∧ s'.handle_count = totalRegions s'.fdict := by
  unfold staticObtainOnce at h
  set s1 := if decide (s.max_memory_size < s.memory_size + size) then (collectLru s size).1
            else s with hs1
  dsimp only at h
  have hacc1 : s1.memory_size = totalMemory s1.fdict ∧
      s1.handle_count = totalRegions s1.fdict := by
    rw [hs1]
    split
    · exact acc_collectLru s size ih
    · exact ih
  have hsub1 : List.Forall₂ entrySub s1.fdict s.fdict := by
    rw [hs1]
    split
    · exact (collectLru_spec s size).1
    · exact entrySub_refl _
  have hq1 : (s1.fdict.find? (fun p => p.1 == fid)).isSome = true :=
    forall₂_find?_isSome hsub1 hq
  obtain ⟨q1, hf1⟩ : ∃ q1, s1.fdict.find? (fun p => p.1 == fid) = some q1 := by
    cases hc : s1.fdict.find? (fun p => p.1 == fid) with
    | none =>
      rw [hc] at hq1
      simp at hq1
    | some q1 => exact ⟨q1, rfl⟩
  cases hregs : (getRList s1 fid).regions with
  | cons r0 rest =>
    rw [hregs] at h
    dsimp only at h
    split at h
    · split at h
      · obtain ⟨rfl, _⟩ := Prod.mk.inj h
        exact hacc1
      · obtain ⟨rfl, _⟩ := Prod.mk.inj h
        exact hacc1
    · obtain ⟨rfl, _⟩ := Prod.mk.inj h
      exact hacc1
  | nil =>
    rw [hregs] at h
    dsimp only at h
    split at h
    · split at h
      · obtain ⟨rfl, _⟩ := Prod.mk.inj h
        exact acc_regionAppend hf1 _ hacc1
      · obtain ⟨rfl, _⟩ := Prod.mk.inj h
        exact acc_regionAppend hf1 _ hacc1
    · obtain ⟨rfl, _⟩ := Prod.mk.inj h
      exact hacc1

theorem acc_slidingOnce {env : Nat → Bool} {s : MState} {fid offset size flags : Nat}
    {s' : MState} {res : ObtainRes}
    (h : slidingObtainOnce env s fid offset size flags = (s', res))
    (hq : (s.fdict.find? (fun p => p.1 == fid)).isSome = true)
    (ih : s.memory_size = totalMemory s.fdict ∧ s.handle_count = totalRegions s.fdict) :
    s'.memory_size = totalMemory s'.fdict ∧ s'.handle_count = totalRegions s'.fdict := by
  unfold slidingObtainOnce at h
  dsimp only at h
  cases hbis : bisectFind (getRList s fid).regions offset 0 (getRList s fid).regions.length
      ((getRList s fid).regions.length + 1) with
  | some r0 =>
    rw [hbis] at h
    dsimp only at h
    obtain ⟨rfl, _⟩ := Prod.mk.inj h
    exact ih
  | none =>
    rw [hbis] at h
    dsimp only at h
    set s1 := slidingPre s with hs1
    have hacc1 : s1.memory_size = totalMemory s1.fdict ∧
        s1.handle_count = totalRegions s1.fdict := by
      rw [hs1]
      unfold slidingPre
      split
      · exact acc_collectLru s s.window_size ih
      · exact ih
    have hsub1 : List.Forall₂ entrySub s1.fdict s.fdict := by
      rw [hs1]
      unfold slidingPre
      split
      · exact (collectLru_spec s s.window_size).1
      · exact entrySub_refl _
    have hq1 : (s1.fdict.find? (fun p => p.1 == fid)).isSome = true :=
      forall₂_find?_isSome hsub1 hq
    obtain ⟨q1, hf1⟩ : ∃ q1, s1.fdict.find? (fun p => p.1 == fid) = some q1 := by
      cases hc : s1.fdict.find? (fun p => p.1 == fid) with
      | none =>
        rw [hc] at hq1
        simp at hq1
      | some q1 => exact ⟨q1, rfl⟩
    split at h
    · obtain ⟨rfl, _⟩ := Prod.mk.inj h
      exact hacc1
    · split at h
      · obtain ⟨rfl, _⟩ := Prod.mk.inj h
        exact acc_regionInsert hf1 _ _ hacc1
      · obtain ⟨rfl, _⟩ := Prod.mk.inj h
        exact hacc1

theorem acc_obtain {env : Nat → Bool} {s : MState} {fid offset size flags : Nat}
    {s' : MState} {res : Option MapRegion}
    (h : obtainRegion env s fid offset size flags = (s', res))
    (hq : (s.fdict.find? (fun p => p.1 == fid)).isSome = true)
    (ih : s.memory_size = totalMemory s.fdict ∧ s.handle_count = totalRegions s.fdict) :
    s'.memory_size = totalMemory s'.fdict ∧ s'.handle_count = totalRegions s'.fdict := by
  unfold obtainRegion at h
  split at h
  · unfold slidingObtain at h
    rcases hOnce : slidingObtainOnce env s fid offset size flags with ⟨s1, r1⟩
    rw [hOnce] at h
    have hacc1 := acc_slidingOnce hOnce hq ih
    cases r1 with
    | ok r =>
      dsimp only at h
      obtain ⟨rfl, _⟩ := Prod.mk.inj h
      exact hacc1
    | assertFail =>
      dsimp only at h
      obtain ⟨rfl, _⟩ := Prod.mk.inj h
      exact hacc1
    | mapFail =>
      dsimp only at h
      obtain ⟨hsub1, _, _⟩ := slidingOnce_mapFail_rel hOnce
      have hq1 : (s1.fdict.find? (fun p => p.1 == fid)).isSome = true :=
        forall₂_find?_isSome hsub1 hq
      have hacc2 := acc_collectLru s1 0 hacc1
      have hq2 : (((collectLru s1 0).1).fdict.find? (fun p => p.1 == fid)).isSome = true :=
        forall₂_find?_isSome (collectLru_spec s1 0).1 hq1
      rcases hOnce2 : slidingObtainOnce env (collectLru s1 0).1 fid offset size flags
        with ⟨s3, r3⟩
      rw [hOnce2] at h
      have hacc3 := acc_slidingOnce hOnce2 hq2 hacc2
      cases r3 with
      | ok r =>
        dsimp only at h
        obtain ⟨rfl, _⟩ := Prod.mk.inj h
        exact hacc3
      | assertFail =>
        dsimp only at h
        obtain ⟨rfl, _⟩ := Prod.mk.inj h
        exact hacc3
      | mapFail =>
        dsimp only at h
        obtain ⟨rfl, _⟩ := Prod.mk.inj h
        exact hacc3
  · unfold staticObtain at h
    rcases hOnce : staticObtainOnce env s fid offset size flags with ⟨s1, r1⟩
    rw [hOnce] at h
    have hacc1 := acc_staticOnce hOnce hq ih
    cases r1 with
    | ok r =>
      dsimp only at h
      obtain ⟨rfl, _⟩ := Prod.mk.inj h
      exact hacc1
    | assertFail =>
      dsimp only at h
      obtain ⟨rfl, _⟩ := Prod.mk.inj h
      exact hacc1
    | mapFail =>
      dsimp only at h
      obtain ⟨hsub1, _, _⟩ := staticOnce_mapFail_rel hOnce
      have hq1 : (s1.fdict.find? (fun p => p.1 == fid)).isSome = true :=
        forall₂_find?_isSome hsub1 hq
      have hacc2 := acc_collectLru s1 0 hacc1
      have hq2 : (((collectLru s1 0).1).fdict.find? (fun p => p.1 == fid)).isSome = true :=
        forall₂_find?_isSome (collectLru_spec s1 0).1 hq1
      rcases hOnce2 : staticObtainOnce env (collectLru s1 0).1 fid offset size flags
        with ⟨s3, r3⟩
      rw [hOnce2] at h
      have hacc3 := acc_staticOnce hOnce2 hq2 hacc2
      cases r3 with
      | ok r =>
        dsimp only at h
        obtain ⟨rfl, _⟩ := Prod.mk.inj h
        exact hacc3
      | assertFail =>
        dsimp only at h
        obtain ⟨rfl, _⟩ := Prod.mk.inj h
        exact hacc3
      | mapFail =>
        dsimp only at h
        obtain ⟨rfl, _⟩ := Prod.mk.inj h
        exact hacc3

theorem acc_useRegion (env : Nat → Bool) (s : MState) (c : WindowCursor)
    (offset sizeParam flags : Nat)
    (hq : (s.fdict.find? (fun p => p.1 == c.fid)).isSome = true)
    (ih : s.memory_size = totalMemory s.fdict ∧ s.handle_count = totalRegions s.fdict) :
    (useRegion env s c offset sizeParam flags).1.memory_size
      = totalMemory (useRegion env s c offset sizeParam flags).1.fdict ∧
    (useRegion env s c offset sizeParam flags).1.handle_count
      = totalRegions (useRegion env s c offset sizeParam flags).1.fdict := by
  have hacc1 := acc_useRetarget s c offset ih
  have hfd1 := (useRetarget_fdict s c offset).1
  by_cases hofs : (getRList s c.fid).file_size ≤ offset
  · rw [useRegion_eof env sizeParam flags hofs]
    exact hacc1
  · have hofs2 : offset < (getRList s c.fid).file_size := Nat.lt_of_not_le hofs
    cases hneed : (useRetarget s c offset).1 with
    | true =>
      rw [useRegion_need sizeParam flags hofs2 hneed]
      have hq1 : ((useRetarget s c offset).2.1.fdict.find?
          (fun p => p.1 == c.fid)).isSome = true := by
        rw [hfd1]
        exact hq
      rcases hOb : obtainRegion env (useRetarget s c offset).2.1 c.fid offset
          (effectiveSize s c.fid sizeParam) flags with ⟨s2, res⟩
      try rw [hOb]
      have hacc2 := acc_obtain hOb hq1 hacc1
      cases res with
      | none =>
        dsimp only
        exact hacc2
      | some r =>
        dsimp only
        exact acc_usePin s2 _ c.fid true r offset (effectiveSize s c.fid sizeParam) hacc2
    | false =>
      rw [useRegion_noneed sizeParam flags hofs2 hneed]
      cases hcr : cursorRegion (useRetarget s c offset).2.1 (useRetarget s c offset).2.2 with
      | none =>
        dsimp only
        exact hacc1
      | some r =>
        dsimp only
        exact acc_usePin _ _ c.fid false r offset (effectiveSize s c.fid sizeParam) hacc1

theorem acc_makeCursor (s : MState) (fid fsize : Nat)
    (ih : s.memory_size = totalMemory s.fdict ∧ s.handle_count = totalRegions s.fdict) :
    (makeCursor s fid fsize).1.memory_size
      = totalMemory (makeCursor s fid fsize).1.fdict ∧
    (makeCursor s fid fsize).1.handle_count
      = totalRegions (makeCursor s fid fsize).1.fdict := by
  unfold makeCursor
  dsimp only
  split
  · exact ih
  · obtain ⟨ihm, ihh⟩ := ih
    constructor
    · show s.memory_size = totalMemory (s.fdict ++ [(fid, ⟨fid, fsize, []⟩)])
      unfold totalMemory at ihm ⊢
      simp only [List.map_append, List.sum_append]
      simp [ihm]
    · show s.handle_count = totalRegions (s.fdict ++ [(fid, ⟨fid, fsize, []⟩)])
      unfold totalRegions at ihh ⊢
      simp only [List.map_append, List.sum_append]
      simp [ihh]

theorem popRList_not_found {fd : List (Nat × MapRegionList)} {fid : Nat}
    (h : fd.find? (fun p => p.1 == fid) = none) : popRList fd fid = fd := by
  induction fd with
  | nil => rfl
  | cons p rest ih =>
    rw [List.find?_cons] at h
    cases hb : (p.1 == fid) with
    | true =>
      rw [hb] at h
      simp at h
    | false =>
      rw [hb] at h
      unfold popRList
      rw [hb]
      simp only [Bool.false_eq_true, if_false]
      rw [ih h]

theorem popRList_totals_of_empty {fd : List (Nat × MapRegionList)} {fid : Nat}
    {q : Nat × MapRegionList} (hf : fd.find? (fun p => p.1 == fid) = some q)
    (hempty : q.2.regions = []) :
    totalRegions (popRList fd fid) = totalRegions fd ∧
    totalMemory (popRList fd fid) = totalMemory fd := by
  induction fd with
  | nil => simp at hf
  | cons p rest ih =>
    cases hb : (p.1 == fid) with
    | true =>
      have hfc : List.find? (fun x => x.1 == fid) (p :: rest) = some p :=
        List.find?_cons_of_pos _ hb
      rw [hfc] at hf
      obtain rfl := Option.some.inj hf
      unfold popRList
      rw [hb]
      simp only [if_true]
      constructor
      · unfold totalRegions
        simp [hempty]
      · unfold totalMemory
        simp [hempty]
    | false =>
      have hfc : List.find? (fun x => x.1 == fid) (p :: rest) =
          List.find? (fun x => x.1 == fid) rest :=
        List.find?_cons_of_neg _ (by simp [hb])
      rw [hfc] at hf
      obtain ⟨h1, h2⟩ := ih hf
      unfold popRList
      rw [hb]
      simp only [Bool.false_eq_true, if_false]
      constructor
      · unfold totalRegions at h1 ⊢
        simp only [List.map_cons, List.sum_cons]
        omega
      · unfold totalMemory at h2 ⊢
        simp only [List.map_cons, List.sum_cons]
        omega

theorem acc_destroyCursor (s : MState) (c : WindowCursor)
    (ih : s.memory_size = totalMemory s.fdict ∧ s.handle_count = totalRegions s.fdict) :
    (destroyCursor s c).memory_size = totalMemory (destroyCursor s c).fdict ∧
    (destroyCursor s c).handle_count = totalRegions (destroyCursor s c).fdict := by
  have hacc1 : (unusePins s c).memory_size = totalMemory (unusePins s c).fdict ∧
      (unusePins s c).handle_count = totalRegions (unusePins s c).fdict := by
    obtain ⟨h1, h2, h3, _⟩ := unusePins_fields s c
    rw [h1, h2, h3]
    exact ih
  unfold destroyCursor
  dsimp only
  split
  · next hcond =>
    have hempty : (getRList (unusePins s c) c.fid).regions = [] := by
      have h2 := hcond
      rw [Bool.and_eq_true] at h2
      exact List.isEmpty_iff.1 h2.2
    cases hf : (unusePins s c).fdict.find? (fun p => p.1 == c.fid) with
    | none =>
      rw [popRList_not_found hf]
      exact hacc1
    | some q =>
      have hrl : getRList (unusePins s c) c.fid = q.2 := getRList_fileSize_of_find? hf
      obtain ⟨h1, h2⟩ := popRList_totals_of_empty hf (by rw [← hrl]; exact hempty)
      rw [h1, h2]
      exact hacc1
  · exact hacc1

/-- One modelled operation preserves the accounting equalities. -/
theorem acc_step {s s' : MState} (hst : Step s s')
    (ih : s.memory_size = totalMemory s.fdict ∧ s.handle_count = totalRegions s.fdict) :
    s'.memory_size = totalMemory s'.fdict ∧ s'.handle_count = totalRegions s'.fdict := by
  cases hst with
  | mkCur fid fsize hfs => exact acc_makeCursor s fid fsize ih
  | use env c offset sizeParam flags hc =>
    exact acc_useRegion env s c offset sizeParam flags hc ih
  | unuse c =>
    obtain ⟨h1, h2, h3, _⟩ := unusePins_fields s c
    show (unusePins s c).memory_size = totalMemory (unusePins s c).fdict ∧
      (unusePins s c).handle_count = totalRegions (unusePins s c).fdict
    rw [h1, h2, h3]
    exact ih
  | destroy c => exact acc_destroyCursor s c ih
  | collectStep size => exact acc_collectLru s size ih

theorem acc_reachable {s : MState} (h : Reachable s) :
    s.memory_size = totalMemory s.fdict ∧ s.handle_count = totalRegions s.fdict := by
  induction h with
  | init windowSize maxMemorySize maxOpenHandles is64 sliding page hp => exact ⟨rfl, rfl⟩
  | step hr hst ih => exact acc_step hst ih

/-!
## C2: the budget counters track the region lists
-/

/-- C2: in every reachable manager state, `mapped_memory_size()` equals
the sum of `region.size` over all regions of all region lists, and
`num_file_handles()` equals the total number of regions (the counter
updates of mman.py 305-308, 344-346 and 551-553 keep both equalities);
moreover, every modelled operation applied to such a state preserves
both equalities. -/
theorem C2_accounting_invariant (s : MState) (h : Reachable s) :
    accountingB s = true ∧ ∀ s', Step s s' → accountingB s' = true := by
  have hacc := acc_reachable h
  refine ⟨(accountingB_iff s).2 hacc, ?_⟩
  intro s' hst
  exact (accountingB_iff s').2 (acc_step hst hacc)

theorem C2_accounting_invariant_witness :
    accountingB (useRegion envAll wSliding0 wCursor0 10000 100 0).1 = true ∧
    ∀ s', Step (useRegion envAll wSliding0 wCursor0 10000 100 0).1 s' →
      accountingB s' = true :=
  C2_accounting_invariant (useRegion envAll wSliding0 wCursor0 10000 100 0).1
    (Reachable.step
      (Reachable.step
        (Reachable.init 4096 (10 * MB) 100 true true 4096 (by decide))
        (Step.mkCur (mkManager 4096 (10 * MB) 100 true true 4096) 1 (1024 * 1024)
          (by decide)))
      (Step.use wSliding0 envAll wCursor0 10000 100 0 (by decide)))

/-! ## Placement safety of the sliding window plan (for C4) -/

theorem plan_ins_eq (regs : List MapRegion) (fsize offset size W page : Nat) :
    (slidingPlan regs fsize offset size W page).ins = findInsertPos regs offset := rfl

theorem planRight_ofs_of_lt {regs : List MapRegion} {fsize offset : Nat}
    (h : findInsertPos regs offset < regs.length) :
    (planRight regs fsize offset).ofs
      = (regs.getD (findInsertPos regs offset) default)._b := by
  unfold planRight
  by_cases h0 : findInsertPos regs offset = 0
  · have hl : 0 < regs.length := by omega
    simp [h0, hl, MapWindow.from_region]
  · have hl : findInsertPos regs offset ≠ regs.length := by omega
    simp [h0, hl, MapWindow.from_region]

theorem planRight_cases (regs : List MapRegion) (fsize offset : Nat) :
    (∃ q ∈ regs, planRight regs fsize offset = MapWindow.from_region q) ∨
    planRight regs fsize offset = ⟨fsize, 0⟩ := by
  unfold planRight
  by_cases h0 : findInsertPos regs offset = 0
  · by_cases hl : 0 < regs.length
    · left
      refine ⟨regs.getD 0 default, ?_, ?_⟩
      · rw [List.getD_eq_getElem _ _ hl]
        exact List.getElem_mem _
      · simp [h0, hl]
    · right
      simp [h0, hl]
  · by_cases hl : findInsertPos regs offset ≠ regs.length
    · left
      have hlt : findInsertPos regs offset < regs.length :=
        Nat.lt_of_le_of_ne (findInsertPos_le regs offset) hl
      refine ⟨regs.getD (findInsertPos regs offset) default, ?_, ?_⟩
      · rw [List.getD_eq_getElem _ _ hlt]
        exact List.getElem_mem _
      · simp [h0, hl]
    · right
      simp [h0, hl]

theorem planMid1_ofsEnd_dvd (regs : List MapRegion) (fsize offset size W page : Nat)
    (hp : 0 < page) : page ∣ (planMid1 regs fsize offset size W page).ofsEnd := by
  unfold planMid1
  rw [align_ofsEnd _ _ hp]
  exact dvd_alignUp _ _

/-- The planned window either keeps the aligned end or is clamped exactly
to the right neighbour's begin (mman.py 525-527). -/
theorem plan_mid_ofsEnd_cases (regs : List MapRegion) {fsize offset : Nat}
    (size W page : Nat) (hofs : offset < fsize) :
    (slidingPlan regs fsize offset size W page).mid.ofsEnd
        = (planMid1 regs fsize offset size W page).ofsEnd ∨
    (slidingPlan regs fsize offset size W page).mid.ofsEnd
        = (planRight regs fsize offset).ofs := by
  have h2 := planMid1_ofs_le regs fsize offset size W page
  have h3 := planRight_gt regs hofs
  unfold slidingPlan
  dsimp only
  simp only [MapWindow.ofsEnd] at *
  split
  · right
    simp only [MapWindow.ofsEnd]
    omega
  · left
    rfl

/-- The aligned plan never reaches back into the left neighbour: every
region strictly before the insertion position ends at or before the
planned begin.  This uses the page-alignment of region ends — alignment
rounds the begin down, but never below the (page-aligned) end of the
previous region. -/
theorem plan_mid_ofs_ge_left (regs : List MapRegion) {fsize offset : Nat}
    (size W page : Nat) (hp : 0 < page)
    (hpair : regs.Pairwise ordRel)
    (hprops : ∀ r ∈ regs, 0 < r.size ∧ page ∣ r._b ∧
      (page ∣ (r._b + r.size) ∨ r._b + r.size = fsize) ∧ r._b + r.size ≤ fsize)
    (hmiss : ∀ r ∈ regs, r.includes_ofs offset = false)
    (hofs : offset < fsize)
    {i : Nat} (hi : i < findInsertPos regs offset) (_hil : i < regs.length) :
    (regs.getD i default)._b + (regs.getD i default).size ≤
      (slidingPlan regs fsize offset size W page).mid.ofs := by
  have hlast : findInsertPos regs offset - 1 < regs.length := by
    have := findInsertPos_le regs offset
    omega
  have hLb : (regs.getD (findInsertPos regs offset - 1) default)._b ≤ offset :=
    findInsertPos_before regs offset hlast (by omega)
  have hLmem : regs.getD (findInsertPos regs offset - 1) default ∈ regs := by
    rw [List.getD_eq_getElem _ _ hlast]
    exact List.getElem_mem _
  have hLninc := hmiss _ hLmem
  rw [includes_ofs_false_iff] at hLninc
  have hLend : (regs.getD (findInsertPos regs offset - 1) default)._b +
      (regs.getD (findInsertPos regs offset - 1) default).size ≤ offset := by
    omega
  have hpl : planLeft regs offset =
      MapWindow.from_region (regs.getD (findInsertPos regs offset - 1) default) := by
    unfold planLeft
    rw [if_neg (by omega)]
  have hplEnd : (planLeft regs offset).ofsEnd =
      (regs.getD (findInsertPos regs offset - 1) default)._b +
        (regs.getD (findInsertPos regs offset - 1) default).size := by
    rw [hpl]
    rfl
  have hLd : page ∣ ((regs.getD (findInsertPos regs offset - 1) default)._b +
      (regs.getD (findInsertPos regs offset - 1) default).size) := by
    rcases (hprops _ hLmem).2.2.1 with hd | he
    · exact hd
    · exact absurd he (by omega)
  have h1 : (planLeft regs offset).ofsEnd ≤ offset := by
    rw [hplEnd]
    exact hLend
  have h2 := extend_left_ofs_ge ⟨offset, size⟩ (planLeft regs offset) W h1
  have h4 : (regs.getD (findInsertPos regs offset - 1) default)._b +
      (regs.getD (findInsertPos regs offset - 1) default).size ≤
      (planMid1 regs fsize offset size W page).ofs := by
    unfold planMid1
    refine align_ofs_ge _ page hp hLd ?_
    rw [extend_right_ofs]
    rw [hplEnd] at h2
    exact h2
  rw [plan_mid_ofs]
  by_cases hii : i = findInsertPos regs offset - 1
  · rw [hii]
    exact h4
  · have hord := pairwise_getD hpair (show i < findInsertPos regs offset - 1 by omega) hlast
    unfold ordRel at hord
    omega

/-- Inserting a region that fits strictly between its neighbours keeps the
sequence sorted and non-overlapping. -/
theorem pairwise_insertAt {regs : List MapRegion} {x : MapRegion} {n : Nat}
    (hpair : regs.Pairwise ordRel)
    (hleft : ∀ a ∈ regs.take n, ordRel a x)
    (hright : ∀ b ∈ regs.drop n, ordRel x b) :
    (insertAt regs n x).Pairwise ordRel := by
  unfold insertAt
  rw [List.pairwise_append]
  refine ⟨hpair.sublist (List.take_sublist _ _), ?_, ?_⟩
  · rw [List.pairwise_cons]
    exact ⟨hright, hpair.sublist (List.drop_sublist _ _)⟩
  · intro a ha b hb
    have hsplit : (regs.take n ++ regs.drop n).Pairwise ordRel := by
      rw [List.take_append_drop]
      exact hpair
    rw [List.pairwise_append] at hsplit
    rcases List.mem_cons.1 hb with heq | hbd
    · subst heq
      exact hleft a ha
    · exact hsplit.2.2 a ha b hbd

/-- The sliding placement: inserting the freshly mapped planned window at
the chosen position preserves the full per-list invariant — in
particular, the new region overlaps no existing one. -/
theorem rlinv_insert_plan (W nr : Nat) {page fsize offset size : Nat}
    {regs : List MapRegion}
    (hp : 0 < page) (hsz : 0 < size) (hofs : offset < fsize)
    (hpair : regs.Pairwise ordRel)
    (hprops : ∀ r ∈ regs, 0 < r.size ∧ page ∣ r._b ∧
      (page ∣ (r._b + r.size) ∨ r._b + r.size = fsize) ∧ r._b + r.size ≤ fsize)
    (hmiss : ∀ r ∈ regs, r.includes_ofs offset = false) :
    (insertAt regs (findInsertPos regs offset)
        (mkMapRegion nr (slidingPlan regs fsize offset size W page).mid.ofs
          (slidingPlan regs fsize offset size W page).mid.size fsize)).Pairwise ordRel ∧
    ∀ r ∈ insertAt regs (findInsertPos regs offset)
        (mkMapRegion nr (slidingPlan regs fsize offset size W page).mid.ofs
          (slidingPlan regs fsize offset size W page).mid.size fsize),
      0 < r.size ∧ page ∣ r._b ∧ (page ∣ (r._b + r.size) ∨ r._b + r.size = fsize) ∧
        r._b + r.size ≤ fsize := by
  set x := mkMapRegion nr (slidingPlan regs fsize offset size W page).mid.ofs
    (slidingPlan regs fsize offset size W page).mid.size fsize with hx
  have hxb : x._b = (slidingPlan regs fsize offset size W page).mid.ofs := rfl
  have hxs : x.size = min (slidingPlan regs fsize offset size W page).mid.size
      (fsize - (slidingPlan regs fsize offset size W page).mid.ofs) := rfl
  have hoLe := plan_mid_ofs_le regs fsize offset size W page
  have hEndGt := plan_mid_ofsEnd_gt regs size W page hp hsz hofs
  have hEndDef : (slidingPlan regs fsize offset size W page).mid.ofsEnd
      = (slidingPlan regs fsize offset size W page).mid.ofs +
        (slidingPlan regs fsize offset size W page).mid.size := rfl
  have hxpos : 0 < x.size := by
    rw [hxs]
    rw [hEndDef] at hEndGt
    omega
  have hxd : page ∣ x._b := by
    rw [hxb, plan_mid_ofs]
    unfold planMid1
    exact align_ofs_dvd _ _
  have hxendle : x._b + x.size ≤ fsize := by
    rw [hxb, hxs]
    omega
  have hxend_eq : x._b + x.size
      = min ((slidingPlan regs fsize offset size W page).mid.ofsEnd) fsize := by
    rw [hxb, hxs, hEndDef]
    omega
  have hxendd : page ∣ (x._b + x.size) ∨ x._b + x.size = fsize := by
    by_cases hE : fsize ≤ (slidingPlan regs fsize offset size W page).mid.ofsEnd
    · right
      rw [hxend_eq]
      omega
    · have hxe : x._b + x.size = (slidingPlan regs fsize offset size W page).mid.ofsEnd := by
        rw [hxend_eq]
        omega
      rcases plan_mid_ofsEnd_cases regs size W page hofs with hc | hc
      · left
        rw [hxe, hc]
        exact planMid1_ofsEnd_dvd regs fsize offset size W page hp
      · rcases planRight_cases regs fsize offset with ⟨q, hqmem, hq⟩ | hq
        · left
          rw [hxe, hc, hq]
          exact (hprops q hqmem).2.1
        · right
          rw [hxe, hc, hq]
  have hxleft : ∀ a ∈ regs.take (findInsertPos regs offset), ordRel a x := by
    intro a ha
    obtain ⟨i, hi, hai⟩ := List.getElem_of_mem ha
    rw [List.length_take] at hi
    have hi1 : i < findInsertPos regs offset := lt_of_lt_of_le hi (min_le_left _ _)
    have hi2 : i < regs.length := lt_of_lt_of_le hi (min_le_right _ _)
    have hgeti : a = regs.getD i default := by
      rw [← hai, List.getD_eq_getElem _ _ hi2]
      exact List.getElem_take regs
    have hle := plan_mid_ofs_ge_left regs size W page hp hpair hprops hmiss hofs hi1 hi2
    unfold ordRel
    rw [hgeti, hxb]
    exact hle
  have hxright : ∀ b ∈ regs.drop (findInsertPos regs offset), ordRel x b := by
    intro b hb
    obtain ⟨j, hj, hbj⟩ := List.getElem_of_mem hb
    rw [List.length_drop] at hj
    have hjlen : findInsertPos regs offset + j < regs.length := by omega
    have hgetj : b = regs.getD (findInsertPos regs offset + j) default := by
      rw [← hbj, List.getD_eq_getElem _ _ hjlen]
      exact List.getElem_drop regs
    have hins_lt : findInsertPos regs offset < regs.length := by omega
    have hrofs : (planRight regs fsize offset).ofs
        = (regs.getD (findInsertPos regs offset) default)._b := planRight_ofs_of_lt hins_lt
    have hmidle := plan_mid_ofsEnd_le_right regs size W page hofs
    have hxe_le : x._b + x.size ≤ (slidingPlan regs fsize offset size W page).mid.ofsEnd := by
      rw [hxend_eq]
      omega
    have hchain : (regs.getD (findInsertPos regs offset) default)._b ≤
        (regs.getD (findInsertPos regs offset + j) default)._b := by
      cases j with
      | zero => simp
      | succ j2 =>
        have hord := pairwise_getD hpair
          (show findInsertPos regs offset < findInsertPos regs offset + (j2 + 1) by omega)
          hjlen
        unfold ordRel at hord
        omega
    unfold ordRel
    rw [hgetj]
    omega
  refine ⟨pairwise_insertAt hpair hxleft hxright, ?_⟩
  intro r hr
  rcases List.mem_cons.1 ((insertAt_perm regs (findInsertPos regs offset) x).mem_iff.1 hr)
    with heq | hmem
  · subst heq
    exact ⟨hxpos, hxd, hxendd, hxendle⟩
  · exact hprops r hmem

/-! ## The structural invariant through every operation (for C4) -/

theorem rlinv_of_entrySub {pg : Nat} {p' p : Nat × MapRegionList}
    (h : entrySub p' p) (hinv : RLInvP pg p.2) : RLInvP pg p'.2 := by
  obtain ⟨_, _, hfs, hsubl⟩ := h
  obtain ⟨hpair, hmax, hprops⟩ := hinv
  refine ⟨hpair.sublist hsubl, ?_, ?_⟩
  · rw [hfs]
    exact hmax
  · intro r hr
    have hthis := hprops r (hsubl.subset hr)
    rw [hfs]
    exact hthis

theorem invF_of_entrySub {pg : Nat} {fd' fd : List (Nat × MapRegionList)}
    (h : List.Forall₂ entrySub fd' fd) :
    (∀ p ∈ fd, RLInvP pg p.2) → ∀ p' ∈ fd', RLInvP pg p'.2 := by
  induction h with
  | nil =>
    intro _ p hp
    simp at hp
  | @cons a b l1 l2 hpq hrest ih =>
    intro hinv p' hp'
    rcases List.mem_cons.1 hp' with heq | hmem
    · subst heq
      exact rlinv_of_entrySub hpq (hinv b (List.mem_cons_self _ _))
    · exact ih (fun p hp => hinv p (List.mem_cons_of_mem _ hp)) p' hmem

theorem inv_collectLru (s : MState) (size : Nat)
    (hinv : 0 < s.page ∧ ∀ p ∈ s.fdict, RLInvP s.page p.2) :
    0 < (collectLru s size).1.page ∧
      ∀ p ∈ (collectLru s size).1.fdict, RLInvP (collectLru s size).1.page p.2 := by
  obtain ⟨hsub, hcfg, _⟩ := collectLru_spec s size
  have hpage : (collectLru s size).1.page = s.page := hcfg.2.2.2.1
  rw [hpage]
  exact ⟨hinv.1, invF_of_entrySub hsub hinv.2⟩

theorem inv_stampRegion (s : MState) (fid rid : Nat)
    (hinv : 0 < s.page ∧ ∀ p ∈ s.fdict, RLInvP s.page p.2) :
    0 < (stampRegion s fid rid).page ∧
      ∀ p ∈ (stampRegion s fid rid).fdict, RLInvP (stampRegion s fid rid).page p.2 := by
  have hpage : (stampRegion s fid rid).page = s.page := rfl
  have hfd : (stampRegion s fid rid).fdict = setRList s.fdict fid
      { getRList s fid with regions := (getRList s fid).regions.map (fun r => if r.rid == rid then { r with _uc := s.clock + 1 } else r) } := rfl
  rw [hpage, hfd]
  refine ⟨hinv.1, ?_⟩
  intro p' hp'
  rcases setRList_mem hp' with hold | hnew
  · exact hinv.2 p' hold
  · rw [hnew]
    cases hf : s.fdict.find? (fun q => q.1 == fid) with
    | none =>
      have hrl : getRList s fid = ⟨fid, 0, []⟩ := by
        unfold getRList
        rw [hf]
      rw [hrl]
      unfold RLInvP
      dsimp only
      refine ⟨by simp, by simp, ?_⟩
      intro r hr
      simp at hr
    | some q =>
      have hrl : getRList s fid = q.2 := getRList_fileSize_of_find? hf
      obtain ⟨hpair, hmax, hprops⟩ := hinv.2 q (List.mem_of_find?_eq_some hf)
      rw [hrl]
      unfold RLInvP
      dsimp only
      refine ⟨?_, hmax, ?_⟩
      · refine List.Pairwise.map _ (fun a b hab => ?_) hpair
        unfold ordRel at hab ⊢
        rw [(stamp_f_shape rid (s.clock + 1) a).1, (stamp_f_shape rid (s.clock + 1) a).2.1,
          (stamp_f_shape rid (s.clock + 1) b).1]
        exact hab
      · intro r' hr'
        obtain ⟨r, hrmem, rfl⟩ := List.mem_map.1 hr'
        obtain ⟨h1, h2, h3, h4⟩ := hprops r hrmem
        rw [(stamp_f_shape rid (s.clock + 1) r).1, (stamp_f_shape rid (s.clock + 1) r).2.1]
        exact ⟨h1, h2, h3, h4⟩

theorem inv_staticOnce {env : Nat → Bool} {s : MState} {fid offset size flags : Nat}
    {s' : MState} {res : ObtainRes}
    (h : staticObtainOnce env s fid offset size flags = (s', res))
    (hofs : offset < (getRList s fid).file_size)
    (hinv : 0 < s.page ∧ ∀ p ∈ s.fdict, RLInvP s.page p.2) :
    0 < s'.page ∧ ∀ p ∈ s'.fdict, RLInvP s'.page p.2 := by
  unfold staticObtainOnce at h
  set s1 := if decide (s.max_memory_size < s.memory_size + size) then (collectLru s size).1
            else s with hs1
  dsimp only at h
  have hinv1 : 0 < s1.page ∧ ∀ p ∈ s1.fdict, RLInvP s1.page p.2 := by
    rw [hs1]
    split
    · exact inv_collectLru s size hinv
    · exact hinv
  have hsub1 : List.Forall₂ entrySub s1.fdict s.fdict := by
    rw [hs1]
    split
    · exact (collectLru_spec s size).1
    · exact entrySub_refl _
  have hofs1 : offset < (getRList s1 fid).file_size := by
    rw [(entrySub_getRList hsub1 fid).1]
    exact hofs
  cases hregs : (getRList s1 fid).regions with
  | cons r0 rest =>
    rw [hregs] at h
    dsimp only at h
    split at h
    · split at h
      · obtain ⟨rfl, _⟩ := Prod.mk.inj h
        exact hinv1
      · obtain ⟨rfl, _⟩ := Prod.mk.inj h
        exact hinv1
    · obtain ⟨rfl, _⟩ := Prod.mk.inj h
      exact hinv1
  | nil =>
    rw [hregs] at h
    dsimp only at h
    split at h
    · obtain ⟨q1, hf1⟩ : ∃ q1, s1.fdict.find? (fun p => p.1 == fid) = some q1 := by
        cases hf : s1.fdict.find? (fun p => p.1 == fid) with
        | none =>
          exfalso
          unfold getRList at hofs1
          rw [hf] at hofs1
          simp at hofs1
        | some q1 => exact ⟨q1, rfl⟩
      obtain ⟨hpair1q, hmax1q, hprops1q⟩ := hinv1.2 q1 (List.mem_of_find?_eq_some hf1)
      have hrl1 : getRList s1 fid = q1.2 := getRList_fileSize_of_find? hf1
      have hmax1 : (getRList s1 fid).file_size ≤ sysMaxint := by
        rw [hrl1]
        exact hmax1q
      have hinvApp : 0 < (regionAppend s1 fid (getRList s1 fid)
          (mkMapRegion s1.next_rid 0 sysMaxint (getRList s1 fid).file_size)).page ∧
          ∀ p ∈ (regionAppend s1 fid (getRList s1 fid)
            (mkMapRegion s1.next_rid 0 sysMaxint (getRList s1 fid).file_size)).fdict,
            RLInvP (regionAppend s1 fid (getRList s1 fid)
              (mkMapRegion s1.next_rid 0 sysMaxint (getRList s1 fid).file_size)).page p.2 := by
        set x := mkMapRegion s1.next_rid 0 sysMaxint (getRList s1 fid).file_size with hxdef
        have hpage : (regionAppend s1 fid (getRList s1 fid) x).page = s1.page := rfl
        have hfd : (regionAppend s1 fid (getRList s1 fid) x).fdict
            = setRList s1.fdict fid
                { getRList s1 fid with regions := (getRList s1 fid).regions ++ [x] } := rfl
        rw [hpage, hfd]
        refine ⟨hinv1.1, ?_⟩
        intro p' hp'
        rcases setRList_mem hp' with hold | hnew
        · exact hinv1.2 p' hold
        · rw [hnew]
          unfold RLInvP
          dsimp only
          have hxb : x._b = 0 := rfl
          have hxs : x.size = min sysMaxint ((getRList s1 fid).file_size - 0) := rfl
          refine ⟨?_, hmax1, ?_⟩
          · rw [hregs]
            simp
          · intro r hr
            rw [hregs] at hr
            simp only [List.nil_append, List.mem_singleton] at hr
            subst hr
            refine ⟨by omega, ?_, Or.inr (by omega), by omega⟩
            rw [hxb]
            exact dvd_zero _
      split at h
      · obtain ⟨rfl, _⟩ := Prod.mk.inj h
        exact hinvApp
      · obtain ⟨rfl, _⟩ := Prod.mk.inj h
        exact hinvApp
    · obtain ⟨rfl, _⟩ := Prod.mk.inj h
      exact hinv1

theorem inv_slidingOnce {env : Nat → Bool} {s : MState} {fid offset size flags : Nat}
    {s' : MState} {res : ObtainRes}
    (h : slidingObtainOnce env s fid offset size flags = (s', res))
    (hofs : offset < (getRList s fid).file_size) (hsz : 0 < size)
    (hinv : 0 < s.page ∧ ∀ p ∈ s.fdict, RLInvP s.page p.2) :
    0 < s'.page ∧ ∀ p ∈ s'.fdict, RLInvP s'.page p.2 := by
  obtain ⟨q0, hf0⟩ : ∃ q0, s.fdict.find? (fun p => p.1 == fid) = some q0 := by
    cases hf : s.fdict.find? (fun p => p.1 == fid) with
    | none =>
      exfalso
      unfold getRList at hofs
      rw [hf] at hofs
      simp at hofs
    | some q0 => exact ⟨q0, rfl⟩
  have hrl0 : getRList s fid = q0.2 := getRList_fileSize_of_find? hf0
  obtain ⟨hpair0q, _, _⟩ := hinv.2 q0 (List.mem_of_find?_eq_some hf0)
  have hpairs : (getRList s fid).regions.Pairwise ordRel := by
    rw [hrl0]
    exact hpair0q
  unfold slidingObtainOnce at h
  dsimp only at h
  cases hbis : bisectFind (getRList s fid).regions offset 0 (getRList s fid).regions.length
      ((getRList s fid).regions.length + 1) with
  | some r0 =>
    rw [hbis] at h
    dsimp only at h
    obtain ⟨rfl, _⟩ := Prod.mk.inj h
    exact hinv
  | none =>
    rw [hbis] at h
    dsimp only at h
    have hmiss0 : ∀ r ∈ (getRList s fid).regions, r.includes_ofs offset = false :=
      bisect_none_top hpairs hbis
    set s1 := slidingPre s with hs1
    have hinv1 : 0 < s1.page ∧ ∀ p ∈ s1.fdict, RLInvP s1.page p.2 := by
      rw [hs1]
      unfold slidingPre
      split
      · exact inv_collectLru s s.window_size hinv
      · exact hinv
    have hsub1 : List.Forall₂ entrySub s1.fdict s.fdict := by
      rw [hs1]
      unfold slidingPre
      split
      · exact (collectLru_spec s s.window_size).1
      · exact entrySub_refl _
    have hofs1 : offset < (getRList s1 fid).file_size := by
      rw [(entrySub_getRList hsub1 fid).1]
      exact hofs
    have hmiss1 : ∀ r ∈ (getRList s1 fid).regions, r.includes_ofs offset = false := by
      intro r hr
      exact hmiss0 r ((entrySub_getRList hsub1 fid).2.subset hr)
    split at h
    · obtain ⟨rfl, _⟩ := Prod.mk.inj h
      exact hinv1
    · split at h
      · obtain ⟨rfl, _⟩ := Prod.mk.inj h
        obtain ⟨q1, hf1⟩ : ∃ q1, s1.fdict.find? (fun p => p.1 == fid) = some q1 := by
          cases hf : s1.fdict.find? (fun p => p.1 == fid) with
          | none =>
            exfalso
            unfold getRList at hofs1
            rw [hf] at hofs1
            simp at hofs1
          | some q1 => exact ⟨q1, rfl⟩
        have hrl1 : getRList s1 fid = q1.2 := getRList_fileSize_of_find? hf1
        obtain ⟨hpair1q, hmax1q, hprops1q⟩ := hinv1.2 q1 (List.mem_of_find?_eq_some hf1)
        have hpair1 : (getRList s1 fid).regions.Pairwise ordRel := by
          rw [hrl1]
          exact hpair1q
        have hmax1 : (getRList s1 fid).file_size ≤ sysMaxint := by
          rw [hrl1]
          exact hmax1q
        have hprops1 : ∀ r ∈ (getRList s1 fid).regions, 0 < r.size ∧ s1.page ∣ r._b ∧
            (s1.page ∣ (r._b + r.size) ∨ r._b + r.size = (getRList s1 fid).file_size) ∧
            r._b + r.size ≤ (getRList s1 fid).file_size := by
          intro r hr
          rw [hrl1] at hr ⊢
          exact hprops1q r hr
        obtain ⟨hPW, hPR⟩ := rlinv_insert_plan s1.window_size s1.next_rid hinv1.1 hsz
          hofs1 hpair1 hprops1 hmiss1
        unfold regionInsert
        dsimp only
        refine ⟨hinv1.1, ?_⟩
        intro p' hp'
        rcases setRList_mem hp' with hold | hnew
        · exact hinv1.2 p' hold
        · rw [hnew]
          unfold RLInvP
          dsimp only
          rw [plan_ins_eq]
          exact ⟨hPW, hmax1, hPR⟩
      · obtain ⟨rfl, _⟩ := Prod.mk.inj h
        exact hinv1

theorem inv_obtain {env : Nat → Bool} {s : MState} {fid offset size flags : Nat}
    {s' : MState} {res : Option MapRegion}
    (h : obtainRegion env s fid offset size flags = (s', res))
    (hofs : offset < (getRList s fid).file_size) (hsz : 0 < size)
    (hinv : 0 < s.page ∧ ∀ p ∈ s.fdict, RLInvP s.page p.2) :
    0 < s'.page ∧ ∀ p ∈ s'.fdict, RLInvP s'.page p.2 := by
  unfold obtainRegion at h
  split at h
  · unfold slidingObtain at h
    rcases hOnce : slidingObtainOnce env s fid offset size flags with ⟨s1, r1⟩
    rw [hOnce] at h
    have hinv1 := inv_slidingOnce hOnce hofs hsz hinv
    cases r1 with
    | ok r =>
      dsimp only at h
      obtain ⟨rfl, _⟩ := Prod.mk.inj h
      exact hinv1
    | assertFail =>
      dsimp only at h
      obtain ⟨rfl, _⟩ := Prod.mk.inj h
      exact hinv1
    | mapFail =>
      dsimp only at h
      obtain ⟨hsubx, _, _⟩ := slidingOnce_mapFail_rel hOnce
      have hinv2 := inv_collectLru s1 0 hinv1
      have hsub : List.Forall₂ entrySub ((collectLru s1 0).1).fdict s.fdict :=
        entrySub_trans (collectLru_spec s1 0).1 hsubx
      have hofs2 : offset < (getRList (collectLru s1 0).1 fid).file_size := by
        rw [(entrySub_getRList hsub fid).1]
        exact hofs
      rcases hOnce2 : slidingObtainOnce env (collectLru s1 0).1 fid offset size flags
        with ⟨s3, r3⟩
      rw [hOnce2] at h
      have hinv3 := inv_slidingOnce hOnce2 hofs2 hsz hinv2
      cases r3 with
      | ok r =>
        dsimp only at h
        obtain ⟨rfl, _⟩ := Prod.mk.inj h
        exact hinv3
      | assertFail =>
        dsimp only at h
        obtain ⟨rfl, _⟩ := Prod.mk.inj h
        exact hinv3
      | mapFail =>
        dsimp only at h
        obtain ⟨rfl, _⟩ := Prod.mk.inj h
        exact hinv3
  · unfold staticObtain at h
    rcases hOnce : staticObtainOnce env s fid offset size flags with ⟨s1, r1⟩
    rw [hOnce] at h
    have hinv1 := inv_staticOnce hOnce hofs hinv
    cases r1 with
    | ok r =>
      dsimp only at h
      obtain ⟨rfl, _⟩ := Prod.mk.inj h
      exact hinv1
    | assertFail =>
      dsimp only at h
      obtain ⟨rfl, _⟩ := Prod.mk.inj h
      exact hinv1
    | mapFail =>
      dsimp only at h
      obtain ⟨hsubx, _, _⟩ := staticOnce_mapFail_rel hOnce
      have hinv2 := inv_collectLru s1 0 hinv1
      have hsub : List.Forall₂ entrySub ((collectLru s1 0).1).fdict s.fdict :=
        entrySub_trans (collectLru_spec s1 0).1 hsubx
      have hofs2 : offset < (getRList (collectLru s1 0).1 fid).file_size := by
        rw [(entrySub_getRList hsub fid).1]
        exact hofs
      rcases hOnce2 : staticObtainOnce env (collectLru s1 0).1 fid offset size flags
        with ⟨s3, r3⟩
      rw [hOnce2] at h
      have hinv3 := inv_staticOnce hOnce2 hofs2 hinv2
      cases r3 with
      | ok r =>
        dsimp only at h
        obtain ⟨rfl, _⟩ := Prod.mk.inj h
        exact hinv3
      | assertFail =>
        dsimp only at h
        obtain ⟨rfl, _⟩ := Prod.mk.inj h
        exact hinv3
      | mapFail =>
        dsimp only at h
        obtain ⟨rfl, _⟩ := Prod.mk.inj h
        exact hinv3

theorem inv_useRetarget (s : MState) (c : WindowCursor) (offset : Nat)
    (hinv : 0 < s.page ∧ ∀ p ∈ s.fdict, RLInvP s.page p.2) :
    0 < (useRetarget s c offset).2.1.page ∧
      ∀ p ∈ (useRetarget s c offset).2.1.fdict,
        RLInvP (useRetarget s c offset).2.1.page p.2 := by
  unfold useRetarget
  cases c._region with
  | none => exact hinv
  | some rid =>
    dsimp only
    split
    · exact hinv
    · have hfd := (unusePins_fields s c).1
      have hpage : (unusePins s c).page = s.page := by
        obtain ⟨_, _, _, _, _, h6, _⟩ := unusePins_fields s c
        exact h6
      show 0 < (unusePins s c).page ∧
        ∀ p ∈ (unusePins s c).fdict, RLInvP (unusePins s c).page p.2
      rw [hfd, hpage]
      exact hinv

theorem inv_usePin (s2 : MState) (c1 : WindowCursor) (fid : Nat) (needRegion : Bool)
    (r : MapRegion) (offset size : Nat)
    (hinv : 0 < s2.page ∧ ∀ p ∈ s2.fdict, RLInvP s2.page p.2) :
    0 < (usePin s2 c1 fid needRegion r offset size).1.page ∧
      ∀ p ∈ (usePin s2 c1 fid needRegion r offset size).1.fdict,
        RLInvP (usePin s2 c1 fid needRegion r offset size).1.page p.2 := by
  cases needRegion with
  | true =>
    exact inv_stampRegion
      { s2 with pins := fun k => if k = r.rid then s2.pins k + 1 else s2.pins k } fid r.rid hinv
  | false => exact inv_stampRegion s2 fid r.rid hinv

theorem inv_useRegion (env : Nat → Bool) (s : MState) (c : WindowCursor)
    (offset sizeParam flags : Nat)
    (hinv : 0 < s.page ∧ ∀ p ∈ s.fdict, RLInvP s.page p.2) :
    0 < (useRegion env s c offset sizeParam flags).1.page ∧
      ∀ p ∈ (useRegion env s c offset sizeParam flags).1.fdict,
        RLInvP (useRegion env s c offset sizeParam flags).1.page p.2 := by
  have hinv1 := inv_useRetarget s c offset hinv
  have hfd1 := (useRetarget_fdict s c offset).1
  by_cases hofs : (getRList s c.fid).file_size ≤ offset
  · rw [useRegion_eof env sizeParam flags hofs]
    exact hinv1
  · have hofs2 : offset < (getRList s c.fid).file_size := Nat.lt_of_not_le hofs
    have hsz : 0 < effectiveSize s c.fid sizeParam := effectiveSize_pos _ (by omega)
    cases hneed : (useRetarget s c offset).1 with
    | true =>
      rw [useRegion_need sizeParam flags hofs2 hneed]
      have hofs3 : offset < (getRList (useRetarget s c offset).2.1 c.fid).file_size := by
        unfold getRList
        rw [hfd1]
        exact hofs2
      rcases hOb : obtainRegion env (useRetarget s c offset).2.1 c.fid offset
          (effectiveSize s c.fid sizeParam) flags with ⟨s2, res⟩
      have hinv2 := inv_obtain hOb hofs3 hsz hinv1
      cases res with
      | none =>
        dsimp only
        exact hinv2
      | some r =>
        dsimp only
        exact inv_usePin s2 _ c.fid true r offset (effectiveSize s c.fid sizeParam) hinv2
    | false =>
      rw [useRegion_noneed sizeParam flags hofs2 hneed]
      cases hcr : cursorRegion (useRetarget s c offset).2.1 (useRetarget s c offset).2.2 with
      | none =>
        dsimp only
        exact hinv1
      | some r =>
        dsimp only
        exact inv_usePin _ _ c.fid false r offset (effectiveSize s c.fid sizeParam) hinv1

theorem inv_makeCursor (s : MState) (fid fsize : Nat) (hfs : fsize ≤ sysMaxint)
    (hinv : 0 < s.page ∧ ∀ p ∈ s.fdict, RLInvP s.page p.2) :
    0 < (makeCursor s fid fsize).1.page ∧
      ∀ p ∈ (makeCursor s fid fsize).1.fdict,
        RLInvP (makeCursor s fid fsize).1.page p.2 := by
  unfold makeCursor
  dsimp only
  split
  · exact hinv
  · refine ⟨hinv.1, ?_⟩
    intro p hp
    rcases List.mem_append.1 hp with h1 | h2
    · exact hinv.2 p h1
    · have hpe : p = (fid, ⟨fid, fsize, []⟩) := by simpa using h2
      rw [hpe]
      exact ⟨List.Pairwise.nil, hfs, fun r hr => absurd hr (List.not_mem_nil r)⟩

theorem popRList_subset {fd : List (Nat × MapRegionList)} {fid : Nat}
    {p : Nat × MapRegionList} (h : p ∈ popRList fd fid) : p ∈ fd := by
  induction fd with
  | nil => simp [popRList] at h
  | cons q rest ih =>
    unfold popRList at h
    by_cases hb : (q.1 == fid) = true
    · rw [if_pos hb] at h
      exact List.mem_cons_of_mem _ h
    · rw [if_neg hb] at h
      rcases List.mem_cons.1 h with heq | hmem
      · subst heq
        exact List.mem_cons_self _ _
      · exact List.mem_cons_of_mem _ (ih hmem)

theorem inv_destroyCursor (s : MState) (c : WindowCursor)
    (hinv : 0 < s.page ∧ ∀ p ∈ s.fdict, RLInvP s.page p.2) :
    0 < (destroyCursor s c).page ∧
      ∀ p ∈ (destroyCursor s c).fdict, RLInvP (destroyCursor s c).page p.2 := by
  have hinv1 : 0 < (unusePins s c).page ∧
      ∀ p ∈ (unusePins s c).fdict, RLInvP (unusePins s c).page p.2 := by
    have hfd := (unusePins_fields s c).1
    have hpage : (unusePins s c).page = s.page := by
      obtain ⟨_, _, _, _, _, h6, _⟩ := unusePins_fields s c
      exact h6
    rw [hfd, hpage]
    exact hinv
  unfold destroyCursor
  dsimp only
  split
  · refine ⟨hinv1.1, ?_⟩
    intro p hp
    exact hinv1.2 p (popRList_subset hp)
  · exact hinv1

/-- One modelled operation preserves the structural invariant. -/
theorem inv_step {s s' : MState} (hst : Step s s')
    (ih : 0 < s.page ∧ ∀ p ∈ s.fdict, RLInvP s.page p.2) :
    0 < s'.page ∧ ∀ p ∈ s'.fdict, RLInvP s'.page p.2 := by
  cases hst with
  | mkCur fid fsize hfs => exact inv_makeCursor s fid fsize hfs ih
  | use env c offset sizeParam flags hc =>
    exact inv_useRegion env s c offset sizeParam flags ih
  | unuse c =>
    have hfd := (unusePins_fields s c).1
    have hpage : (unusePins s c).page = s.page := by
      obtain ⟨_, _, _, _, _, h6, _⟩ := unusePins_fields s c
      exact h6
    show 0 < (unusePins s c).page ∧
      ∀ p ∈ (unusePins s c).fdict, RLInvP (unusePins s c).page p.2
    rw [hfd, hpage]
    exact ih
  | destroy c => exact inv_destroyCursor s c ih
  | collectStep size => exact inv_collectLru s size ih

theorem inv_reachable {s : MState} (h : Reachable s) :
    0 < s.page ∧ ∀ p ∈ s.fdict, RLInvP s.page p.2 := by
  induction h with
  | init windowSize maxMemorySize maxOpenHandles is64 sliding page hp =>
    refine ⟨hp, ?_⟩
    intro p hp2
    have hfd : (mkManager windowSize maxMemorySize maxOpenHandles is64 sliding page).fdict
        = [] := rfl
    rw [hfd] at hp2
    simp at hp2
  | step hr hst ih => exact inv_step hst ih

theorem chainOrdB_iff_pairwise (l : List MapRegion) :
    chainOrdB l = true ↔ l.Pairwise ordRel := by
  induction l with
  | nil => simp [chainOrdB]
  | cons r rest ih =>
    cases rest with
    | nil => simp [chainOrdB]
    | cons r2 rest2 =>
      rw [show chainOrdB (r :: r2 :: rest2)
          = (decide (r._b + r.size ≤ r2._b) && chainOrdB (r2 :: rest2)) from rfl]
      rw [Bool.and_eq_true, decide_eq_true_eq, ih]
      constructor
      · rintro ⟨h1, h2⟩
        rw [List.pairwise_cons]
        refine ⟨?_, h2⟩
        intro b hb
        rcases List.mem_cons.1 hb with heq | hb2
        · subst heq
          exact h1
        · have hord := (List.pairwise_cons.1 h2).1 b hb2
          unfold ordRel at hord ⊢
          omega
      · intro hp
        rw [List.pairwise_cons] at hp
        exact ⟨hp.1 r2 (List.mem_cons_self _ _), hp.2⟩

theorem sortedB_of_inv {s : MState}
    (hinv : 0 < s.page ∧ ∀ p ∈ s.fdict, RLInvP s.page p.2) :
    sortedB s = true := by
  unfold sortedB
  rw [List.all_eq_true]
  intro p hp2
  show chainOrdB p.2.regions = true
  rw [chainOrdB_iff_pairwise]
  obtain ⟨hpair, _, _⟩ := hinv.2 p hp2
  exact hpair

/-!
## C4: region lists stay sorted and non-overlapping
-/

/-- C4: in every reachable manager state, each file's region list is
sorted by `begin` with strictly non-overlapping regions
(`r.begin + r.size ≤ next.begin` for adjacent pairs), and every modelled
operation preserves this — in particular the sliding placement
(mman.py 489-553) inserts the new window without overlapping an existing
region; moreover the planned window never overreaches the right
neighbour: after the clamp of mman.py 525-527,
`mid.ofs_end ≤ right.ofs` whenever the requested offset is inside the
file. -/
theorem C4_sorted_nonoverlapping (s : MState) (h : Reachable s) :
    sortedB s = true ∧
    (∀ s', Step s s' → sortedB s' = true) ∧
    (∀ (regs : List MapRegion) (fsize offset size W page : Nat), offset < fsize →
      (slidingPlan regs fsize offset size W page).mid.ofsEnd ≤
        (slidingPlan regs fsize offset size W page).right.ofs) := by
  have hinv := inv_reachable h
  refine ⟨sortedB_of_inv hinv, ?_, ?_⟩
  · intro s' hst
    exact sortedB_of_inv (inv_step hst hinv)
  · intro regs fsize offset size W page hofs
    rw [plan_right_eq]
    exact plan_mid_ofsEnd_le_right regs size W page hofs

theorem C4_sorted_nonoverlapping_witness :
    sortedB (useRegion envAll wSliding0 wCursor0 10000 100 0).1 = true ∧
    (∀ s', Step (useRegion envAll wSliding0 wCursor0 10000 100 0).1 s' →
      sortedB s' = true) ∧
    (∀ (regs : List MapRegion) (fsize offset size W page : Nat), offset < fsize →
      (slidingPlan regs fsize offset size W page).mid.ofsEnd ≤
        (slidingPlan regs fsize offset size W page).right.ofs) :=
  C4_sorted_nonoverlapping (useRegion envAll wSliding0 wCursor0 10000 100 0).1
    (Reachable.step
      (Reachable.step
        (Reachable.init 4096 (10 * MB) 100 true true 4096 (by decide))
        (Step.mkCur (mkManager 4096 (10 * MB) 100 true true 4096) 1 (1024 * 1024)
          (by decide)))
      (Step.use wSliding0 envAll wCursor0 10000 100 0 (by decide)))

/-!
## C10: `unuse_region` invalidates but does not reset `_ofs`/`_size`
-/

/-- C10: after `unuse_region()` on a cursor that held a pin, `is_valid()`
is `False`, but the cursor's `_ofs` and `_size` are not reset, so `size()`
still returns the size of the previously pinned view (mman.py 124-131,
129-131 spare the reset deliberately). -/
theorem C10_unuse_keeps_view (s : MState) (c : WindowCursor) (rid : Nat)
    (_hpin : c._region = some rid) :
    isValid (unuseCursor s c).2 = false ∧
    cursorSize (unuseCursor s c).2 = c._size ∧
    (unuseCursor s c).2._ofs = c._ofs ∧
    (unuseCursor s c).2._size = c._size := by
  unfold unuseCursor isValid cursorSize
  exact ⟨rfl, rfl, rfl, rfl⟩

theorem C10_unuse_keeps_view_witness :
    isValid (unuseCursor (mkManager 0 100 10 true false 4096) ⟨3, some 0, 5, 7⟩).2 = false ∧
    cursorSize (unuseCursor (mkManager 0 100 10 true false 4096) ⟨3, some 0, 5, 7⟩).2 = 7 ∧
    (unuseCursor (mkManager 0 100 10 true false 4096) ⟨3, some 0, 5, 7⟩).2._ofs = 5 ∧
    (unuseCursor (mkManager 0 100 10 true false 4096) ⟨3, some 0, 5, 7⟩).2._size = 7 :=
  C10_unuse_keeps_view (mkManager 0 100 10 true false 4096) ⟨3, some 0, 5, 7⟩ 0 rfl

/-!
## C5: `use_region` past the end of the file
-/

/-- C5: a `use_region(offset, size)` call with `offset ≥ file_size` returns
normally (the EOF sentinel is not an error), leaves the cursor without a
pin (`is_valid()` is `False`), and does not change the manager's counters
or region lists (mman.py 109-112).  The hypothesis `pinnedWithinB` (the
pinned region, if any, lies inside the file) holds in every reachable
state; without it a stale pin covering `offset` would be kept. -/
theorem C5_eof_returns_invalid (env : Nat → Bool) (s : MState) (c : WindowCursor)
    (offset sizeParam flags : Nat)
    (hofs : (getRList s c.fid).file_size ≤ offset)
    (hwithin : pinnedWithinB s c = true) :
    (useRegion env s c offset sizeParam flags).2.2 = true ∧
    isValid (useRegion env s c offset sizeParam flags).2.1 = false ∧
    (useRegion env s c offset sizeParam flags).1.fdict = s.fdict ∧
    (useRegion env s c offset sizeParam flags).1.memory_size = s.memory_size ∧
    (useRegion env s c offset sizeParam flags).1.handle_count = s.handle_count := by
  rw [useRegion_eof env sizeParam flags hofs]
  cases hreg : c._region with
  | none =>
    rw [useRetarget_none hreg]
    exact ⟨rfl, by simp [isValid, hreg], rfl, rfl, rfl⟩
  | some rid =>
    cases hinc : regIncludesB s c.fid rid offset with
    | false =>
      rw [useRetarget_notinc hreg hinc]
      obtain ⟨h1, h2, h3, _⟩ := unusePins_fields s c
      exact ⟨rfl, by simp [isValid], h1, h2, h3⟩
    | true =>
      exfalso
      unfold regIncludesB at hinc
      unfold pinnedWithinB at hwithin
      rw [hreg] at hwithin
      cases hget : getRegion s c.fid rid with
      | none => simp only [hget] at hinc; exact absurd hinc (by simp)
      | some r =>
        simp only [hget] at hinc hwithin
        rw [includes_ofs_true_iff] at hinc
        simp at hwithin
        omega

theorem C5_eof_returns_invalid_witness :
    (useRegion (fun _ => true) (makeCursor (mkManager 0 100 10 true false 4096) 3 50).1
      ⟨3, none, 0, 0⟩ 50 10 0).2.2 = true ∧
    isValid (useRegion (fun _ => true) (makeCursor (mkManager 0 100 10 true false 4096) 3 50).1
      ⟨3, none, 0, 0⟩ 50 10 0).2.1 = false ∧
    (useRegion (fun _ => true) (makeCursor (mkManager 0 100 10 true false 4096) 3 50).1
      ⟨3, none, 0, 0⟩ 50 10 0).1.fdict =
      (makeCursor (mkManager 0 100 10 true false 4096) 3 50).1.fdict ∧
    (useRegion (fun _ => true) (makeCursor (mkManager 0 100 10 true false 4096) 3 50).1
      ⟨3, none, 0, 0⟩ 50 10 0).1.memory_size =
      (makeCursor (mkManager 0 100 10 true false 4096) 3 50).1.memory_size ∧
    (useRegion (fun _ => true) (makeCursor (mkManager 0 100 10 true false 4096) 3 50).1
      ⟨3, none, 0, 0⟩ 50 10 0).1.handle_count =
      (makeCursor (mkManager 0 100 10 true false 4096) 3 50).1.handle_count :=
  C5_eof_returns_invalid (fun _ => true) _ _ 50 10 0 (by decide) (by decide)

end Smmap
